import Mathlib

/-!
TabuSearch: the solution state and the swap neighbourhood.

A shallow embedding of `src/Solution/VectorSolution.cpp` and
`src/Neighborhood/SwapNeighborhood.cpp`.

* `double` is an arbitrary linearly ordered commutative ring `α` (exact arithmetic); every
  definition is computable and can be evaluated at `ℤ`.
* `std::vector` and the two matrix classes indexed by server, time and resource are total
  functions on `Nat`; a cell is written with `set`, which leaves every other cell alone.
* `std::vector<Disk>` is a `List Disk`; reading a disk id that is not in the list is a
  contract violation.
* `std::unordered_set<AtomMove, MoveHash>` is a `Finset AtomMove`.
* `assert` is enabled: a function that can trip an assertion returns an `Option`, and `none`
  is the contract violation.
* `for (i = 0; i < n; ++i)` is `forLoop n`, and `for (j = i; j < n; ++j)` is
  `forLoopFrom i (n - i)`.
-/

namespace TabuSearch

/-! ## Data model -/

/-- The severity enumeration `TaskData::Color`. -/
inductive Color where
  | NONE
  | GREEN
  | YELLOW
  | RED
  deriving DecidableEq

/-- The record `TaskData::Disk`: the server a disk is on and the colour of the disk. -/
structure Disk where
  serverId : Nat
  color : Color
  deriving DecidableEq

/-- The record `IMove::AtomMove`. The fields are listed in the order of the constructor
arguments, `AtomMove(destination, source, diskId)`, the order `SwapNeighborhood::getMoves`,
`MoveHash` and `moveDisk` use. -/
structure AtomMove where
  destination : Nat
  source : Nat
  diskId : Nat
  deriving DecidableEq

/-- The direction selector of `TaskData::getDiskCosts`. -/
inductive CostKind where
  | INSERT
  | ERASE
  deriving DecidableEq

/-- The read-only problem instance `TaskData`, through the accessors the solution uses:
`getCapacity(disk, resource, time)`, `getThresholdCapacity(server, resource)`,
`getThresholdOverheads()(server, resource)`, `getDiskCosts(kind, disk, server, resource)`. -/
structure TaskData (α : Type) where
  numberOfDisks : Nat
  numberOfServers : Nat
  numberOfTimes : Nat
  numberOfResource : Nat
  initialDistribution : List Disk
  thresholdOverheads : Nat → Nat → α
  thresholdCapacity : Nat → Nat → α
  capacity : Nat → Nat → Nat → α
  diskCosts : CostKind → Nat → Nat → Nat → α

/-- The class `ThreeDimensionalMatrix<double>`, read as `m server time resource`. -/
abbrev ThreeDimensionalMatrix (α : Type) := Nat → Nat → Nat → α

/-- The class `TwoDimensionalMatrix<double>`, read as `m server resource`. -/
abbrev TwoDimensionalMatrix (α : Type) := Nat → Nat → α

/-- Assignment to the cell `m.get(i, j, k)`. -/
def ThreeDimensionalMatrix.set {α : Type} (m : ThreeDimensionalMatrix α) (i j k : Nat) (v : α) :
    ThreeDimensionalMatrix α :=
  fun a b c => if a = i ∧ b = j ∧ c = k then v else m a b c

/-- Assignment to the cell `m.get(i, j)`. -/
def TwoDimensionalMatrix.set {α : Type} (m : TwoDimensionalMatrix α) (i j : Nat) (v : α) :
    TwoDimensionalMatrix α :=
  fun a b => if a = i ∧ b = j then v else m a b

/-- Assignment to `v[i]` of a vector indexed by server. -/
def setColor (v : Nat → Color) (i : Nat) (c : Color) : Nat → Color :=
  fun a => if a = i then c else v a

/-- The loop `for (i = 0; i < n; ++i) st = body i st`. -/
def forLoop {σ : Type} : Nat → (Nat → σ → σ) → σ → σ
  | 0, _, init => init
  | n + 1, body, init => body n (forLoop n body init)

/-- The loop `for (j = i; j < n; ++j) st = body j st`, as `count` iterations from `i`. -/
def forLoopFrom {σ : Type} : Nat → Nat → (Nat → σ → σ) → σ → σ
  | _, 0, _, init => init
  | i, count + 1, body, init => forLoopFrom (i + 1) count body (body i init)

/-- The members of `VectorSolution` (the reference `data` is passed to each function). -/
structure VectorSolution (α : Type) where
  distribution : List Disk
  matrixCapacity : ThreeDimensionalMatrix α
  thresholdOverheadsServer : TwoDimensionalMatrix α
  objectiveValue : α
  overheads : α
  moveHistory : List AtomMove
  overheadsCoefficient : α
  serversColor : Nat → Color
  appliedMoves : Finset AtomMove

variable {α : Type}

/-! ## Overheads -/

section Overheads

variable [LinearOrderedCommRing α]

/-- The function `antiHandlerOverheads`. -/
def antiHandlerOverheads (capacity overheads startOverheads : α) : α :=
  if capacity < 0 ∧ capacity + overheads ≥ 0 then startOverheads - |capacity|
  else if capacity + overheads < 0 then startOverheads - overheads
  else startOverheads

/-- The function `handlerOverheads`. -/
def handlerOverheads (capacity overheads startOverheads : α) : α :=
  if capacity ≤ 0 then startOverheads + overheads
  else if capacity - overheads < 0 then startOverheads + (overheads - capacity)
  else startOverheads

/-- The body of the resource loop of `getOverheads`, on the pair of the ledger and the running
overheads. `sourceCapacity` and `destinationCapacity` are references into the ledger, so the
destination cell is read after the source cell has been written. -/
def getOverheadsResource (data : TaskData α) (atomMove : AtomMove) (moveMeetPreviously : Bool)
    (resource : Nat) (st : TwoDimensionalMatrix α × α) : TwoDimensionalMatrix α × α :=
  let ledger := st.1
  let startOverheads := st.2
  if moveMeetPreviously then
    let eraseOverhead := data.diskCosts CostKind.ERASE atomMove.diskId atomMove.destination resource
    let insertOverhead := data.diskCosts CostKind.INSERT atomMove.diskId atomMove.source resource
    let startOverheads1 :=
      antiHandlerOverheads (ledger atomMove.source resource) insertOverhead startOverheads
    let ledger1 :=
      ledger.set atomMove.source resource (ledger atomMove.source resource + insertOverhead)
    let startOverheads2 :=
      antiHandlerOverheads (ledger1 atomMove.destination resource) eraseOverhead startOverheads1
    let ledger2 :=
      ledger1.set atomMove.destination resource
        (ledger1 atomMove.destination resource + eraseOverhead)
    (ledger2, startOverheads2)
  else
    let eraseOverhead := data.diskCosts CostKind.ERASE atomMove.diskId atomMove.source resource
    let insertOverhead :=
      data.diskCosts CostKind.INSERT atomMove.diskId atomMove.destination resource
    let startOverheads1 :=
      handlerOverheads (ledger atomMove.source resource) eraseOverhead startOverheads
    let ledger1 :=
      ledger.set atomMove.source resource (ledger atomMove.source resource - eraseOverhead)
    let startOverheads2 :=
      handlerOverheads (ledger1 atomMove.destination resource) insertOverhead startOverheads1
    let ledger2 :=
      ledger1.set atomMove.destination resource
        (ledger1 atomMove.destination resource - insertOverhead)
    (ledger2, startOverheads2)

/-- The inverse of an atomic move: `AtomMove(atomMove.source, atomMove.destination, diskId)`,
whose destination is the source of `atomMove` and whose source is its destination. -/
def AtomMove.inverse (atomMove : AtomMove) : AtomMove :=
  AtomMove.mk atomMove.source atomMove.destination atomMove.diskId

/-- The method `VectorSolution::getOverheads(atomMove, appliedMoves, thresholdOverheadsServer,
startOverheads)`: the new applied-move set, the new ledger and the returned overheads. -/
def getOverheads (data : TaskData α) (atomMove : AtomMove) (appliedMoves : Finset AtomMove)
    (thresholdOverheadsServer : TwoDimensionalMatrix α) (startOverheads : α) :
    Finset AtomMove × TwoDimensionalMatrix α × α :=
  let moveMeetPreviously : Bool := decide (atomMove ∈ appliedMoves)
  let st := forLoop data.numberOfResource
    (getOverheadsResource data atomMove moveMeetPreviously)
    (thresholdOverheadsServer, startOverheads)
  let appliedMoves1 :=
    if moveMeetPreviously then appliedMoves.erase atomMove
    else insert atomMove.inverse appliedMoves
  (appliedMoves1, st.1, st.2)

end Overheads

/-! ## Validation -/

/-- The colour `distribution[diskId].color`. -/
def diskColor (distribution : List Disk) (diskId : Nat) : Option Color :=
  (distribution[diskId]?).map Disk.color

/-- The server `distribution[diskId].serverId`. -/
def diskServer (distribution : List Disk) (diskId : Nat) : Option Nat :=
  (distribution[diskId]?).map Disk.serverId

/-- The loop of `moveIsCorrect` over the atomic moves: the two assertions, then the two
rejections. -/
def moveIsCorrectLoop (s : VectorSolution α) : List AtomMove → Option Bool
  | [] => some true
  | atomMove :: rest =>
    if atomMove.source ≠ atomMove.destination
        ∧ diskServer s.distribution atomMove.diskId = some atomMove.source then
      if diskColor s.distribution atomMove.diskId = some Color.YELLOW
          ∧ s.serversColor atomMove.destination = Color.YELLOW then some false
      else if diskColor s.distribution atomMove.diskId = some Color.RED then some false
      else moveIsCorrectLoop s rest
    else none

/-- The method `VectorSolution::moveIsCorrect`; a move is the list `move.getAtomMove()`. -/
def moveIsCorrect (s : VectorSolution α) (atomMoves : List AtomMove) : Option Bool :=
  match atomMoves with
  | [atomMove1, atomMove2] =>
    match s.distribution[atomMove1.diskId]?, s.distribution[atomMove2.diskId]? with
    | some disk1, some disk2 =>
      if (disk1.color = Color.RED ∧ disk2.color = Color.RED)
          ∨ (disk1.color = Color.YELLOW ∧ disk2.color = Color.YELLOW) then some true
      else moveIsCorrectLoop s atomMoves
    | _, _ => none
  | _ => moveIsCorrectLoop s atomMoves

/-! ## Trial evaluation and commit -/

section Commit

variable [LinearOrderedCommRing α]

/-- The three assertions at the head of `tryOnAtomMove`, of the loop of `tryOnMove` and of the
loop of `applyMove`. -/
def atomMoveAsserts (data : TaskData α) (distribution : List Disk) (atomMove : AtomMove) : Prop :=
  atomMove.source ≠ atomMove.destination
    ∧ diskServer distribution atomMove.diskId = some atomMove.source
    ∧ (atomMove.source < data.numberOfServers ∧ atomMove.destination < data.numberOfServers)

/-- The assertions are decidable. -/
instance (data : TaskData α) (distribution : List Disk) (atomMove : AtomMove) :
    Decidable (atomMoveAsserts data distribution atomMove) := by
  unfold atomMoveAsserts
  infer_instance

/-- The body of the two loops of `tryOnAtomMove`, on the pair of the matrix and the running
objective value. -/
def tryOnAtomMoveCell (data : TaskData α) (atomMove : AtomMove) (time resource : Nat)
    (st : ThreeDimensionalMatrix α × α) : ThreeDimensionalMatrix α × α :=
  let matrixCapacity := st.1
  let startObjectiveValue := st.2
  let demand := data.capacity atomMove.diskId resource time
  let startObjectiveValue1 :=
    if matrixCapacity atomMove.destination time resource ≤ 0 then
      let newValueWithDisk := matrixCapacity atomMove.destination time resource + demand
      if newValueWithDisk > 0 then startObjectiveValue + newValueWithDisk
      else startObjectiveValue
    else startObjectiveValue + demand
  let matrixCapacity1 :=
    matrixCapacity.set atomMove.destination time resource
      (matrixCapacity atomMove.destination time resource + demand)
  let startObjectiveValue2 :=
    if matrixCapacity1 atomMove.source time resource > 0 then
      let newValueWithoutDisk := matrixCapacity1 atomMove.source time resource - demand
      if newValueWithoutDisk ≤ 0 then
        startObjectiveValue1 - matrixCapacity1 atomMove.source time resource
      else startObjectiveValue1 - demand
    else startObjectiveValue1
  let matrixCapacity2 :=
    matrixCapacity1.set atomMove.source time resource
      (matrixCapacity1 atomMove.source time resource - demand)
  (matrixCapacity2, startObjectiveValue2)

/-- The two nested loops of `tryOnAtomMove`, over the times and over the resources. -/
def tryOnAtomMoveLoops (data : TaskData α) (atomMove : AtomMove)
    (st : ThreeDimensionalMatrix α × α) : ThreeDimensionalMatrix α × α :=
  forLoop data.numberOfTimes
    (fun time => forLoop data.numberOfResource (tryOnAtomMoveCell data atomMove time)) st

/-- The method `VectorSolution::tryOnAtomMove(matrixCapacity, startObjectiveValue, atomMove)`:
the written matrix and the returned objective value; the assertions read the member
`distribution`. -/
def tryOnAtomMove (data : TaskData α) (distribution : List Disk)
    (matrixCapacity : ThreeDimensionalMatrix α) (startObjectiveValue : α) (atomMove : AtomMove) :
    Option (ThreeDimensionalMatrix α × α) :=
  if atomMoveAsserts data distribution atomMove then
    if atomMove.source = atomMove.destination then some (matrixCapacity, startObjectiveValue)
    else some (tryOnAtomMoveLoops data atomMove (matrixCapacity, startObjectiveValue))
  else none

/-- The local copies `tryOnMove` works on. -/
structure TrialState (α : Type) where
  matrixCapacityCopy : ThreeDimensionalMatrix α
  objectiveValueCopy : α
  overheadsCopy : α
  thresholdOverheadsServerCopy : TwoDimensionalMatrix α
  appliedMovesCopy : Finset AtomMove

/-- The loop of `tryOnMove` over the atomic moves; the assertions read the distribution of the
solution, which the loop does not write. -/
def tryOnMoveLoop (data : TaskData α) (s : VectorSolution α) :
    TrialState α → List AtomMove → Option (TrialState α)
  | c, [] => some c
  | c, atomMove :: rest =>
    if atomMoveAsserts data s.distribution atomMove then
      match tryOnAtomMove data s.distribution c.matrixCapacityCopy c.objectiveValueCopy
          atomMove with
      | none => none
      | some (matrixCapacity1, newObjectiveValue) =>
        let r := getOverheads data atomMove c.appliedMovesCopy c.thresholdOverheadsServerCopy
          c.overheadsCopy
        tryOnMoveLoop data s
          (TrialState.mk matrixCapacity1 newObjectiveValue r.2.2 r.2.1 r.1) rest
    else none

/-- The copies `tryOnMove` takes of the members of the solution. -/
def TrialState.ofSolution (s : VectorSolution α) : TrialState α :=
  TrialState.mk s.matrixCapacity s.objectiveValue s.overheads s.thresholdOverheadsServer
    s.appliedMoves

/-- The method `VectorSolution::tryOnMove`. -/
def tryOnMove (data : TaskData α) (s : VectorSolution α) (atomMoves : List AtomMove) :
    Option α :=
  (tryOnMoveLoop data s (TrialState.ofSolution s) atomMoves).map
    (fun c => c.objectiveValueCopy + s.overheadsCoefficient * c.overheadsCopy)

/-- The method `VectorSolution::moveDisk(destination, source, diskId)` on the distribution. -/
def moveDisk (distribution : List Disk) (destination source diskId : Nat) :
    Option (List Disk) :=
  match distribution[diskId]? with
  | some disk =>
    if disk.serverId = source then some (distribution.set diskId (Disk.mk destination disk.color))
    else none
  | none => none

/-- One iteration of the loop of `applyMove`. -/
def applyAtomMove (data : TaskData α) (s : VectorSolution α) (atomMove : AtomMove) :
    Option (VectorSolution α) :=
  if atomMoveAsserts data s.distribution atomMove then
    match tryOnAtomMove data s.distribution s.matrixCapacity s.objectiveValue atomMove with
    | none => none
    | some (matrixCapacity1, objectiveValue1) =>
      let r := getOverheads data atomMove s.appliedMoves s.thresholdOverheadsServer s.overheads
      match moveDisk s.distribution atomMove.destination atomMove.source atomMove.diskId with
      | none => none
      | some distribution1 =>
        some (VectorSolution.mk distribution1 matrixCapacity1 r.2.1 objectiveValue1 r.2.2
          (s.moveHistory ++ [atomMove]) s.overheadsCoefficient s.serversColor r.1)
  else none

/-- The method `VectorSolution::applyMove`. -/
def applyMove (data : TaskData α) : VectorSolution α → List AtomMove → Option (VectorSolution α)
  | s, [] => some s
  | s, atomMove :: rest =>
    match applyAtomMove data s atomMove with
    | none => none
    | some s1 => applyMove data s1 rest

/-- The method `VectorSolution::getObjectiveValue`. -/
def getObjectiveValue (s : VectorSolution α) : α :=
  s.objectiveValue + s.overheadsCoefficient * s.overheads

/-! ## Construction -/

/-- The first loop nest of `fillObjectiveValueMatrix`: every cell is minus the threshold. -/
def fillThresholds (data : TaskData α) (matrixCapacity : ThreeDimensionalMatrix α) :
    ThreeDimensionalMatrix α :=
  forLoop data.numberOfServers (fun server =>
    forLoop data.numberOfTimes (fun time =>
      forLoop data.numberOfResource (fun resource m =>
        m.set server time resource (-1 * data.thresholdCapacity server resource))))
    matrixCapacity

/-- The body of the second loop nest of `fillObjectiveValueMatrix`. -/
def fillDemandsCell (data : TaskData α) (distribution : List Disk) (diskId time resource : Nat)
    (m : ThreeDimensionalMatrix α) : ThreeDimensionalMatrix α :=
  match distribution[diskId]? with
  | some disk =>
    m.set disk.serverId time resource
      (m disk.serverId time resource + data.capacity diskId resource time)
  | none => m

/-- The second loop nest of `fillObjectiveValueMatrix`: the demand of every disk is added to
the cells of its server. -/
def fillDemands (data : TaskData α) (distribution : List Disk)
    (matrixCapacity : ThreeDimensionalMatrix α) : ThreeDimensionalMatrix α :=
  forLoop distribution.length (fun diskId =>
    forLoop data.numberOfTimes (fun time =>
      forLoop data.numberOfResource (fillDemandsCell data distribution diskId time)))
    matrixCapacity

/-- The third loop nest of `fillObjectiveValueMatrix`: the sum of the positive cells. -/
def sumPositiveCells (data : TaskData α) (matrixCapacity : ThreeDimensionalMatrix α) : α :=
  forLoop data.numberOfServers (fun server =>
    forLoop data.numberOfTimes (fun time =>
      forLoop data.numberOfResource (fun resource objectiveValue =>
        if matrixCapacity server time resource > 0 then
          objectiveValue + matrixCapacity server time resource
        else objectiveValue)))
    0

/-- The method `VectorSolution::fillObjectiveValueMatrix`: the written matrix and the returned
objective value. -/
def fillObjectiveValueMatrix (data : TaskData α) (distribution : List Disk)
    (matrixCapacity : ThreeDimensionalMatrix α) : ThreeDimensionalMatrix α × α :=
  let m := fillDemands data distribution (fillThresholds data matrixCapacity)
  (m, sumPositiveCells data m)

end Commit

/-- The body of the loop of `paintServers`. -/
def paintServersDisk (distribution : List Disk) (diskId : Nat)
    (serversColor : Option (Nat → Color)) : Option (Nat → Color) :=
  match serversColor, distribution[diskId]? with
  | some colors, some disk =>
    match disk.color with
    | Color.RED => some (setColor colors disk.serverId Color.RED)
    | Color.YELLOW =>
      if colors disk.serverId ≠ Color.RED then some (setColor colors disk.serverId Color.YELLOW)
      else some colors
    | Color.GREEN =>
      if colors disk.serverId = Color.NONE then some (setColor colors disk.serverId Color.GREEN)
      else some colors
    | Color.NONE => none
  | _, _ => none

/-- The method `VectorSolution::paintServers`. -/
def paintServers (data : TaskData α) (distribution : List Disk) (serversColor : Nat → Color) :
    Option (Nat → Color) :=
  forLoop data.numberOfDisks (paintServersDisk distribution) (some serversColor)

/-- The constructor `VectorSolution(data, overheadsCoefficient)`. The matrix starts at zero;
`fillObjectiveValueMatrix` writes every cell of it. -/
def VectorSolution.construct [LinearOrderedCommRing α] (data : TaskData α)
    (overheadsCoefficient : α) :
    Option (VectorSolution α) :=
  let filled := fillObjectiveValueMatrix data data.initialDistribution (fun _ _ _ => 0)
  match paintServers data data.initialDistribution (fun _ => Color.NONE) with
  | none => none
  | some colors =>
    some (VectorSolution.mk data.initialDistribution filled.1 data.thresholdOverheads filled.2 0
      [] overheadsCoefficient colors ∅)

/-- The copy constructor: its initialiser list names every member except `appliedMoves`, which
is therefore default-constructed. -/
def VectorSolution.copy (other : VectorSolution α) : VectorSolution α :=
  VectorSolution.mk other.distribution other.matrixCapacity other.thresholdOverheadsServer
    other.objectiveValue other.overheads other.moveHistory other.overheadsCoefficient
    other.serversColor ∅

/-- The method `VectorSolution::swap`, which exchanges every member except `appliedMoves`: the
pair of the new `*this` and the new `other`. -/
def VectorSolution.swap (self other : VectorSolution α) : VectorSolution α × VectorSolution α :=
  (VectorSolution.mk other.distribution other.matrixCapacity other.thresholdOverheadsServer
     other.objectiveValue other.overheads other.moveHistory other.overheadsCoefficient
     other.serversColor self.appliedMoves,
   VectorSolution.mk self.distribution self.matrixCapacity self.thresholdOverheadsServer
     self.objectiveValue self.overheads self.moveHistory self.overheadsCoefficient
     self.serversColor other.appliedMoves)

/-- The operator `VectorSolution::operator=` for `&rhs != this`: `tmp(rhs)`, then `swap(tmp)`. -/
def VectorSolution.assign (self rhs : VectorSolution α) : VectorSolution α :=
  (VectorSolution.swap self (VectorSolution.copy rhs)).1

/-- The method `VectorSolution::getServerColor`. -/
def getServerColor (data : TaskData α) (s : VectorSolution α) (server : Nat) : Option Color :=
  if server < data.numberOfServers then some (s.serversColor server) else none

/-! ## Swap neighbourhood -/

/-- The compound move built for the pair `(i, j)` in `SwapNeighborhood::getMoves`. -/
def swapMove (distribution : List Disk) (i j : Nat) : Option (List AtomMove) :=
  match distribution[i]?, distribution[j]? with
  | some diskI, some diskJ =>
    some [AtomMove.mk diskJ.serverId diskI.serverId i, AtomMove.mk diskI.serverId diskJ.serverId j]
  | _, _ => none

/-- The body of the inner loop of `SwapNeighborhood::getMoves`. -/
def getMovesPair (s : VectorSolution α) (i j : Nat) (result : Option (List (List AtomMove))) :
    Option (List (List AtomMove)) :=
  match result, s.distribution[i]?, s.distribution[j]? with
  | some moves, some diskI, some diskJ =>
    if diskI.serverId ≠ diskJ.serverId then
      let move := [AtomMove.mk diskJ.serverId diskI.serverId i,
        AtomMove.mk diskI.serverId diskJ.serverId j]
      match moveIsCorrect s move with
      | some true => some (moves ++ [move])
      | some false => some moves
      | none => none
    else some moves
  | _, _, _ => none

/-- The method `SwapNeighborhood::getMoves`. -/
def getMoves (s : VectorSolution α) : Option (List (List AtomMove)) :=
  forLoop s.distribution.length (fun i =>
    forLoopFrom i (s.distribution.length - i) (getMovesPair s i))
    (some [])

/-! ## Specification-level definitions -/

section SpecDefs1

variable [LinearOrderedCommRing α]

/-- The overrun of a cell: the cell when it is strictly positive, else zero. -/
def positivePart (x : α) : α := if x > 0 then x else 0

/-- The demand assigned to a server for a time and a resource: the sum of
`getCapacity(disk, resource, time)` over the disks of the distribution that are on it. -/
def assignedDemand (data : TaskData α) (distribution : List Disk) (server time resource : Nat) :
    α :=
  ∑ diskId ∈ Finset.range distribution.length,
    if diskServer distribution diskId = some server then data.capacity diskId resource time
    else 0

/-- The sum, over all cells of the matrix in range, of the strictly positive cell values. -/
def sumOfPositiveCells (data : TaskData α) (m : ThreeDimensionalMatrix α) : α :=
  ∑ server ∈ Finset.range data.numberOfServers, ∑ time ∈ Finset.range data.numberOfTimes,
    ∑ resource ∈ Finset.range data.numberOfResource, positivePart (m server time resource)

end SpecDefs1

/-- A sequence of `applyMove` calls, in order. -/
def applyMoves [LinearOrderedCommRing α] (data : TaskData α) :
    VectorSolution α → List (List AtomMove) → Option (VectorSolution α)
  | s, [] => some s
  | s, atomMoves :: rest =>
    match applyMove data s atomMoves with
    | none => none
    | some s1 => applyMoves data s1 rest

section SpecDefs2

variable [LinearOrderedCommRing α]

/-- The consistency invariant: the cells are the assigned demand minus the threshold, and
the objective value is the sum of the positive cells. -/
def Consistent (data : TaskData α) (s : VectorSolution α) : Prop :=
  (∀ server time resource, server < data.numberOfServers → time < data.numberOfTimes →
      resource < data.numberOfResource →
      s.matrixCapacity server time resource
        = assignedDemand data s.distribution server time resource
          - data.thresholdCapacity server resource)
  ∧ s.objectiveValue = sumOfPositiveCells data s.matrixCapacity

end SpecDefs2

/-- The method `VectorSolution::setOverheadsCoefficient`. -/
def setOverheadsCoefficient (s : VectorSolution α) (value : α) : VectorSolution α :=
  VectorSolution.mk s.distribution s.matrixCapacity s.thresholdOverheadsServer s.objectiveValue
    s.overheads s.moveHistory value s.serversColor s.appliedMoves

/-- The states of a `VectorSolution` object: what the constructor returns, and what the
mutating members (`applyMove`, the copy constructor, `operator=`, `swap`,
`setOverheadsCoefficient`) make of such states. -/
inductive Reachable [LinearOrderedCommRing α] (data : TaskData α) : VectorSolution α → Prop
  | construct (coefficient : α) (s : VectorSolution α) :
      VectorSolution.construct data coefficient = some s → Reachable data s
  | applyMove (s s1 : VectorSolution α) (atomMoves : List AtomMove) :
      Reachable data s → applyMove data s atomMoves = some s1 → Reachable data s1
  | copy (s : VectorSolution α) : Reachable data s → Reachable data (VectorSolution.copy s)
  | assign (s rhs : VectorSolution α) :
      Reachable data s → Reachable data rhs → Reachable data (VectorSolution.assign s rhs)
  | swapLeft (s other : VectorSolution α) :
      Reachable data s → Reachable data other → Reachable data (VectorSolution.swap s other).1
  | swapRight (s other : VectorSolution α) :
      Reachable data s → Reachable data other → Reachable data (VectorSolution.swap s other).2
  | setOverheadsCoefficient (s : VectorSolution α) (value : α) :
      Reachable data s → Reachable data (setOverheadsCoefficient s value)

/-- No applied-move set holds an atomic move together with its inverse. -/
def NoInversePair (appliedMoves : Finset AtomMove) : Prop :=
  ∀ m ∈ appliedMoves, m.inverse ∉ appliedMoves

section SpecDefs3

variable [LinearOrderedCommRing α]

/-- The debt of a ledger cell: how far it is below zero. -/
def negativePart (x : α) : α := if x < 0 then -x else 0

/-- The sum of the debts of the ledger cells. -/
def ledgerDebt (data : TaskData α) (ledger : TwoDimensionalMatrix α) : α :=
  ∑ server ∈ Finset.range data.numberOfServers,
    ∑ resource ∈ Finset.range data.numberOfResource, negativePart (ledger server resource)

/-- What `getOverheads` adds to the ledger cell `(server, resource)`. -/
def ledgerShift (data : TaskData α) (atomMove : AtomMove) (moveMeetPreviously : Bool)
    (server resource : Nat) : α :=
  if moveMeetPreviously then
    (if server = atomMove.source then
      data.diskCosts CostKind.INSERT atomMove.diskId atomMove.source resource
    else if server = atomMove.destination then
      data.diskCosts CostKind.ERASE atomMove.diskId atomMove.destination resource
    else 0)
  else
    (if server = atomMove.source then
      - data.diskCosts CostKind.ERASE atomMove.diskId atomMove.source resource
    else if server = atomMove.destination then
      - data.diskCosts CostKind.INSERT atomMove.diskId atomMove.destination resource
    else 0)

end SpecDefs3

/-- Case (a) of the validation rule: exactly two atomic moves whose disks are both `RED` or
both `YELLOW`. -/
def SameSeveritySwap (distribution : List Disk) (atomMoves : List AtomMove) : Prop :=
  ∃ a1 a2, atomMoves = [a1, a2]
    ∧ ((diskColor distribution a1.diskId = some Color.RED
          ∧ diskColor distribution a2.diskId = some Color.RED)
      ∨ (diskColor distribution a1.diskId = some Color.YELLOW
          ∧ diskColor distribution a2.diskId = some Color.YELLOW))

/-- Case (b) of the validation rule: no atomic move relocates a `RED` disk, and none relocates
a `YELLOW` disk to a server whose colour is `YELLOW`. -/
def NoForbiddenRelocation (s : VectorSolution α) (atomMoves : List AtomMove) : Prop :=
  ∀ a ∈ atomMoves, diskColor s.distribution a.diskId ≠ some Color.RED
    ∧ ¬ (diskColor s.distribution a.diskId = some Color.YELLOW
          ∧ s.serversColor a.destination = Color.YELLOW)

/-- The server of disk `i`, for a disk id of the distribution. -/
def serverOf (distribution : List Disk) (i : Nat) : Nat :=
  (diskServer distribution i).getD 0

/-- The pairs `(i, j)` with `i < j < n`, in lexicographic order. -/
def orderedPairs (n : Nat) : List (Nat × Nat) :=
  (List.range n).flatMap (fun i => (List.range' (i + 1) (n - (i + 1))).map (fun j => (i, j)))

/-- The compound move that swaps the servers of the disks `p.1` and `p.2`:
`(source = server(i), destination = server(j), disk i)`, then
`(source = server(j), destination = server(i), disk j)`. -/
def swapOf (distribution : List Disk) (p : Nat × Nat) : List AtomMove :=
  [AtomMove.mk (serverOf distribution p.2) (serverOf distribution p.1) p.1,
   AtomMove.mk (serverOf distribution p.1) (serverOf distribution p.2) p.2]

/-- The pairs whose swap is returned: the servers differ and `moveIsCorrect` returns true. -/
def swapAccepted (s : VectorSolution α) (p : Nat × Nat) : Bool :=
  decide (serverOf s.distribution p.1 ≠ serverOf s.distribution p.2
    ∧ moveIsCorrect s (swapOf s.distribution p) = some true)

/-- The enumeration the swap neighbourhood is specified to return. -/
def swapNeighborhood (s : VectorSolution α) : List (List AtomMove) :=
  ((orderedPairs s.distribution.length).filter (swapAccepted s)).map (swapOf s.distribution)

/-- The aggregate colour of a server as the data model words it: `RED` if the server hosts a
`RED` disk, else `YELLOW` if it hosts a `YELLOW` disk, else `GREEN` if it hosts a `GREEN`
disk, else `NONE`. -/
def aggregateColor (distribution : List Disk) (server : Nat) : Color :=
  if ∃ d ∈ distribution, d.serverId = server ∧ d.color = Color.RED then Color.RED
  else if ∃ d ∈ distribution, d.serverId = server ∧ d.color = Color.YELLOW then Color.YELLOW
  else if ∃ d ∈ distribution, d.serverId = server ∧ d.color = Color.GREEN then Color.GREEN
  else Color.NONE

/-- A problem instance over `ℤ`: two servers, one resource, one time period, capacity
threshold 10 on each server, a `GREEN` disk of demand 6 on server 0 and a `GREEN` disk of
demand 4 on server 1, overhead thresholds 0 and every insertion and erasure cost 1. -/
def exampleData : TaskData ℤ :=
  TaskData.mk 2 2 1 1 [Disk.mk 0 Color.GREEN, Disk.mk 1 Color.GREEN]
    (fun _ _ => 0) (fun _ _ => 10) (fun disk _ _ => if disk = 0 then 6 else 4)
    (fun _ _ _ _ => 1)

/-- The solution constructed for `exampleData` with overhead coefficient 1. -/
def exampleInitial : VectorSolution ℤ :=
  (VectorSolution.construct exampleData 1).get (by decide)

/-- The atomic move of disk 0 from server 0 to server 1. -/
def exampleMove : AtomMove := AtomMove.mk 1 0 0

/-- The solution after `exampleMove` has been committed to `exampleInitial`. -/
def exampleMoved : VectorSolution ℤ :=
  (applyMove exampleData exampleInitial [exampleMove]).get (by decide)

/-- The swap of the two disks of `exampleData`. -/
def exampleSwap : List AtomMove := [AtomMove.mk 1 0 0, AtomMove.mk 0 1 1]

/-! ## Definitions for the behaviour of commit, trial and overheads -/

/-- The method `VectorSolution::getMoveHistory`. -/
def getMoveHistory (s : VectorSolution α) : List AtomMove := s.moveHistory

/-- The method `VectorSolution::getDistribution`. -/
def getDistribution (s : VectorSolution α) : List Disk := s.distribution

/-- The destination of the last atomic move of a move that names the disk, if one does. -/
def lastDestination (atomMoves : List AtomMove) (diskId : Nat) : Option Nat :=
  (atomMoves.reverse.find? (fun a => decide (a.diskId = diskId))).map AtomMove.destination

section MoreDefs1

variable [LinearOrderedCommRing α]

/-- The instance of the overrun scenario: two servers, one resource, one time period,
capacity threshold 10 on each server, disk 0 of demand 12 on server 0 and disk 1 of demand 4
on server 1; the colours, the overhead thresholds and the costs are left open. -/
def overrunScenario (colorA colorB : Color) (thresholdOverheads : Nat → Nat → α)
    (diskCosts : CostKind → Nat → Nat → Nat → α) : TaskData α :=
  TaskData.mk 2 2 1 1 [Disk.mk 0 colorA, Disk.mk 1 colorB] thresholdOverheads
    (fun _ _ => 10) (fun disk _ _ => if disk = 0 then 12 else 4) diskCosts

/-- The instance of the swap scenario: two servers, one resource, one time period, capacity
threshold 10 on each server, `GREEN` disk 0 of demand 6 on server 0 and `GREEN` disk 1 of
demand 4 on server 1; the overhead thresholds and the costs are left open. -/
def swapScenario (thresholdOverheads : Nat → Nat → α)
    (diskCosts : CostKind → Nat → Nat → Nat → α) : TaskData α :=
  TaskData.mk 2 2 1 1 [Disk.mk 0 Color.GREEN, Disk.mk 1 Color.GREEN] thresholdOverheads
    (fun _ _ => 10) (fun disk _ _ => if disk = 0 then 6 else 4) diskCosts

end MoreDefs1

/-- The state of the solution at the point where `applyMove` trips an assertion: the loop
runs while the three assertions at the head of the iteration hold, and when they fail the
members are as the earlier iterations left them. It is `none` when the loop completes. -/
def applyMoveViolation [LinearOrderedCommRing α] (data : TaskData α) :
    VectorSolution α → List AtomMove → Option (VectorSolution α)
  | _, [] => none
  | s, atomMove :: rest =>
    if atomMoveAsserts data s.distribution atomMove then
      match applyAtomMove data s atomMove with
      | some s1 => applyMoveViolation data s1 rest
      | none => none
    else some s

/-- A problem instance over `ℤ` with a `RED` disk on server 0, a `RED` disk on server 1 and
an empty server 2: three servers, one resource, one time period, capacity thresholds 10,
demands 1, overhead thresholds 0 and every cost 1. -/
def redData : TaskData ℤ :=
  TaskData.mk 2 3 1 1 [Disk.mk 0 Color.RED, Disk.mk 1 Color.RED]
    (fun _ _ => 0) (fun _ _ => 10) (fun _ _ _ => 1) (fun _ _ _ _ => 1)

/-- The solution constructed for `redData` with overhead coefficient 1. -/
def redInitial : VectorSolution ℤ :=
  (VectorSolution.construct redData 1).get (by decide)

/-- The move of two atomic moves that relocates both `RED` disks of `redData` to server 2; it
is not a swap. -/
def redMove : List AtomMove := [AtomMove.mk 2 0 0, AtomMove.mk 2 1 1]

/-- The solution after `redMove` has been committed to `redInitial`. -/
def redMoved : VectorSolution ℤ :=
  (applyMove redData redInitial redMove).get (by decide)

/-- The swap of the two `RED` disks of `redData`. -/
def redSwap : List AtomMove := [AtomMove.mk 1 0 0, AtomMove.mk 0 1 1]

/-- The solution after `redSwap` has been committed to `redInitial`. -/
def redSwapped : VectorSolution ℤ :=
  (applyMove redData redInitial redSwap).get (by decide)

/-- The move that relocates disk 0 of `exampleData` to server 1 and back to server 0. -/
def exampleRoundTrip : List AtomMove := [exampleMove, exampleMove.inverse]

/-- A sequence of `getOverheads` calls, each on the applied-move set, the ledger and the
overheads the call before it left. -/
def getOverheadsSteps [LinearOrderedCommRing α] (data : TaskData α) :
    Finset AtomMove × TwoDimensionalMatrix α × α → List AtomMove →
    Finset AtomMove × TwoDimensionalMatrix α × α
  | st, [] => st
  | st, atomMove :: rest =>
    getOverheadsSteps data (getOverheads data atomMove st.1 st.2.1 st.2.2) rest

/-- A problem instance over `ℤ` with one `GREEN` disk of demand 1 on server 0 of three
servers: one resource, one time period, capacity thresholds 10, overhead thresholds 0 and
every insertion and erasure cost 1. -/
def triangleData : TaskData ℤ :=
  TaskData.mk 1 3 1 1 [Disk.mk 0 Color.GREEN]
    (fun _ _ => 0) (fun _ _ => 10) (fun _ _ _ => 1) (fun _ _ _ _ => 1)

/-- The solution constructed for `triangleData` with overhead coefficient 1. -/
def triangleInitial : VectorSolution ℤ :=
  (VectorSolution.construct triangleData 1).get (by decide)

/-- The occurrences of an atomic move and of its inverse in a sequence, in their order. -/
def pairTrace (x : AtomMove) (atomMoves : List AtomMove) : List AtomMove :=
  atomMoves.filter (fun m => decide (m = x ∨ m = x.inverse))

/-- No two neighbours of the list are equal. -/
def alternates : List AtomMove → Bool
  | [] => true
  | [_] => true
  | a :: b :: rest => decide (a ≠ b) && alternates (b :: rest)

/-- Every relocation is undone by its exact inverse before it is made again: for every atomic
move of the sequence, its occurrences and those of its inverse alternate and are equally
many. -/
def UndoneInTurn (atomMoves : List AtomMove) : Prop :=
  ∀ x ∈ atomMoves, alternates (pairTrace x atomMoves) = true
    ∧ atomMoves.count x = atomMoves.count x.inverse

/-- The condition `UndoneInTurn` is decidable. -/
instance (atomMoves : List AtomMove) : Decidable (UndoneInTurn atomMoves) := by
  unfold UndoneInTurn
  infer_instance

/-- Eight atomic moves on `triangleData` that take the disk from server 0 over servers 1 and
2 back to server 0, then to server 1 and back, then over servers 2 and 1 back to server 0.
Every atomic move occurs as often as its inverse, and the relocation from server 0 to server
1 is made twice before it is undone. -/
def triangleTwice : List AtomMove :=
  [AtomMove.mk 1 0 0, AtomMove.mk 2 1 0, AtomMove.mk 0 2 0, AtomMove.mk 1 0 0,
    AtomMove.mk 0 1 0, AtomMove.mk 2 0 0, AtomMove.mk 1 2 0, AtomMove.mk 0 1 0]

/-! ## Theorems -/

/-- One more iteration of a loop runs the body once more, on the last index. -/
theorem forLoop_succ {σ : Type} (n : Nat) (body : Nat → σ → σ) (init : σ) :
    forLoop (n + 1) body init = body n (forLoop n body init) := rfl

/-- A property that holds before a loop and is kept by every iteration holds after it. -/
theorem forLoop_invariant {σ : Type} (P : σ → Prop) (n : Nat) (body : Nat → σ → σ) (init : σ)
    (h0 : P init) (hstep : ∀ i, i < n → ∀ st, P st → P (body i st)) :
    P (forLoop n body init) := by
  induction n with
  | zero => exact h0
  | succ n ih =>
    rw [forLoop_succ]
    exact hstep n (Nat.lt_succ_self n) _
      (ih (fun i hi st hst => hstep i (Nat.lt_succ_of_lt hi) st hst))

/-- When the first component of a loop on pairs does not read the second, it is the loop of
its own steps. -/
theorem forLoop_fst {σ τ : Type} (n : Nat) (body : Nat → σ × τ → σ × τ) (bm : Nat → σ → σ)
    (h : ∀ i st, (body i st).1 = bm i st.1) (init : σ × τ) :
    (forLoop n body init).1 = forLoop n bm init.1 := by
  induction n with
  | zero => rfl
  | succ n ih => rw [forLoop_succ, forLoop_succ, h, ih]

/-- Loops with equal bodies are equal. -/
theorem forLoop_congr {σ : Type} (n : Nat) (body1 body2 : Nat → σ → σ)
    (h : ∀ i st, body1 i st = body2 i st) (init : σ) :
    forLoop n body1 init = forLoop n body2 init := by
  induction n with
  | zero => rfl
  | succ n ih => rw [forLoop_succ, forLoop_succ, h, ih]

/-- A loop over resources whose step `r` rewrites the cells `(·, t, r)` with `g`. -/
theorem forLoop_resource_apply (g : Nat → Nat → Nat → α → α) (t : Nat)
    (step : Nat → ThreeDimensionalMatrix α → ThreeDimensionalMatrix α)
    (hstep : ∀ r m a b c, step r m a b c = if b = t ∧ c = r then g a b c (m a b c) else m a b c)
    (R : Nat) (m : ThreeDimensionalMatrix α) (a b c : Nat) :
    forLoop R step m a b c = if b = t ∧ c < R then g a b c (m a b c) else m a b c := by
  induction R with
  | zero => simp [forLoop]
  | succ R ih =>
    rw [forLoop_succ, hstep, ih]
    by_cases hb : b = t
    · by_cases hc : c = R
      · subst hb hc; simp
      · have : c < R + 1 ↔ c < R := by omega
        simp [hb, hc, this]
    · simp [hb]

/-- A loop over times and resources whose step `(t, r)` rewrites the cells `(·, t, r)`. -/
theorem forLoop_time_resource_apply (g : Nat → Nat → Nat → α → α)
    (step : Nat → Nat → ThreeDimensionalMatrix α → ThreeDimensionalMatrix α)
    (hstep : ∀ t r m a b c,
      step t r m a b c = if b = t ∧ c = r then g a b c (m a b c) else m a b c)
    (T R : Nat) (m : ThreeDimensionalMatrix α) (a b c : Nat) :
    forLoop T (fun t => forLoop R (step t)) m a b c
      = if b < T ∧ c < R then g a b c (m a b c) else m a b c := by
  induction T with
  | zero => simp [forLoop]
  | succ T ih =>
    rw [forLoop_succ, forLoop_resource_apply g T (step T) (hstep T), ih]
    by_cases hb : b = T
    · subst hb; simp
    · have : b < T + 1 ↔ b < T := by omega
      simp [hb, this]

section Proofs1

variable [LinearOrderedCommRing α]

/-- The first loop nest of `fillObjectiveValueMatrix` writes minus the threshold in every cell
in range and no other cell. -/
theorem fillThresholds_apply (data : TaskData α) (m : ThreeDimensionalMatrix α) (a b c : Nat) :
    fillThresholds data m a b c
      = if a < data.numberOfServers ∧ b < data.numberOfTimes ∧ c < data.numberOfResource
        then -1 * data.thresholdCapacity a c else m a b c := by
  unfold fillThresholds
  generalize data.numberOfServers = S
  induction S with
  | zero => simp [forLoop]
  | succ S ih =>
    rw [forLoop_succ,
      forLoop_time_resource_apply
        (fun a' _ c' x => if a' = S then -1 * data.thresholdCapacity S c' else x)
        (fun time resource m =>
          m.set S time resource (-1 * data.thresholdCapacity S resource)), ih]
    · by_cases ha : a = S
      · subst ha; simp
      · have : a < S + 1 ↔ a < S := by omega
        simp [ha, this]
    · intro t r m a b c
      simp only [ThreeDimensionalMatrix.set]
      by_cases ha : a = S <;> by_cases hb : b = t <;> by_cases hc : c = r <;> simp [ha, hb, hc]

/-- The second loop nest of `fillObjectiveValueMatrix` adds to every cell the demand assigned
to its server. -/
theorem fillDemands_apply (data : TaskData α) (distribution : List Disk)
    (m : ThreeDimensionalMatrix α) (a b c : Nat) :
    fillDemands data distribution m a b c
      = if b < data.numberOfTimes ∧ c < data.numberOfResource
        then m a b c + assignedDemand data distribution a b c else m a b c := by
  unfold fillDemands assignedDemand
  generalize distribution.length = n
  induction n with
  | zero => simp [forLoop]
  | succ n ih =>
    rw [forLoop_succ,
      forLoop_time_resource_apply
        (fun a' b' c' x =>
          if diskServer distribution n = some a' then x + data.capacity n c' b' else x)
        (fillDemandsCell data distribution n), ih]
    · rw [Finset.sum_range_succ]
      by_cases hbc : b < data.numberOfTimes ∧ c < data.numberOfResource
      · simp only [hbc, and_self, if_true]
        split_ifs <;> simp [add_assoc]
      · simp only [hbc, if_false]
    · intro t r m a b c
      obtain hd | ⟨disk, hd⟩ := Option.eq_none_or_eq_some (distribution[n]?)
      · simp [fillDemandsCell, diskServer, hd]
      · simp only [fillDemandsCell, diskServer, hd, ThreeDimensionalMatrix.set, Option.map_some',
          Option.some.injEq]
        by_cases ha : disk.serverId = a
        · subst ha
          by_cases hb : b = t <;> by_cases hc : c = r <;> simp [hb, hc]
        · have ha' : ¬ a = disk.serverId := fun h => ha h.symm
          simp [ha, ha']

/-- The third loop nest of `fillObjectiveValueMatrix` returns the sum of the positive cells. -/
theorem sumPositiveCells_eq (data : TaskData α) (m : ThreeDimensionalMatrix α) :
    sumPositiveCells data m = sumOfPositiveCells data m := by
  unfold sumPositiveCells sumOfPositiveCells
  have inner : ∀ (server time R : Nat) (x : α),
      forLoop R (fun resource objectiveValue =>
        if m server time resource > 0 then objectiveValue + m server time resource
        else objectiveValue) x
      = x + ∑ resource ∈ Finset.range R, positivePart (m server time resource) := by
    intro server time R x
    induction R with
    | zero => simp [forLoop]
    | succ R ih =>
      rw [forLoop_succ, ih, Finset.sum_range_succ]
      unfold positivePart
      split_ifs <;> simp [add_assoc]
  have middle : ∀ (server T : Nat) (x : α),
      forLoop T (fun time => forLoop data.numberOfResource (fun resource objectiveValue =>
        if m server time resource > 0 then objectiveValue + m server time resource
        else objectiveValue)) x
      = x + ∑ time ∈ Finset.range T, ∑ resource ∈ Finset.range data.numberOfResource,
          positivePart (m server time resource) := by
    intro server T x
    induction T with
    | zero => simp [forLoop]
    | succ T ih => rw [forLoop_succ, inner, ih, Finset.sum_range_succ, add_assoc]
  generalize data.numberOfServers = S
  have outer : ∀ (x : α),
      forLoop S (fun server => forLoop data.numberOfTimes (fun time =>
        forLoop data.numberOfResource (fun resource objectiveValue =>
          if m server time resource > 0 then objectiveValue + m server time resource
          else objectiveValue))) x
      = x + ∑ server ∈ Finset.range S, ∑ time ∈ Finset.range data.numberOfTimes,
          ∑ resource ∈ Finset.range data.numberOfResource,
            positivePart (m server time resource) := by
    intro x
    induction S with
    | zero => simp [forLoop]
    | succ S ih => rw [forLoop_succ, middle, ih, Finset.sum_range_succ, add_assoc]
  rw [outer, zero_add]

/-- Writing one cell in range changes the sum of the positive cells by the change of the
overrun of that cell. -/
theorem sumOfPositiveCells_set (data : TaskData α) (m : ThreeDimensionalMatrix α)
    (sv t r : Nat) (v : α) (hsv : sv < data.numberOfServers) (ht : t < data.numberOfTimes)
    (hr : r < data.numberOfResource) :
    sumOfPositiveCells data (m.set sv t r v)
      = sumOfPositiveCells data m - positivePart (m sv t r) + positivePart v := by
  have hcell : ∀ a b c, positivePart (m.set sv t r v a b c)
      = positivePart (m a b c)
        + (if c = r then (if a = sv ∧ b = t then positivePart v - positivePart (m sv t r)
            else 0) else 0) := by
    intro a b c
    simp only [ThreeDimensionalMatrix.set]
    by_cases ha : a = sv <;> by_cases hb : b = t <;> by_cases hc : c = r <;>
      simp [ha, hb, hc]
  have h1 : ∀ a b, ∑ c ∈ Finset.range data.numberOfResource, positivePart (m.set sv t r v a b c)
      = ∑ c ∈ Finset.range data.numberOfResource, positivePart (m a b c)
        + (if b = t then (if a = sv then positivePart v - positivePart (m sv t r) else 0)
            else 0) := by
    intro a b
    rw [Finset.sum_congr rfl (fun c _ => hcell a b c), Finset.sum_add_distrib,
      Finset.sum_ite_eq' (Finset.range data.numberOfResource) r, if_pos (Finset.mem_range.mpr hr)]
    by_cases ha : a = sv <;> by_cases hb : b = t <;> simp [ha, hb]
  have h2 : ∀ a, ∑ b ∈ Finset.range data.numberOfTimes,
        ∑ c ∈ Finset.range data.numberOfResource, positivePart (m.set sv t r v a b c)
      = ∑ b ∈ Finset.range data.numberOfTimes,
          ∑ c ∈ Finset.range data.numberOfResource, positivePart (m a b c)
        + (if a = sv then positivePart v - positivePart (m sv t r) else 0) := by
    intro a
    rw [Finset.sum_congr rfl (fun b _ => h1 a b), Finset.sum_add_distrib,
      Finset.sum_ite_eq' (Finset.range data.numberOfTimes) t, if_pos (Finset.mem_range.mpr ht)]
  unfold sumOfPositiveCells
  rw [Finset.sum_congr rfl (fun a _ => h2 a), Finset.sum_add_distrib,
    Finset.sum_ite_eq' (Finset.range data.numberOfServers) sv,
    if_pos (Finset.mem_range.mpr hsv)]
  ring

/-- The objective delta of the destination cell is the change of its positive part. -/
theorem destination_delta (x demand obj : α) (hd : 0 ≤ demand) :
    (if x ≤ 0 then (if x + demand > 0 then obj + (x + demand) else obj) else obj + demand)
      = obj - positivePart x + positivePart (x + demand) := by
  unfold positivePart
  split_ifs <;> first | ring1 | (exfalso; linarith)

/-- The objective delta of the source cell is the change of its positive part. -/
theorem source_delta (x demand obj : α) (hd : 0 ≤ demand) :
    (if x > 0 then (if x - demand ≤ 0 then obj - x else obj - demand) else obj)
      = obj - positivePart x + positivePart (x - demand) := by
  unfold positivePart
  split_ifs <;> first | ring1 | (exfalso; linarith)

/-- One cell step of `tryOnAtomMove` keeps the objective value equal to the sum of the
positive cells. -/
theorem tryOnAtomMoveCell_objective (data : TaskData α) (atomMove : AtomMove)
    (time resource : Nat) (st : ThreeDimensionalMatrix α × α)
    (hdemand : 0 ≤ data.capacity atomMove.diskId resource time)
    (hs : atomMove.source < data.numberOfServers)
    (hd : atomMove.destination < data.numberOfServers)
    (ht : time < data.numberOfTimes) (hr : resource < data.numberOfResource)
    (hinv : st.2 = sumOfPositiveCells data st.1) :
    (tryOnAtomMoveCell data atomMove time resource st).2
      = sumOfPositiveCells data (tryOnAtomMoveCell data atomMove time resource st).1 := by
  simp only [tryOnAtomMoveCell]
  rw [sumOfPositiveCells_set data _ _ _ _ _ hs ht hr,
    sumOfPositiveCells_set data _ _ _ _ _ hd ht hr, source_delta _ _ _ hdemand,
    destination_delta _ _ _ hdemand, hinv]

/-- The cells one cell step of `tryOnAtomMove` writes. -/
theorem tryOnAtomMoveCell_matrix (data : TaskData α) (atomMove : AtomMove)
    (hne : atomMove.source ≠ atomMove.destination)
    (time resource : Nat) (st : ThreeDimensionalMatrix α × α) (a b c : Nat) :
    (tryOnAtomMoveCell data atomMove time resource st).1 a b c
      = if b = time ∧ c = resource then
          (if a = atomMove.destination then st.1 a b c + data.capacity atomMove.diskId c b
           else if a = atomMove.source then st.1 a b c - data.capacity atomMove.diskId c b
           else st.1 a b c)
        else st.1 a b c := by
  simp only [tryOnAtomMoveCell, ThreeDimensionalMatrix.set]
  by_cases hb : b = time <;> by_cases hc : c = resource <;>
    by_cases ha : a = atomMove.destination <;> by_cases ha' : a = atomMove.source <;>
    simp_all

/-- The matrix the two loops of `tryOnAtomMove` leave: the demand of the disk is added to the
destination cells and removed from the source cells. -/
theorem tryOnAtomMoveLoops_matrix (data : TaskData α) (atomMove : AtomMove)
    (hne : atomMove.source ≠ atomMove.destination)
    (st : ThreeDimensionalMatrix α × α) (a b c : Nat) :
    (tryOnAtomMoveLoops data atomMove st).1 a b c
      = if b < data.numberOfTimes ∧ c < data.numberOfResource then
          (if a = atomMove.destination then st.1 a b c + data.capacity atomMove.diskId c b
           else if a = atomMove.source then st.1 a b c - data.capacity atomMove.diskId c b
           else st.1 a b c)
        else st.1 a b c := by
  unfold tryOnAtomMoveLoops
  rw [forLoop_fst data.numberOfTimes _
    (fun time => forLoop data.numberOfResource
      (fun resource m => (tryOnAtomMoveCell data atomMove time resource (m, (0 : α))).1))]
  · exact forLoop_time_resource_apply
      (fun a b c x =>
        if a = atomMove.destination then x + data.capacity atomMove.diskId c b
        else if a = atomMove.source then x - data.capacity atomMove.diskId c b else x)
      (fun time resource m => (tryOnAtomMoveCell data atomMove time resource (m, (0 : α))).1)
      (fun t r m a b c => tryOnAtomMoveCell_matrix data atomMove hne t r (m, 0) a b c)
      _ _ _ a b c
  · intro time st'
    exact forLoop_fst data.numberOfResource _ _ (fun r st'' => rfl) st'

/-- The two loops of `tryOnAtomMove` keep the objective value equal to the sum of the
positive cells. -/
theorem tryOnAtomMoveLoops_objective (data : TaskData α) (atomMove : AtomMove)
    (hdemand : ∀ time resource, 0 ≤ data.capacity atomMove.diskId resource time)
    (hs : atomMove.source < data.numberOfServers)
    (hd : atomMove.destination < data.numberOfServers)
    (st : ThreeDimensionalMatrix α × α) (hinv : st.2 = sumOfPositiveCells data st.1) :
    (tryOnAtomMoveLoops data atomMove st).2 = sumOfPositiveCells data (tryOnAtomMoveLoops data atomMove st).1 := by
  exact forLoop_invariant (fun st => st.2 = sumOfPositiveCells data st.1) data.numberOfTimes
    (fun time => forLoop data.numberOfResource (tryOnAtomMoveCell data atomMove time)) st hinv
    (fun time ht st1 h1 =>
      forLoop_invariant (fun st => st.2 = sumOfPositiveCells data st.1) data.numberOfResource
        (tryOnAtomMoveCell data atomMove time) st1 h1
        (fun resource hr st2 h2 =>
          tryOnAtomMoveCell_objective data atomMove time resource st2 (hdemand time resource)
            hs hd ht hr h2))

end Proofs1

/-- The servers of the disks after one entry of the distribution has been written. -/
theorem diskServer_set (distribution : List Disk) (k : Nat) (d : Disk) (j : Nat)
    (hk : k < distribution.length) :
    diskServer (distribution.set k d) j
      = if j = k then some d.serverId else diskServer distribution j := by
  unfold diskServer
  rw [List.getElem?_set]
  by_cases h : k = j
  · subst h; simp [hk]
  · simp [h, Ne.symm h]

section Proofs2

variable [LinearOrderedCommRing α]

/-- Relocating a disk adds its demand to the destination and removes it from the source. -/
theorem assignedDemand_set (data : TaskData α) (distribution : List Disk) (k : Nat)
    (disk : Disk) (dst : Nat) (hk : distribution[k]? = some disk) (sv t r : Nat) :
    assignedDemand data (distribution.set k (Disk.mk dst disk.color)) sv t r
      = assignedDemand data distribution sv t r
        + ((if sv = dst then data.capacity k r t else 0)
          - (if sv = disk.serverId then data.capacity k r t else 0)) := by
  have hlt : k < distribution.length := by
    rcases List.getElem?_eq_some_iff.mp hk with ⟨h, -⟩
    exact h
  have hsrv : diskServer distribution k = some disk.serverId := by simp [diskServer, hk]
  unfold assignedDemand
  rw [List.length_set]
  have hterm : ∀ j ∈ Finset.range distribution.length,
      (if diskServer (distribution.set k (Disk.mk dst disk.color)) j = some sv
        then data.capacity j r t else 0)
      = (if diskServer distribution j = some sv then data.capacity j r t else 0)
        + (if j = k then ((if sv = dst then data.capacity k r t else 0)
              - (if sv = disk.serverId then data.capacity k r t else 0)) else 0) := by
    intro j _
    rw [diskServer_set _ _ _ _ hlt]
    by_cases hj : j = k
    · subst hj
      simp only [if_true, hsrv, Option.some.injEq]
      by_cases h1 : sv = dst <;> by_cases h2 : sv = disk.serverId
      · rw [if_pos h1, if_pos h2, if_pos h1.symm, if_pos h2.symm]; ring
      · rw [if_pos h1, if_neg h2, if_pos h1.symm, if_neg (fun h => h2 h.symm)]; ring
      · rw [if_neg h1, if_pos h2, if_neg (fun h => h1 h.symm), if_pos h2.symm]; ring
      · rw [if_neg h1, if_neg h2, if_neg (fun h => h1 h.symm), if_neg (fun h => h2 h.symm)]
        ring
    · simp [hj]
  rw [Finset.sum_congr rfl hterm, Finset.sum_add_distrib,
    Finset.sum_ite_eq' (Finset.range distribution.length) k,
    if_pos (Finset.mem_range.mpr hlt)]

/-- What one committed atomic move writes, field by field. -/
theorem applyAtomMove_eq_some (data : TaskData α) (s s1 : VectorSolution α)
    (atomMove : AtomMove) (h : applyAtomMove data s atomMove = some s1) :
    atomMoveAsserts data s.distribution atomMove
    ∧ (∃ disk, s.distribution[atomMove.diskId]? = some disk
        ∧ disk.serverId = atomMove.source
        ∧ s1.distribution
            = s.distribution.set atomMove.diskId (Disk.mk atomMove.destination disk.color))
    ∧ s1.matrixCapacity
        = (tryOnAtomMoveLoops data atomMove (s.matrixCapacity, s.objectiveValue)).1
    ∧ s1.objectiveValue
        = (tryOnAtomMoveLoops data atomMove (s.matrixCapacity, s.objectiveValue)).2
    ∧ s1.appliedMoves
        = (getOverheads data atomMove s.appliedMoves s.thresholdOverheadsServer s.overheads).1
    ∧ s1.thresholdOverheadsServer
        = (getOverheads data atomMove s.appliedMoves s.thresholdOverheadsServer s.overheads).2.1
    ∧ s1.overheads
        = (getOverheads data atomMove s.appliedMoves s.thresholdOverheadsServer s.overheads).2.2
    ∧ s1.moveHistory = s.moveHistory ++ [atomMove]
    ∧ s1.overheadsCoefficient = s.overheadsCoefficient
    ∧ s1.serversColor = s.serversColor := by
  unfold applyAtomMove at h
  by_cases ha : atomMoveAsserts data s.distribution atomMove
  · rw [if_pos ha] at h
    have hne : ¬ atomMove.source = atomMove.destination := ha.1
    simp only [tryOnAtomMove, if_pos ha, if_neg hne] at h
    obtain hd | ⟨disk, hd⟩ := Option.eq_none_or_eq_some (s.distribution[atomMove.diskId]?)
    · simp [moveDisk, hd] at h
    · have hsrc : disk.serverId = atomMove.source := by
        have := ha.2.1
        simpa [diskServer, hd] using this
      simp only [moveDisk, hd, if_pos hsrc, Option.some.injEq] at h
      subst h
      exact ⟨ha, ⟨disk, hd, hsrc, rfl⟩, rfl, rfl, rfl, rfl, rfl, rfl, rfl, rfl⟩
  · rw [if_neg ha] at h
    cases h

/-- When the assertions hold, one iteration of the loop of `applyMove` completes. -/
theorem applyAtomMove_isSome (data : TaskData α) (s : VectorSolution α) (atomMove : AtomMove)
    (ha : atomMoveAsserts data s.distribution atomMove) :
    ∃ s1, applyAtomMove data s atomMove = some s1 := by
  have hne : ¬ atomMove.source = atomMove.destination := ha.1
  have h2 := ha.2.1
  simp only [diskServer, Option.map_eq_some'] at h2
  obtain ⟨disk, hd, hsrc⟩ := h2
  simp only [applyAtomMove, if_pos ha, tryOnAtomMove, if_neg hne, moveDisk, hd, if_pos hsrc]
  exact ⟨_, rfl⟩

/-- One committed atomic move keeps the consistency invariant. -/
theorem applyAtomMove_consistent (data : TaskData α)
    (hdemand : ∀ disk resource time, 0 ≤ data.capacity disk resource time)
    (s s1 : VectorSolution α) (atomMove : AtomMove)
    (h : applyAtomMove data s atomMove = some s1) (hinv : Consistent data s) :
    Consistent data s1 := by
  obtain ⟨ha, ⟨disk, hd, hsrc, hdist⟩, hm, ho, -⟩ := applyAtomMove_eq_some data s s1 atomMove h
  constructor
  · intro server time resource hs ht hr
    rw [hm, hdist, tryOnAtomMoveLoops_matrix data atomMove ha.1, assignedDemand_set data _ _ _ _ hd,
      if_pos ⟨ht, hr⟩, hsrc]
    simp only [hinv.1 server time resource hs ht hr]
    by_cases h1 : server = atomMove.destination
    · have h2 : ¬ server = atomMove.source := fun h2 => ha.1 (h2.symm.trans h1)
      rw [if_pos h1, if_pos h1, if_neg h2]
      ring
    · by_cases h2 : server = atomMove.source
      · rw [if_neg h1, if_neg h1, if_pos h2, if_pos h2]; ring
      · rw [if_neg h1, if_neg h1, if_neg h2, if_neg h2]; ring
  · rw [hm, ho]
    exact tryOnAtomMoveLoops_objective data atomMove
      (fun time resource => hdemand atomMove.diskId resource time) ha.2.2.1 ha.2.2.2
      _ hinv.2

/-- The method `applyMove` keeps the consistency invariant. -/
theorem applyMove_consistent (data : TaskData α)
    (hdemand : ∀ disk resource time, 0 ≤ data.capacity disk resource time)
    (atomMoves : List AtomMove) (s s1 : VectorSolution α)
    (h : applyMove data s atomMoves = some s1) (hinv : Consistent data s) :
    Consistent data s1 := by
  induction atomMoves generalizing s with
  | nil =>
    simp only [applyMove, Option.some.injEq] at h
    exact h ▸ hinv
  | cons a rest ih =>
    unfold applyMove at h
    cases ha : applyAtomMove data s a with
    | none => rw [ha] at h; cases h
    | some s2 =>
      rw [ha] at h
      exact ih s2 h (applyAtomMove_consistent data hdemand s s2 a ha hinv)

/-- A sequence of `applyMove` calls keeps the consistency invariant. -/
theorem applyMoves_consistent (data : TaskData α)
    (hdemand : ∀ disk resource time, 0 ≤ data.capacity disk resource time)
    (moves : List (List AtomMove)) (s s1 : VectorSolution α)
    (h : applyMoves data s moves = some s1) (hinv : Consistent data s) :
    Consistent data s1 := by
  induction moves generalizing s with
  | nil =>
    simp only [applyMoves, Option.some.injEq] at h
    exact h ▸ hinv
  | cons M rest ih =>
    unfold applyMoves at h
    cases hM : applyMove data s M with
    | none => rw [hM] at h; cases h
    | some s2 =>
      rw [hM] at h
      exact ih s2 h (applyMove_consistent data hdemand M s s2 hM hinv)

/-- The cells `fillObjectiveValueMatrix` writes, and the value it returns. -/
theorem fillObjectiveValueMatrix_spec (data : TaskData α) (distribution : List Disk)
    (m0 : ThreeDimensionalMatrix α) :
    (∀ server time resource, server < data.numberOfServers → time < data.numberOfTimes →
      resource < data.numberOfResource →
      (fillObjectiveValueMatrix data distribution m0).1 server time resource
        = assignedDemand data distribution server time resource
          - data.thresholdCapacity server resource)
    ∧ (fillObjectiveValueMatrix data distribution m0).2
        = sumOfPositiveCells data (fillObjectiveValueMatrix data distribution m0).1 := by
  constructor
  · intro server time resource hs ht hr
    simp only [fillObjectiveValueMatrix]
    rw [fillDemands_apply, fillThresholds_apply, if_pos ⟨ht, hr⟩, if_pos ⟨hs, ht, hr⟩]
    ring
  · simp only [fillObjectiveValueMatrix]
    exact sumPositiveCells_eq data _

/-- The sum of the positive cells reads the cells of the matrix in range only. -/
theorem sumOfPositiveCells_congr (data : TaskData α) (m1 m2 : ThreeDimensionalMatrix α)
    (h : ∀ server time resource, server < data.numberOfServers → time < data.numberOfTimes →
      resource < data.numberOfResource → m1 server time resource = m2 server time resource) :
    sumOfPositiveCells data m1 = sumOfPositiveCells data m2 := by
  unfold sumOfPositiveCells
  refine Finset.sum_congr rfl (fun a ha => Finset.sum_congr rfl (fun b hb =>
    Finset.sum_congr rfl (fun c hc => ?_)))
  rw [h a b c (Finset.mem_range.mp ha) (Finset.mem_range.mp hb) (Finset.mem_range.mp hc)]

/-- The members of a constructed solution. -/
theorem construct_eq_some (data : TaskData α) (coefficient : α) (s : VectorSolution α)
    (h : VectorSolution.construct data coefficient = some s) :
    s.distribution = data.initialDistribution
    ∧ s.matrixCapacity
        = (fillObjectiveValueMatrix data data.initialDistribution (fun _ _ _ => 0)).1
    ∧ s.objectiveValue
        = (fillObjectiveValueMatrix data data.initialDistribution (fun _ _ _ => 0)).2
    ∧ s.thresholdOverheadsServer = data.thresholdOverheads
    ∧ s.overheads = 0 ∧ s.moveHistory = [] ∧ s.overheadsCoefficient = coefficient
    ∧ s.appliedMoves = ∅
    ∧ paintServers data data.initialDistribution (fun _ => Color.NONE) = some s.serversColor := by
  unfold VectorSolution.construct at h
  cases hp : paintServers data data.initialDistribution (fun _ => Color.NONE) with
  | none => simp [hp] at h
  | some colors =>
    simp only [hp, Option.some.injEq] at h
    subst h
    exact ⟨rfl, rfl, rfl, rfl, rfl, rfl, rfl, rfl, rfl⟩

/-- A constructed solution satisfies the consistency invariant. -/
theorem construct_consistent (data : TaskData α) (coefficient : α) (s : VectorSolution α)
    (h : VectorSolution.construct data coefficient = some s) : Consistent data s := by
  obtain ⟨hdist, hm, ho, -⟩ := construct_eq_some data coefficient s h
  have hspec := fillObjectiveValueMatrix_spec data data.initialDistribution (fun _ _ _ => 0)
  constructor
  · intro server time resource hs ht hr
    rw [hm, hdist]
    exact hspec.1 server time resource hs ht hr
  · rw [hm, ho]
    exact hspec.2

/-- Claim C1 (consistency invariant). Demands are non-negative. A solution is constructed and
any sequence of `applyMove` calls runs on it without tripping an assertion. Then every cell
`matrixCapacity[server, time, resource]` in range is the sum of `getCapacity(disk, resource,
time)` over the disks now on that server, minus `getThresholdCapacity(server, resource)`; the
objective value is the sum of the strictly positive cells; and both are what
`fillObjectiveValueMatrix` computes from scratch from the current distribution, whatever the
matrix it starts from holds. -/
theorem consistency_invariant (data : TaskData α)
    (hdemand : ∀ disk resource time, 0 ≤ data.capacity disk resource time)
    (coefficient : α) (moves : List (List AtomMove)) (s0 s : VectorSolution α)
    (hconstruct : VectorSolution.construct data coefficient = some s0)
    (hmoves : applyMoves data s0 moves = some s) :
    (∀ server time resource, server < data.numberOfServers → time < data.numberOfTimes →
      resource < data.numberOfResource →
      s.matrixCapacity server time resource
          = assignedDemand data s.distribution server time resource
            - data.thresholdCapacity server resource
        ∧ ∀ m0, s.matrixCapacity server time resource
          = (fillObjectiveValueMatrix data s.distribution m0).1 server time resource)
    ∧ s.objectiveValue = sumOfPositiveCells data s.matrixCapacity
    ∧ ∀ m0, s.objectiveValue = (fillObjectiveValueMatrix data s.distribution m0).2 := by
  have hinv := applyMoves_consistent data hdemand moves s0 s hmoves
    (construct_consistent data coefficient s0 hconstruct)
  refine ⟨fun server time resource hs ht hr => ⟨hinv.1 server time resource hs ht hr, ?_⟩,
    hinv.2, ?_⟩
  · intro m0
    rw [hinv.1 server time resource hs ht hr,
      (fillObjectiveValueMatrix_spec data s.distribution m0).1 server time resource hs ht hr]
  · intro m0
    rw [(fillObjectiveValueMatrix_spec data s.distribution m0).2, hinv.2]
    apply sumOfPositiveCells_congr
    intro server time resource hs ht hr
    rw [hinv.1 server time resource hs ht hr,
      (fillObjectiveValueMatrix_spec data s.distribution m0).1 server time resource hs ht hr]

/-- The servers of the disks after one committed atomic move. -/
theorem diskServer_of_applyAtomMove (data : TaskData α) (s s1 : VectorSolution α)
    (atomMove : AtomMove) (h : applyAtomMove data s atomMove = some s1) (j : Nat) :
    diskServer s1.distribution j
      = if j = atomMove.diskId then some atomMove.destination
        else diskServer s.distribution j := by
  obtain ⟨-, ⟨disk, hd, -, hdist⟩, -⟩ := applyAtomMove_eq_some data s s1 atomMove h
  have hlt : atomMove.diskId < s.distribution.length := by
    rcases List.getElem?_eq_some_iff.mp hd with ⟨h, -⟩
    exact h
  rw [hdist, diskServer_set _ _ _ _ hlt]

/-- The loop of `tryOnMove` and the loop of `applyMove` run in step when the atomic moves
relocate pairwise distinct disks. -/
theorem tryOnMoveLoop_eq_applyMove (data : TaskData α) (s : VectorSolution α)
    (atomMoves : List AtomMove) (s' : VectorSolution α)
    (hdistinct : (atomMoves.map AtomMove.diskId).Nodup)
    (hpre : ∀ a ∈ atomMoves, atomMoveAsserts data s.distribution a)
    (hpre' : ∀ a ∈ atomMoves, atomMoveAsserts data s'.distribution a) :
    ∃ s1, applyMove data s' atomMoves = some s1
      ∧ tryOnMoveLoop data s (TrialState.ofSolution s') atomMoves
          = some (TrialState.ofSolution s1)
      ∧ s1.overheadsCoefficient = s'.overheadsCoefficient := by
  induction atomMoves generalizing s' with
  | nil => exact ⟨s', rfl, rfl, rfl⟩
  | cons a rest ih =>
    have ha := hpre a (List.mem_cons_self a rest)
    have ha' := hpre' a (List.mem_cons_self a rest)
    obtain ⟨s2, hs2⟩ := applyAtomMove_isSome data s' a ha'
    obtain ⟨-, -, hm, ho, hset, hthr, hov, -, hcoef, -⟩ := applyAtomMove_eq_some data s' s2 a hs2
    rw [List.map_cons, List.nodup_cons] at hdistinct
    have hrest : ∀ b ∈ rest, atomMoveAsserts data s2.distribution b := by
      intro b hb
      have hb' := hpre' b (List.mem_cons_of_mem a hb)
      have hne : b.diskId ≠ a.diskId := by
        intro heq
        exact hdistinct.1 (heq ▸ List.mem_map_of_mem AtomMove.diskId hb)
      refine ⟨hb'.1, ?_, hb'.2.2⟩
      rw [diskServer_of_applyAtomMove data s' s2 a hs2, if_neg hne]
      exact hb'.2.1
    obtain ⟨s1, h1, h2, h3⟩ := ih s2 hdistinct.2
      (fun b hb => hpre b (List.mem_cons_of_mem a hb)) hrest
    refine ⟨s1, ?_, ?_, h3.trans hcoef⟩
    · simp only [applyMove, hs2, h1]
    · have hne : ¬ a.source = a.destination := ha.1
      have hstep : TrialState.mk
          (tryOnAtomMoveLoops data a (s'.matrixCapacity, s'.objectiveValue)).1
          (tryOnAtomMoveLoops data a (s'.matrixCapacity, s'.objectiveValue)).2
          (getOverheads data a s'.appliedMoves s'.thresholdOverheadsServer s'.overheads).2.2
          (getOverheads data a s'.appliedMoves s'.thresholdOverheadsServer s'.overheads).2.1
          (getOverheads data a s'.appliedMoves s'.thresholdOverheadsServer s'.overheads).1
          = TrialState.ofSolution s2 := by
        simp only [TrialState.ofSolution, hm, ho, hset, hthr, hov]
      simp only [tryOnMoveLoop, if_pos ha, tryOnAtomMove, if_neg hne, TrialState.ofSolution]
      simp only [TrialState.ofSolution] at hstep h2
      rw [hstep, h2]

/-- Claim C2 (trial/commit equivalence). When the atomic moves of a move relocate pairwise
distinct disks and each passes the three assertions against the current distribution,
`applyMove` completes, and `tryOnMove` from the same state returns the value
`getObjectiveValue()` has after the commit. -/
theorem trial_commit_equivalence (data : TaskData α) (s : VectorSolution α)
    (atomMoves : List AtomMove)
    (hdistinct : (atomMoves.map AtomMove.diskId).Nodup)
    (hpre : ∀ a ∈ atomMoves, atomMoveAsserts data s.distribution a) :
    ∃ s1, applyMove data s atomMoves = some s1
      ∧ tryOnMove data s atomMoves = some (getObjectiveValue s1) := by
  obtain ⟨s1, h1, h2, h3⟩ := tryOnMoveLoop_eq_applyMove data s atomMoves s hdistinct hpre hpre
  refine ⟨s1, h1, ?_⟩
  unfold tryOnMove
  rw [h2]
  simp only [Option.map_some', getObjectiveValue, TrialState.ofSolution, h3]

end Proofs2

/-- The inverse of the inverse is the move. -/
theorem AtomMove.inverse_inverse (m : AtomMove) : m.inverse.inverse = m := rfl

/-- A move between two different servers is not its own inverse. -/
theorem AtomMove.inverse_ne (m : AtomMove) (h : m.source ≠ m.destination) : m.inverse ≠ m := by
  intro heq
  have := congrArg AtomMove.source heq
  exact h this.symm

/-- Moves with the same inverse are equal. -/
theorem AtomMove.inverse_injective (m n : AtomMove) (h : m.inverse = n.inverse) : m = n := by
  have := congrArg AtomMove.inverse h
  simpa only [AtomMove.inverse_inverse] using this

/-- A loop over resources whose step `r` rewrites the ledger cells `(·, r)` with `g`. -/
theorem forLoop_ledger_apply (g : Nat → Nat → α → α)
    (step : Nat → TwoDimensionalMatrix α → TwoDimensionalMatrix α)
    (hstep : ∀ r l a c, step r l a c = if c = r then g a c (l a c) else l a c)
    (R : Nat) (l : TwoDimensionalMatrix α) (a c : Nat) :
    forLoop R step l a c = if c < R then g a c (l a c) else l a c := by
  induction R with
  | zero => simp [forLoop]
  | succ R ih =>
    rw [forLoop_succ, hstep, ih]
    by_cases hc : c = R
    · subst hc; simp
    · have : c < R + 1 ↔ c < R := by omega
      simp [hc, this]

section Proofs3

variable [LinearOrderedCommRing α]

/-- For a non-negative cost, `handlerOverheads` adds the growth of the debt of a cell from
which the cost is taken. -/
theorem handlerOverheads_eq (c o ov : α) (ho : 0 ≤ o) :
    handlerOverheads c o ov = ov - negativePart c + negativePart (c - o) := by
  unfold handlerOverheads negativePart
  split_ifs <;> first | ring1 | (exfalso; linarith) | linarith

/-- For a non-negative cost, `antiHandlerOverheads` removes the drop of the debt of a cell
to which the cost is given back. -/
theorem antiHandlerOverheads_eq (c o ov : α) (ho : 0 ≤ o) :
    antiHandlerOverheads c o ov = ov - negativePart c + negativePart (c + o) := by
  unfold antiHandlerOverheads negativePart
  split_ifs with h1 h2 h3 h4 h5 h6
  all_goals first
    | (rw [abs_of_neg h1.1]; first | ring1 | (exfalso; linarith))
    | ring1
    | (exfalso; linarith)
    | (exfalso; push_neg at h1; linarith [h1 (by assumption)])

/-- Writing one ledger cell in range changes the debt of the ledger by the change of the
debt of that cell. -/
theorem ledgerDebt_set (data : TaskData α) (l : TwoDimensionalMatrix α) (sv r : Nat) (v : α)
    (hsv : sv < data.numberOfServers) (hr : r < data.numberOfResource) :
    ledgerDebt data (l.set sv r v) = ledgerDebt data l - negativePart (l sv r) + negativePart v := by
  have hcell : ∀ a c, negativePart (l.set sv r v a c)
      = negativePart (l a c)
        + (if c = r then (if a = sv then negativePart v - negativePart (l sv r) else 0)
            else 0) := by
    intro a c
    simp only [TwoDimensionalMatrix.set]
    by_cases ha : a = sv <;> by_cases hc : c = r <;> simp [ha, hc]
  have h1 : ∀ a, ∑ c ∈ Finset.range data.numberOfResource, negativePart (l.set sv r v a c)
      = ∑ c ∈ Finset.range data.numberOfResource, negativePart (l a c)
        + (if a = sv then negativePart v - negativePart (l sv r) else 0) := by
    intro a
    rw [Finset.sum_congr rfl (fun c _ => hcell a c), Finset.sum_add_distrib,
      Finset.sum_ite_eq' (Finset.range data.numberOfResource) r, if_pos (Finset.mem_range.mpr hr)]
  unfold ledgerDebt
  rw [Finset.sum_congr rfl (fun a _ => h1 a), Finset.sum_add_distrib,
    Finset.sum_ite_eq' (Finset.range data.numberOfServers) sv,
    if_pos (Finset.mem_range.mpr hsv)]
  ring

/-- One resource step of `getOverheads` changes the overheads by the change of the debt. -/
theorem getOverheadsResource_potential (data : TaskData α)
    (hcost : ∀ kind disk server resource, 0 ≤ data.diskCosts kind disk server resource)
    (atomMove : AtomMove) (met : Bool) (resource : Nat) (st : TwoDimensionalMatrix α × α)
    (hs : atomMove.source < data.numberOfServers)
    (hd : atomMove.destination < data.numberOfServers)
    (hr : resource < data.numberOfResource) :
    (getOverheadsResource data atomMove met resource st).2
        - ledgerDebt data (getOverheadsResource data atomMove met resource st).1
      = st.2 - ledgerDebt data st.1 := by
  cases met with
  | true =>
    simp only [getOverheadsResource, if_true]
    rw [ledgerDebt_set data _ _ _ _ hd hr, ledgerDebt_set data _ _ _ _ hs hr,
      antiHandlerOverheads_eq _ _ _ (hcost _ _ _ _), antiHandlerOverheads_eq _ _ _ (hcost _ _ _ _)]
    ring
  | false =>
    simp only [getOverheadsResource, Bool.false_eq_true, if_false]
    rw [ledgerDebt_set data _ _ _ _ hd hr, ledgerDebt_set data _ _ _ _ hs hr,
      handlerOverheads_eq _ _ _ (hcost _ _ _ _), handlerOverheads_eq _ _ _ (hcost _ _ _ _)]
    ring

/-- The ledger cells one resource step of `getOverheads` writes. -/
theorem getOverheadsResource_ledger (data : TaskData α) (atomMove : AtomMove)
    (hne : atomMove.source ≠ atomMove.destination) (met : Bool) (resource : Nat)
    (st : TwoDimensionalMatrix α × α) (a c : Nat) :
    (getOverheadsResource data atomMove met resource st).1 a c
      = if c = resource then st.1 a c + ledgerShift data atomMove met a c else st.1 a c := by
  have hne' : ¬ atomMove.destination = atomMove.source := fun h => hne h.symm
  cases met with
  | true =>
    simp only [getOverheadsResource, if_true, TwoDimensionalMatrix.set, ledgerShift]
    by_cases hc : c = resource <;> by_cases ha : a = atomMove.source <;>
      by_cases ha' : a = atomMove.destination <;> simp_all
  | false =>
    simp only [getOverheadsResource, Bool.false_eq_true, if_false, TwoDimensionalMatrix.set,
      ledgerShift]
    by_cases hc : c = resource <;> by_cases ha : a = atomMove.source <;>
      by_cases ha' : a = atomMove.destination <;> simp_all [sub_eq_add_neg]

/-- The ledger `getOverheads` leaves. -/
theorem getOverheads_ledger (data : TaskData α) (atomMove : AtomMove)
    (hne : atomMove.source ≠ atomMove.destination) (appliedMoves : Finset AtomMove)
    (l : TwoDimensionalMatrix α) (ov : α) (a c : Nat) :
    (getOverheads data atomMove appliedMoves l ov).2.1 a c
      = if c < data.numberOfResource
        then l a c + ledgerShift data atomMove (decide (atomMove ∈ appliedMoves)) a c
        else l a c := by
  simp only [getOverheads]
  rw [forLoop_fst data.numberOfResource
    (getOverheadsResource data atomMove (decide (atomMove ∈ appliedMoves)))
    (fun resource l' =>
      (getOverheadsResource data atomMove (decide (atomMove ∈ appliedMoves)) resource
        (l', (0 : α))).1)
    (fun r st => by cases decide (atomMove ∈ appliedMoves) <;> rfl)]
  exact forLoop_ledger_apply
    (fun a c x => x + ledgerShift data atomMove (decide (atomMove ∈ appliedMoves)) a c)
    _ (fun r l' a c => getOverheadsResource_ledger data atomMove hne _ r (l', 0) a c) _ _ a c

/-- Over a whole call, `getOverheads` changes the overheads by the change of the debt. -/
theorem getOverheads_potential (data : TaskData α)
    (hcost : ∀ kind disk server resource, 0 ≤ data.diskCosts kind disk server resource)
    (atomMove : AtomMove) (appliedMoves : Finset AtomMove)
    (l : TwoDimensionalMatrix α) (ov : α)
    (hs : atomMove.source < data.numberOfServers)
    (hd : atomMove.destination < data.numberOfServers) :
    (getOverheads data atomMove appliedMoves l ov).2.2
        - ledgerDebt data (getOverheads data atomMove appliedMoves l ov).2.1
      = ov - ledgerDebt data l := by
  simp only [getOverheads]
  exact forLoop_invariant (fun st => st.2 - ledgerDebt data st.1 = ov - ledgerDebt data l)
    data.numberOfResource
    (getOverheadsResource data atomMove (decide (atomMove ∈ appliedMoves))) (l, ov) rfl
    (fun r hr st hst =>
      (getOverheadsResource_potential data hcost atomMove _ r st hs hd hr).trans hst)

/-- The applied-move set `getOverheads` leaves: the move is erased when it was found, else
its inverse is inserted. -/
theorem getOverheads_appliedMoves (data : TaskData α) (atomMove : AtomMove)
    (appliedMoves : Finset AtomMove) (l : TwoDimensionalMatrix α) (ov : α) :
    (getOverheads data atomMove appliedMoves l ov).1
      = if atomMove ∈ appliedMoves then appliedMoves.erase atomMove
        else insert atomMove.inverse appliedMoves := by
  simp only [getOverheads, decide_eq_true_eq]

/-- What a charge adds to the ledger, its reversal through the inverse move takes back. -/
theorem ledgerShift_inverse (data : TaskData α) (atomMove : AtomMove)
    (hne : atomMove.source ≠ atomMove.destination) (met : Bool) (a c : Nat) :
    ledgerShift data atomMove met a c + ledgerShift data atomMove.inverse (!met) a c = 0 := by
  have hne' : ¬ atomMove.destination = atomMove.source := fun h => hne h.symm
  cases met <;>
  simp only [ledgerShift, AtomMove.inverse, Bool.not_true, Bool.not_false, if_true,
    Bool.false_eq_true, if_false] <;>
  by_cases ha : a = atomMove.source <;> by_cases ha' : a = atomMove.destination <;> simp_all

/-- The method `getOverheads` never leaves a move together with its inverse in the set. -/
theorem getOverheads_noInversePair (data : TaskData α) (atomMove : AtomMove)
    (hne : atomMove.source ≠ atomMove.destination) (appliedMoves : Finset AtomMove)
    (l : TwoDimensionalMatrix α) (ov : α) (h : NoInversePair appliedMoves) :
    NoInversePair (getOverheads data atomMove appliedMoves l ov).1 := by
  rw [getOverheads_appliedMoves]
  by_cases hm : atomMove ∈ appliedMoves
  · rw [if_pos hm]
    intro m hmem hinv
    exact h m (Finset.mem_of_mem_erase hmem) (Finset.mem_of_mem_erase hinv)
  · rw [if_neg hm]
    intro m hmem hinv
    rw [Finset.mem_insert] at hmem hinv
    rcases hmem with rfl | hmem
    · rw [AtomMove.inverse_inverse] at hinv
      rcases hinv with hinv | hinv
      · exact AtomMove.inverse_ne atomMove hne hinv.symm
      · exact hm hinv
    · rcases hinv with hinv | hinv
      · exact hm (AtomMove.inverse_injective _ _ hinv ▸ hmem)
      · exact h m hmem hinv

/-- The method `applyMove` never leaves a move together with its inverse in the set. -/
theorem applyMove_noInversePair (data : TaskData α) (atomMoves : List AtomMove)
    (s s1 : VectorSolution α) (h : applyMove data s atomMoves = some s1)
    (hinv : NoInversePair s.appliedMoves) : NoInversePair s1.appliedMoves := by
  induction atomMoves generalizing s with
  | nil =>
    simp only [applyMove, Option.some.injEq] at h
    exact h ▸ hinv
  | cons a rest ih =>
    unfold applyMove at h
    cases ha : applyAtomMove data s a with
    | none => rw [ha] at h; cases h
    | some s2 =>
      rw [ha] at h
      obtain ⟨hasserts, -, -, -, hset, -⟩ := applyAtomMove_eq_some data s s2 a ha
      refine ih s2 h ?_
      rw [hset]
      exact getOverheads_noInversePair data a hasserts.1 _ _ _ hinv

/-- No state of a solution object holds a move together with its inverse in its set. -/
theorem Reachable.noInversePair (data : TaskData α) (s : VectorSolution α)
    (h : Reachable data s) : NoInversePair s.appliedMoves := by
  induction h with
  | construct coefficient s hc =>
    obtain ⟨-, -, -, -, -, -, -, hset, -⟩ := construct_eq_some data coefficient s hc
    rw [hset]
    intro m hm
    exact absurd hm (Finset.not_mem_empty m)
  | applyMove s s1 atomMoves _ hstep ih => exact applyMove_noInversePair data atomMoves s s1 hstep ih
  | copy s _ _ => intro m hm; exact absurd hm (Finset.not_mem_empty m)
  | assign s rhs _ _ ih _ => exact ih
  | swapLeft s other _ _ ih _ => exact ih
  | swapRight s other _ _ _ ih => exact ih
  | setOverheadsCoefficient s value _ ih => exact ih

/-- Committing a move of one atomic move is one iteration of the loop of `applyMove`. -/
theorem applyMove_singleton (data : TaskData α) (s : VectorSolution α) (atomMove : AtomMove) :
    applyMove data s [atomMove] = applyAtomMove data s atomMove := by
  simp only [applyMove]
  cases applyAtomMove data s atomMove <;> rfl

/-- Claim C3 (overhead cancellation). Costs are non-negative, the state is one the members of
the class produce, and the atomic move has `source != destination`, relocates a disk that is
on its source, and names servers in range. Then committing the move and then its inverse
completes, leaves the overheads scalar and every cell of `thresholdOverheadsServer` as they
were before the move, and leaves `appliedMoves` without the inverse triple (source `d`,
destination `s`, disk `k`). -/
theorem overhead_cancellation (data : TaskData α)
    (hcost : ∀ kind disk server resource, 0 ≤ data.diskCosts kind disk server resource)
    (s : VectorSolution α) (hreach : Reachable data s) (atomMove : AtomMove)
    (hne : atomMove.source ≠ atomMove.destination)
    (hon : diskServer s.distribution atomMove.diskId = some atomMove.source)
    (hrange : atomMove.source < data.numberOfServers
      ∧ atomMove.destination < data.numberOfServers) :
    ∃ s1 s2, applyMove data s [atomMove] = some s1
      ∧ applyMove data s1 [atomMove.inverse] = some s2
      ∧ s2.overheads = s.overheads
      ∧ (∀ server resource,
          s2.thresholdOverheadsServer server resource
            = s.thresholdOverheadsServer server resource)
      ∧ atomMove.inverse ∉ s2.appliedMoves := by
  have hpair := Reachable.noInversePair data s hreach
  have hinvne : atomMove.inverse ≠ atomMove := AtomMove.inverse_ne atomMove hne
  obtain ⟨s1, hs1⟩ := applyAtomMove_isSome data s atomMove ⟨hne, hon, hrange⟩
  obtain ⟨-, -, -, -, hset1, hthr1, hov1, -⟩ := applyAtomMove_eq_some data s s1 atomMove hs1
  have hon1 : diskServer s1.distribution atomMove.inverse.diskId
      = some atomMove.inverse.source := by
    rw [diskServer_of_applyAtomMove data s s1 atomMove hs1]
    exact if_pos rfl
  have hne1 : atomMove.inverse.source ≠ atomMove.inverse.destination := fun h => hne h.symm
  have hrange1 : atomMove.inverse.source < data.numberOfServers
      ∧ atomMove.inverse.destination < data.numberOfServers := ⟨hrange.2, hrange.1⟩
  obtain ⟨s2, hs2⟩ := applyAtomMove_isSome data s1 atomMove.inverse ⟨hne1, hon1, hrange1⟩
  obtain ⟨-, -, -, -, hset2, hthr2, hov2, -⟩ :=
    applyAtomMove_eq_some data s1 s2 atomMove.inverse hs2
  rw [getOverheads_appliedMoves] at hset1 hset2
  have hmet : decide (atomMove.inverse ∈ s1.appliedMoves)
      = !decide (atomMove ∈ s.appliedMoves) := by
    by_cases hm : atomMove ∈ s.appliedMoves
    · have : atomMove.inverse ∉ s1.appliedMoves := by
        rw [hset1, if_pos hm]
        intro h
        exact hpair atomMove hm (Finset.mem_of_mem_erase h)
      simp [hm, this]
    · have : atomMove.inverse ∈ s1.appliedMoves := by
        rw [hset1, if_neg hm]
        exact Finset.mem_insert_self _ _
      simp [hm, this]
  have hledger : s2.thresholdOverheadsServer = s.thresholdOverheadsServer := by
    funext a c
    rw [hthr2, getOverheads_ledger data _ hne1, hthr1, getOverheads_ledger data _ hne, hmet]
    by_cases hc : c < data.numberOfResource
    · rw [if_pos hc, if_pos hc, add_assoc, ledgerShift_inverse data atomMove hne, add_zero]
    · rw [if_neg hc, if_neg hc]
  refine ⟨s1, s2, (applyMove_singleton data s atomMove).trans hs1,
    (applyMove_singleton data s1 atomMove.inverse).trans hs2, ?_,
    fun a c => congrFun (congrFun hledger a) c, ?_⟩
  · have p1 := getOverheads_potential data hcost atomMove s.appliedMoves
      s.thresholdOverheadsServer s.overheads hrange.1 hrange.2
    have p2 := getOverheads_potential data hcost atomMove.inverse s1.appliedMoves
      s1.thresholdOverheadsServer s1.overheads hrange1.1 hrange1.2
    rw [← hthr1, ← hov1] at p1
    rw [← hthr2, ← hov2, hledger] at p2
    linarith
  · by_cases hm : atomMove ∈ s.appliedMoves
    · have hnot : atomMove.inverse ∉ s1.appliedMoves := by
        rw [hset1, if_pos hm]
        intro h
        exact hpair atomMove hm (Finset.mem_of_mem_erase h)
      rw [hset2, if_neg hnot, AtomMove.inverse_inverse, Finset.mem_insert]
      rintro (h | h)
      · exact hinvne h
      · exact hnot h
    · have hin : atomMove.inverse ∈ s1.appliedMoves := by
        rw [hset1, if_neg hm]
        exact Finset.mem_insert_self _ _
      rw [hset2, if_pos hin]
      exact Finset.not_mem_erase _ _

end Proofs3

/-- The loop of `moveIsCorrect` completes under the two assertions and returns true exactly
when no atomic move is a forbidden relocation. -/
theorem moveIsCorrectLoop_spec (s : VectorSolution α) (atomMoves : List AtomMove)
    (hpre : ∀ a ∈ atomMoves, a.source ≠ a.destination
      ∧ diskServer s.distribution a.diskId = some a.source) :
    ∃ b, moveIsCorrectLoop s atomMoves = some b
      ∧ (b = true ↔ NoForbiddenRelocation s atomMoves) := by
  induction atomMoves with
  | nil => exact ⟨true, rfl, by simp [NoForbiddenRelocation]⟩
  | cons a rest ih =>
    have ha := hpre a (List.mem_cons_self a rest)
    obtain ⟨b, hb, hiff⟩ := ih (fun x hx => hpre x (List.mem_cons_of_mem a hx))
    unfold moveIsCorrectLoop
    rw [if_pos ha]
    by_cases hy : diskColor s.distribution a.diskId = some Color.YELLOW
        ∧ s.serversColor a.destination = Color.YELLOW
    · rw [if_pos hy]
      refine ⟨false, rfl, ?_⟩
      simp only [NoForbiddenRelocation, List.mem_cons, forall_eq_or_imp]
      constructor
      · intro h; cases h
      · intro h; exact absurd hy h.1.2
    · rw [if_neg hy]
      by_cases hr : diskColor s.distribution a.diskId = some Color.RED
      · rw [if_pos hr]
        refine ⟨false, rfl, ?_⟩
        simp only [NoForbiddenRelocation, List.mem_cons, forall_eq_or_imp]
        constructor
        · intro h; cases h
        · intro h; exact absurd hr h.1.1
      · rw [if_neg hr]
        refine ⟨b, hb, ?_⟩
        rw [hiff]
        simp only [NoForbiddenRelocation, List.mem_cons, forall_eq_or_imp]
        constructor
        · intro h; exact ⟨⟨hr, hy⟩, h⟩
        · intro h; exact h.2

/-- The value of `moveIsCorrect` on a move whose atomic moves pass its two assertions. -/
theorem moveIsCorrect_iff (s : VectorSolution α) (atomMoves : List AtomMove)
    (hpre : ∀ a ∈ atomMoves, a.source ≠ a.destination
      ∧ diskServer s.distribution a.diskId = some a.source) :
    ∃ b, moveIsCorrect s atomMoves = some b
      ∧ (b = true ↔
          SameSeveritySwap s.distribution atomMoves ∨ NoForbiddenRelocation s atomMoves) := by
  obtain ⟨b, hb, hiff⟩ := moveIsCorrectLoop_spec s atomMoves hpre
  by_cases hsw : SameSeveritySwap s.distribution atomMoves
  · obtain ⟨a1, a2, rfl, hc⟩ := hsw
    refine ⟨true, ?_, by simp; left; exact ⟨a1, a2, rfl, hc⟩⟩
    have h1 := (hpre a1 (by simp)).2
    have h2 := (hpre a2 (by simp)).2
    simp only [diskServer, Option.map_eq_some'] at h1 h2
    obtain ⟨k1, hk1, -⟩ := h1
    obtain ⟨k2, hk2, -⟩ := h2
    simp only [diskColor, hk1, hk2, Option.map_some', Option.some.injEq] at hc
    simp only [moveIsCorrect, hk1, hk2]
    rw [if_pos hc]
  · refine ⟨b, ?_, by rw [hiff]; simp [hsw]⟩
    rw [← hb]
    match atomMoves, hpre, hsw with
    | [], _, _ => rfl
    | [_], _, _ => rfl
    | _ :: _ :: _ :: _, _, _ => rfl
    | [a1, a2], hpre, hsw =>
      have h1 := (hpre a1 (by simp)).2
      have h2 := (hpre a2 (by simp)).2
      simp only [diskServer, Option.map_eq_some'] at h1 h2
      obtain ⟨k1, hk1, -⟩ := h1
      obtain ⟨k2, hk2, -⟩ := h2
      have hc : ¬ ((k1.color = Color.RED ∧ k2.color = Color.RED)
          ∨ (k1.color = Color.YELLOW ∧ k2.color = Color.YELLOW)) := by
        intro hc
        apply hsw
        refine ⟨a1, a2, rfl, ?_⟩
        simpa only [diskColor, hk1, hk2, Option.map_some', Option.some.injEq] using hc
      simp only [moveIsCorrect, hk1, hk2]
      rw [if_neg hc]

/-- Claim C4 (validation soundness, as an exact characterisation). For a move all of whose
atomic moves have `source != destination` and relocate a disk that is on its source,
`moveIsCorrect` completes, and it returns true if and only if either (a) the move has exactly
two atomic moves and the two disks are both `RED` or both `YELLOW`, or (b) no atomic move
relocates a `RED` disk and none relocates a `YELLOW` disk to a server whose `serversColor` is
`YELLOW`. In particular, outside case (a), a move that relocates a `RED` disk is rejected,
and so is a move that places a `YELLOW` disk on a `YELLOW` server. -/
theorem validation_characterisation (s : VectorSolution α) (atomMoves : List AtomMove)
    (hpre : ∀ a ∈ atomMoves, a.source ≠ a.destination
      ∧ diskServer s.distribution a.diskId = some a.source) :
    ∃ b, moveIsCorrect s atomMoves = some b
      ∧ (b = true ↔
          SameSeveritySwap s.distribution atomMoves ∨ NoForbiddenRelocation s atomMoves)
      ∧ (¬ SameSeveritySwap s.distribution atomMoves →
          (∃ a ∈ atomMoves, diskColor s.distribution a.diskId = some Color.RED) → b = false)
      ∧ (¬ SameSeveritySwap s.distribution atomMoves →
          (∃ a ∈ atomMoves, diskColor s.distribution a.diskId = some Color.YELLOW
            ∧ s.serversColor a.destination = Color.YELLOW) → b = false) := by
  obtain ⟨b, hb, hiff⟩ := moveIsCorrect_iff s atomMoves hpre
  refine ⟨b, hb, hiff, ?_, ?_⟩
  · rintro hsw ⟨a, ha, hred⟩
    cases b with
    | false => rfl
    | true =>
      rcases hiff.mp rfl with h | h
      · exact absurd h hsw
      · exact absurd hred (h a ha).1
  · rintro hsw ⟨a, ha, hyellow⟩
    cases b with
    | false => rfl
    | true =>
      rcases hiff.mp rfl with h | h
      · exact absurd h hsw
      · exact absurd hyellow (h a ha).2

/-- The first iteration of a loop that starts at `i` runs the body on `i`. -/
theorem forLoopFrom_succ {σ : Type} (i count : Nat) (body : Nat → σ → σ) (init : σ) :
    forLoopFrom i (count + 1) body init = forLoopFrom (i + 1) count body (body i init) := rfl

/-- The listed pairs are the pairs `i < j < n`. -/
theorem mem_orderedPairs (n : Nat) (p : Nat × Nat) :
    p ∈ orderedPairs n ↔ p.1 < p.2 ∧ p.2 < n := by
  obtain ⟨i, j⟩ := p
  simp only [orderedPairs, List.mem_flatMap, List.mem_range, List.mem_map, List.mem_range',
    Prod.mk.injEq]
  constructor
  · rintro ⟨a, ha, b, ⟨k, hk, rfl⟩, rfl, rfl⟩
    omega
  · rintro ⟨h1, h2⟩
    exact ⟨i, by omega, j, ⟨j - (i + 1), by omega, by omega⟩, rfl, rfl⟩

/-- The pairs are listed in strictly increasing lexicographic order. -/
theorem orderedPairs_pairwise (n : Nat) :
    (orderedPairs n).Pairwise (fun p q => p.1 < q.1 ∨ (p.1 = q.1 ∧ p.2 < q.2)) := by
  unfold orderedPairs
  rw [List.pairwise_flatMap]
  constructor
  · intro i _
    rw [List.pairwise_map]
    exact (List.pairwise_lt_range' (i + 1) (n - (i + 1))).imp (fun h => Or.inr ⟨rfl, h⟩)
  · refine (List.pairwise_lt_range n).imp ?_
    intro a b hab p hp q hq
    simp only [List.mem_map] at hp hq
    obtain ⟨_, _, rfl⟩ := hp
    obtain ⟨_, _, rfl⟩ := hq
    exact Or.inl hab

/-- The server of a disk of the distribution. -/
theorem serverOf_eq (distribution : List Disk) (i : Nat) (d : Disk)
    (h : distribution[i]? = some d) : serverOf distribution i = d.serverId := by
  simp [serverOf, diskServer, h]

/-- The move built for a pair of disks on different servers passes the assertions of
`moveIsCorrect`. -/
theorem moveIsCorrect_swapOf_isSome (s : VectorSolution α) (i j : Nat) (di dj : Disk)
    (hi : s.distribution[i]? = some di) (hj : s.distribution[j]? = some dj)
    (hne : di.serverId ≠ dj.serverId) :
    ∃ b, moveIsCorrect s
      [AtomMove.mk dj.serverId di.serverId i, AtomMove.mk di.serverId dj.serverId j] = some b := by
  obtain ⟨b, hb, -⟩ := moveIsCorrect_iff s
    [AtomMove.mk dj.serverId di.serverId i, AtomMove.mk di.serverId dj.serverId j]
    (by
      intro a ha
      simp only [List.mem_cons, List.mem_singleton, List.not_mem_nil, or_false] at ha
      rcases ha with rfl | rfl
      · exact ⟨hne, by simp [diskServer, hi]⟩
      · exact ⟨fun h => hne h.symm, by simp [diskServer, hj]⟩)
  exact ⟨b, hb⟩

/-- The body of the inner loop of `getMoves` appends the swap of the pair when it is accepted. -/
theorem getMovesPair_eq (s : VectorSolution α) (i j : Nat) (acc : List (List AtomMove))
    (hi : i < s.distribution.length) (hj : j < s.distribution.length) :
    getMovesPair s i j (some acc)
      = some (acc ++ (([(i, j)].filter (swapAccepted s)).map (swapOf s.distribution))) := by
  have hgi : s.distribution[i]? = some s.distribution[i] := List.getElem?_eq_getElem hi
  have hgj : s.distribution[j]? = some s.distribution[j] := List.getElem?_eq_getElem hj
  have hsi := serverOf_eq s.distribution i _ hgi
  have hsj := serverOf_eq s.distribution j _ hgj
  simp only [getMovesPair, hgi, hgj]
  by_cases hne : s.distribution[i].serverId ≠ s.distribution[j].serverId
  · rw [if_pos hne]
    obtain ⟨b, hb⟩ := moveIsCorrect_swapOf_isSome s i j _ _ hgi hgj hne
    rw [hb]
    cases b with
    | true =>
      have : swapAccepted s (i, j) = true := by
        simp only [swapAccepted, swapOf, hsi, hsj, decide_eq_true_eq]
        exact ⟨hne, hb⟩
      simp [List.filter, this, swapOf, hsi, hsj]
    | false =>
      have : swapAccepted s (i, j) = false := by
        simp only [swapAccepted, swapOf, hsi, hsj, decide_eq_false_iff_not, not_and]
        intro _
        rw [hb]
        simp
      simp [List.filter, this]
  · rw [if_neg hne]
    have : swapAccepted s (i, j) = false := by
      simp only [swapAccepted, hsi, hsj, decide_eq_false_iff_not, not_and]
      intro h
      exact absurd h hne
    simp [List.filter, this]

/-- The inner loop of `getMoves` appends the accepted swaps of one row of pairs. -/
theorem getMoves_row (s : VectorSolution α) (i : Nat) (hi : i < s.distribution.length)
    (count start : Nat) (hbound : start + count ≤ s.distribution.length)
    (acc : List (List AtomMove)) :
    forLoopFrom start count (getMovesPair s i) (some acc)
      = some (acc ++ ((((List.range' start count).map (fun j => (i, j))).filter
          (swapAccepted s)).map (swapOf s.distribution))) := by
  induction count generalizing start acc with
  | zero => simp [forLoopFrom]
  | succ count ih =>
    rw [forLoopFrom_succ, getMovesPair_eq s i start acc hi (by omega),
      ih (start + 1) (by omega)]
    simp only [List.range'_succ, List.map_cons, List.filter_cons, List.filter_nil]
    split_ifs <;> simp

/-- The pair of a disk with itself is never accepted: its servers are equal. -/
theorem swapAccepted_self (s : VectorSolution α) (i : Nat) : swapAccepted s (i, i) = false := by
  simp [swapAccepted]

/-- The outer loop of `getMoves`, after `k` rows. -/
theorem getMoves_rows (s : VectorSolution α) (k : Nat) (hk : k ≤ s.distribution.length) :
    forLoop k (fun i => forLoopFrom i (s.distribution.length - i) (getMovesPair s i)) (some [])
      = some ((((List.range k).flatMap (fun i =>
          (List.range' (i + 1) (s.distribution.length - (i + 1))).map (fun j => (i, j)))).filter
            (swapAccepted s)).map (swapOf s.distribution)) := by
  induction k with
  | zero => simp [forLoop]
  | succ k ih =>
    have hlt : k < s.distribution.length := hk
    rw [forLoop_succ, ih (Nat.le_of_lt hlt), getMoves_row s k hlt _ _ (by omega)]
    have hsplit : s.distribution.length - k = (s.distribution.length - (k + 1)) + 1 := by omega
    rw [hsplit, List.range'_succ, List.map_cons, List.filter_cons, swapAccepted_self]
    simp only [Bool.false_eq_true, if_false, List.range_succ, List.flatMap_append, List.flatMap_singleton,
      List.filter_append, List.map_append]

/-- The method `getMoves` returns the specified enumeration. -/
theorem getMoves_spec (s : VectorSolution α) : getMoves s = some (swapNeighborhood s) :=
  getMoves_rows s s.distribution.length (Nat.le_refl _)

/-- The swap of a pair names the two disks, so different pairs give different moves. -/
theorem swapOf_injective (distribution : List Disk) (p q : Nat × Nat)
    (h : swapOf distribution p = swapOf distribution q) : p = q := by
  simp only [swapOf, List.cons.injEq, AtomMove.mk.injEq, and_true] at h
  exact Prod.ext h.1.2.2 h.2.2.2

/-- No pair is listed twice. -/
theorem orderedPairs_nodup (n : Nat) : (orderedPairs n).Nodup := by
  refine (orderedPairs_pairwise n).imp ?_
  intro p q h heq
  subst heq
  rcases h with h | ⟨-, h⟩ <;> exact absurd h (Nat.lt_irrefl _)

/-- No move is listed twice in the specified enumeration. -/
theorem swapNeighborhood_nodup (s : VectorSolution α) : (swapNeighborhood s).Nodup :=
  List.Nodup.map (fun p q h => swapOf_injective s.distribution p q h)
    ((orderedPairs_nodup s.distribution.length).filter _)

/-- The moves of the specified enumeration. -/
theorem mem_swapNeighborhood (s : VectorSolution α) (atomMoves : List AtomMove) :
    atomMoves ∈ swapNeighborhood s ↔
      ∃ i j, i < j ∧ j < s.distribution.length
        ∧ serverOf s.distribution i ≠ serverOf s.distribution j
        ∧ moveIsCorrect s (swapOf s.distribution (i, j)) = some true
        ∧ atomMoves = swapOf s.distribution (i, j) := by
  simp only [swapNeighborhood, List.mem_map, List.mem_filter, mem_orderedPairs, swapAccepted,
    decide_eq_true_eq, Prod.exists]
  constructor
  · rintro ⟨i, j, ⟨⟨h1, h2⟩, h3, h4⟩, rfl⟩
    exact ⟨i, j, h1, h2, h3, h4, rfl⟩
  · rintro ⟨i, j, h1, h2, h3, h4, rfl⟩
    exact ⟨i, j, ⟨⟨h1, h2⟩, h3, h4⟩, rfl⟩

/-- The loop of `moveIsCorrect` reads the distribution and the server colours only. -/
theorem moveIsCorrectLoop_congr (s s1 : VectorSolution α)
    (hd : s1.distribution = s.distribution) (hc : s1.serversColor = s.serversColor)
    (atomMoves : List AtomMove) :
    moveIsCorrectLoop s1 atomMoves = moveIsCorrectLoop s atomMoves := by
  induction atomMoves with
  | nil => rfl
  | cons a rest ih => simp only [moveIsCorrectLoop, hd, hc, ih]

/-- The method `moveIsCorrect` reads the distribution and the server colours only. -/
theorem moveIsCorrect_congr (s s1 : VectorSolution α)
    (hd : s1.distribution = s.distribution) (hc : s1.serversColor = s.serversColor)
    (atomMoves : List AtomMove) :
    moveIsCorrect s1 atomMoves = moveIsCorrect s atomMoves := by
  have hloop := moveIsCorrectLoop_congr s s1 hd hc
  match atomMoves with
  | [] => exact hloop _
  | [_] => exact hloop _
  | _ :: _ :: _ :: _ => exact hloop _
  | [a1, a2] => simp only [moveIsCorrect, hd, hloop]

/-- The specified enumeration reads the distribution and the server colours only. -/
theorem swapNeighborhood_congr (s s1 : VectorSolution α)
    (hd : s1.distribution = s.distribution) (hc : s1.serversColor = s.serversColor) :
    swapNeighborhood s1 = swapNeighborhood s := by
  have hacc : swapAccepted s1 = swapAccepted s := by
    funext p
    simp only [swapAccepted, hd, moveIsCorrect_congr s s1 hd hc]
  simp only [swapNeighborhood, hd, hacc]

/-- Claim C7 (swap neighbourhood enumeration). The method `getMoves` completes and returns
exactly the list, over the pairs `(i, j)` with `i < j < n` in lexicographic order, of the
moves `[(source = server(i), destination = server(j), disk i), (source = server(j),
destination = server(i), disk j)]` of the pairs whose servers differ and whose move
`moveIsCorrect` accepts. The list of pairs holds exactly the pairs with `i < j < n` in
strictly increasing lexicographic order; a move is returned exactly when it is the move of
such a pair with different servers that `moveIsCorrect` accepts; no move is returned twice;
and the result is the same for two states with the same distribution and server colours. -/
theorem swap_neighbourhood_enumeration (s : VectorSolution α) :
    getMoves s = some (swapNeighborhood s)
    ∧ (∀ p, p ∈ orderedPairs s.distribution.length ↔ p.1 < p.2 ∧ p.2 < s.distribution.length)
    ∧ (orderedPairs s.distribution.length).Pairwise
        (fun p q => p.1 < q.1 ∨ (p.1 = q.1 ∧ p.2 < q.2))
    ∧ (∀ atomMoves, atomMoves ∈ swapNeighborhood s ↔
        ∃ i j, i < j ∧ j < s.distribution.length
          ∧ serverOf s.distribution i ≠ serverOf s.distribution j
          ∧ moveIsCorrect s (swapOf s.distribution (i, j)) = some true
          ∧ atomMoves = swapOf s.distribution (i, j))
    ∧ (swapNeighborhood s).Nodup
    ∧ (∀ s1 : VectorSolution α, s1.distribution = s.distribution →
        s1.serversColor = s.serversColor → getMoves s1 = getMoves s) :=
  ⟨getMoves_spec s, mem_orderedPairs _, orderedPairs_pairwise _, mem_swapNeighborhood s,
    swapNeighborhood_nodup s,
    fun s1 hd hc => by rw [getMoves_spec, getMoves_spec, swapNeighborhood_congr s s1 hd hc]⟩

section Proofs4

variable [LinearOrderedCommRing α]

/-- One committed atomic move leaves the sum of a cell over all servers as it was. -/
theorem applyAtomMove_columnSum (data : TaskData α) (s s1 : VectorSolution α)
    (atomMove : AtomMove) (h : applyAtomMove data s atomMove = some s1) (t r : Nat) :
    ∑ server ∈ Finset.range data.numberOfServers, s1.matrixCapacity server t r
      = ∑ server ∈ Finset.range data.numberOfServers, s.matrixCapacity server t r := by
  obtain ⟨ha, -, hm, -⟩ := applyAtomMove_eq_some data s s1 atomMove h
  have hcell : ∀ server ∈ Finset.range data.numberOfServers, s1.matrixCapacity server t r
      = s.matrixCapacity server t r
        + ((if server = atomMove.destination then
              (if t < data.numberOfTimes ∧ r < data.numberOfResource
                then data.capacity atomMove.diskId r t else 0) else 0)
          + (if server = atomMove.source then
              (if t < data.numberOfTimes ∧ r < data.numberOfResource
                then - data.capacity atomMove.diskId r t else 0) else 0)) := by
    intro server _
    rw [hm, tryOnAtomMoveLoops_matrix data atomMove ha.1]
    by_cases htr : t < data.numberOfTimes ∧ r < data.numberOfResource
    · rw [if_pos htr, if_pos htr, if_pos htr]
      by_cases h1 : server = atomMove.destination
      · have h2 : ¬ server = atomMove.source := fun h2 => ha.1 (h2.symm.trans h1)
        rw [if_pos h1, if_pos h1, if_neg h2]; ring
      · by_cases h2 : server = atomMove.source
        · rw [if_neg h1, if_neg h1, if_pos h2, if_pos h2]; ring
        · rw [if_neg h1, if_neg h1, if_neg h2, if_neg h2]; ring
    · rw [if_neg htr, if_neg htr, if_neg htr]; simp
  rw [Finset.sum_congr rfl hcell, Finset.sum_add_distrib, Finset.sum_add_distrib,
    Finset.sum_ite_eq' (Finset.range data.numberOfServers) atomMove.destination,
    Finset.sum_ite_eq' (Finset.range data.numberOfServers) atomMove.source,
    if_pos (Finset.mem_range.mpr ha.2.2.1), if_pos (Finset.mem_range.mpr ha.2.2.2)]
  split_ifs <;> simp

/-- The current server of a disk of the distribution. -/
theorem diskServer_eq_serverOf (distribution : List Disk) (i : Nat)
    (hi : i < distribution.length) :
    diskServer distribution i = some (serverOf distribution i) := by
  simp [serverOf, diskServer, List.getElem?_eq_getElem hi]

end Proofs4

/-- The server of a disk is in range when every disk is on a server in range. -/
theorem serverOf_lt (data : TaskData α) (distribution : List Disk)
    (hrange : ∀ d ∈ distribution, d.serverId < data.numberOfServers) (i : Nat)
    (hi : i < distribution.length) : serverOf distribution i < data.numberOfServers := by
  rw [serverOf_eq distribution i _ (List.getElem?_eq_getElem hi)]
  exact hrange _ (List.getElem_mem hi)

section Proofs4b

variable [LinearOrderedCommRing α]

/-- What committing the swap of the disks `i` and `j` does. -/
theorem applyMove_swapOf (data : TaskData α) (s : VectorSolution α)
    (hrange : ∀ d ∈ s.distribution, d.serverId < data.numberOfServers) (i j : Nat)
    (hij : i ≠ j) (hi : i < s.distribution.length) (hj : j < s.distribution.length)
    (hne : serverOf s.distribution i ≠ serverOf s.distribution j) :
    ∃ s1, applyMove data s (swapOf s.distribution (i, j)) = some s1
      ∧ (∀ time resource,
          ∑ server ∈ Finset.range data.numberOfServers, s1.matrixCapacity server time resource
            = ∑ server ∈ Finset.range data.numberOfServers,
                s.matrixCapacity server time resource)
      ∧ diskServer s1.distribution i = diskServer s.distribution j
      ∧ diskServer s1.distribution j = diskServer s.distribution i
      ∧ ∀ k, k ≠ i → k ≠ j → diskServer s1.distribution k = diskServer s.distribution k := by
  have hsi := diskServer_eq_serverOf s.distribution i hi
  have hsj := diskServer_eq_serverOf s.distribution j hj
  have hli := serverOf_lt data s.distribution hrange i hi
  have hlj := serverOf_lt data s.distribution hrange j hj
  obtain ⟨s1, h1⟩ := applyAtomMove_isSome data s
    (AtomMove.mk (serverOf s.distribution j) (serverOf s.distribution i) i) ⟨hne, hsi, hli, hlj⟩
  have hd1 := diskServer_of_applyAtomMove data s s1 _ h1
  obtain ⟨s2, h2⟩ := applyAtomMove_isSome data s1
    (AtomMove.mk (serverOf s.distribution i) (serverOf s.distribution j) j)
    ⟨fun h => hne h.symm, by rw [hd1, if_neg (fun h => hij h.symm)]; exact hsj, hlj, hli⟩
  have hd2 := diskServer_of_applyAtomMove data s1 s2 _ h2
  refine ⟨s2, ?_, ?_, ?_, ?_, ?_⟩
  · simp only [swapOf, applyMove, h1, h2]
  · intro t r
    rw [applyAtomMove_columnSum data s1 s2 _ h2, applyAtomMove_columnSum data s s1 _ h1]
  · rw [hd2, if_neg hij, hd1, if_pos rfl, hsj]
  · rw [hd2, if_pos rfl, hsi]
  · intro k hki hkj
    rw [hd2, if_neg hkj, hd1, if_neg hki]

/-- Claim C8 (swap conservation). In a state whose disks are on servers in range, every
move `getMoves` returns is the swap of two disks `i < j`; `applyMove` commits it; afterwards
the sum over all servers of `matrixCapacity[server, time, resource]` is, for every time and
resource, what it was before; the two disks have exchanged servers and every other disk is on
the server it was on. -/
theorem swap_conservation (data : TaskData α) (s : VectorSolution α)
    (hrange : ∀ d ∈ s.distribution, d.serverId < data.numberOfServers)
    (moves : List (List AtomMove)) (hmoves : getMoves s = some moves)
    (atomMoves : List AtomMove) (hmem : atomMoves ∈ moves) :
    ∃ i j s1, i < j ∧ j < s.distribution.length
      ∧ atomMoves = swapOf s.distribution (i, j)
      ∧ applyMove data s atomMoves = some s1
      ∧ (∀ time resource,
          ∑ server ∈ Finset.range data.numberOfServers, s1.matrixCapacity server time resource
            = ∑ server ∈ Finset.range data.numberOfServers,
                s.matrixCapacity server time resource)
      ∧ diskServer s1.distribution i = diskServer s.distribution j
      ∧ diskServer s1.distribution j = diskServer s.distribution i
      ∧ ∀ k, k ≠ i → k ≠ j → diskServer s1.distribution k = diskServer s.distribution k := by
  rw [getMoves_spec s, Option.some.injEq] at hmoves
  subst hmoves
  simp only [swapNeighborhood, List.mem_map, List.mem_filter] at hmem
  obtain ⟨⟨i, j⟩, ⟨hp, hacc⟩, rfl⟩ := hmem
  have hp' := (mem_orderedPairs s.distribution.length (i, j)).mp hp
  simp only [swapAccepted, decide_eq_true_eq] at hacc
  obtain ⟨s1, h1, h2, h3, h4, h5⟩ := applyMove_swapOf data s hrange i j (by omega) (by omega)
    hp'.2 hacc.1
  exact ⟨i, j, s1, hp'.1, hp'.2, rfl, h1, h2, h3, h4, h5⟩

end Proofs4b

/-- The aggregate colour does not depend on the order of the disks. -/
theorem aggregateColor_perm {l1 l2 : List Disk} (h : l1.Perm l2) (server : Nat) :
    aggregateColor l1 server = aggregateColor l2 server := by
  simp only [aggregateColor, h.mem_iff]

/-- The aggregate colour after one more disk, by the colour of that disk. -/
theorem aggregateColor_append_singleton (l : List Disk) (d : Disk) (server : Nat) :
    aggregateColor (l ++ [d]) server =
      if d.serverId = server then
        (match d.color with
         | Color.RED => Color.RED
         | Color.YELLOW =>
           if aggregateColor l server ≠ Color.RED then Color.YELLOW else aggregateColor l server
         | Color.GREEN =>
           if aggregateColor l server = Color.NONE then Color.GREEN else aggregateColor l server
         | Color.NONE => aggregateColor l server)
      else aggregateColor l server := by
  obtain ⟨sv, c⟩ := d
  by_cases hs : sv = server
  · subst hs
    cases c <;>
    simp only [aggregateColor, List.mem_append, List.mem_singleton, or_and_right, exists_or,
      exists_eq_left, true_and, if_true, reduceCtorEq, and_false, or_false, or_true, ne_eq] <;>
    split_ifs <;> simp_all
  · simp only [aggregateColor, List.mem_append, List.mem_singleton, or_and_right, exists_or,
      exists_eq_left, hs, false_and, or_false, if_false]

/-- After `n` iterations `paintServers` holds the aggregate colours of the first `n` disks. -/
theorem paintServers_loop (distribution : List Disk)
    (hcol : ∀ d ∈ distribution, d.color ≠ Color.NONE) (n : Nat) (hn : n ≤ distribution.length) :
    forLoop n (paintServersDisk distribution) (some (fun _ => Color.NONE))
      = some (aggregateColor (distribution.take n)) := by
  induction n with
  | zero =>
    simp only [forLoop, List.take_zero]
    congr 1
  | succ n ih =>
    have hlt : n < distribution.length := hn
    rw [forLoop_succ, ih (Nat.le_of_lt hlt)]
    have hget : distribution[n]? = some distribution[n] := List.getElem?_eq_getElem hlt
    have htake : distribution.take (n + 1) = distribution.take n ++ [distribution[n]] := by
      rw [List.take_succ, hget]; rfl
    have hc := hcol distribution[n] (List.getElem_mem hlt)
    rw [htake]
    simp only [paintServersDisk, hget]
    generalize distribution[n] = d at hc ⊢
    generalize distribution.take n = l
    obtain ⟨sv, c⟩ := d
    cases c with
    | NONE => exact absurd rfl hc
    | RED =>
      show some _ = some _
      congr 1; funext server
      rw [aggregateColor_append_singleton]
      by_cases hs : server = sv
      · subst hs; simp [setColor]
      · simp [setColor, hs, Ne.symm hs]
    | YELLOW =>
      show (if aggregateColor l sv ≠ Color.RED then _ else _) = some _
      by_cases h : aggregateColor l sv = Color.RED
      · rw [if_neg (not_not.mpr h)]
        congr 1; funext server
        rw [aggregateColor_append_singleton]
        by_cases hs : server = sv
        · subst hs; simp [h]
        · simp [Ne.symm hs]
      · rw [if_pos h]
        congr 1; funext server
        rw [aggregateColor_append_singleton]
        by_cases hs : server = sv
        · subst hs; simp [setColor, h]
        · simp [setColor, hs, Ne.symm hs]
    | GREEN =>
      show (if aggregateColor l sv = Color.NONE then _ else _) = some _
      by_cases h : aggregateColor l sv = Color.NONE
      · rw [if_pos h]
        congr 1; funext server
        rw [aggregateColor_append_singleton]
        by_cases hs : server = sv
        · subst hs; simp [setColor, h]
        · simp [setColor, hs, Ne.symm hs]
      · rw [if_neg h]
        congr 1; funext server
        rw [aggregateColor_append_singleton]
        by_cases hs : server = sv
        · subst hs; simp [h]
        · simp [Ne.symm hs]

/-- The method `paintServers` completes and computes the aggregate colours. -/
theorem paintServers_spec (data : TaskData α) (distribution : List Disk)
    (hlen : data.numberOfDisks = distribution.length)
    (hcol : ∀ d ∈ distribution, d.color ≠ Color.NONE) :
    paintServers data distribution (fun _ => Color.NONE) = some (aggregateColor distribution) := by
  unfold paintServers
  rw [hlen, paintServers_loop distribution hcol _ (Nat.le_refl _), List.take_length]

section Proofs5

variable [LinearOrderedCommRing α]

/-- The constructor completes when no disk has colour `NONE` and the disk count is the size of
the initial distribution. -/
theorem construct_isSome (data : TaskData α) (coefficient : α)
    (hdisks : data.numberOfDisks = data.initialDistribution.length)
    (hcolors : ∀ d ∈ data.initialDistribution, d.color ≠ Color.NONE) :
    ∃ s, VectorSolution.construct data coefficient = some s := by
  unfold VectorSolution.construct
  rw [paintServers_spec data data.initialDistribution hdisks hcolors]
  exact ⟨_, rfl⟩

/-- Claim C9 (constructed state is fully derived). For an instance whose disk count is the
size of its initial distribution and whose disks are `GREEN`, `YELLOW` or `RED`, the
constructor returns a state whose distribution is the initial one, whose cells in range are
the demand assigned to the server minus its capacity threshold, whose objective value is the
sum of the strictly positive cells, whose overheads are 0, whose history is empty, whose
ledger is the overhead thresholds of the instance, and whose `getObjectiveValue()` is the
objective value. -/
theorem constructed_state_derived (data : TaskData α) (coefficient : α)
    (hdisks : data.numberOfDisks = data.initialDistribution.length)
    (hcolors : ∀ d ∈ data.initialDistribution, d.color ≠ Color.NONE) :
    ∃ s, VectorSolution.construct data coefficient = some s
      ∧ s.distribution = data.initialDistribution
      ∧ (∀ server time resource, server < data.numberOfServers → time < data.numberOfTimes →
          resource < data.numberOfResource →
          s.matrixCapacity server time resource
            = assignedDemand data data.initialDistribution server time resource
              - data.thresholdCapacity server resource)
      ∧ s.objectiveValue = sumOfPositiveCells data s.matrixCapacity
      ∧ s.overheads = 0
      ∧ s.moveHistory = []
      ∧ s.thresholdOverheadsServer = data.thresholdOverheads
      ∧ getObjectiveValue s = s.objectiveValue := by
  obtain ⟨s, hs⟩ := construct_isSome data coefficient hdisks hcolors
  obtain ⟨hdist, -, -, hthr, hov, hhist, -⟩ := construct_eq_some data coefficient s hs
  have hcons := construct_consistent data coefficient s hs
  refine ⟨s, hs, hdist, ?_, hcons.2, hov, hhist, hthr, ?_⟩
  · intro server time resource h1 h2 h3
    rw [← hdist]
    exact hcons.1 server time resource h1 h2 h3
  · simp only [getObjectiveValue, hov, mul_zero, add_zero]

/-- Claim C9 at `exampleData`. -/
theorem constructed_state_derived_witness :
    exampleData.numberOfDisks = exampleData.initialDistribution.length
    ∧ (∀ d ∈ exampleData.initialDistribution, d.color ≠ Color.NONE)
    ∧ ∃ s, VectorSolution.construct exampleData 1 = some s ∧ s.overheads = 0
        ∧ getObjectiveValue s = s.objectiveValue :=
  ⟨by decide, by decide,
    (constructed_state_derived exampleData 1 (by decide) (by decide)).imp
      (fun _ h => ⟨h.1, h.2.2.2.2.1, h.2.2.2.2.2.2.2⟩)⟩

/-- Claim C10 (server aggregate colour at construction). For an instance whose disk count
is the size of its initial distribution and whose disks are `GREEN`, `YELLOW` or `RED`, the
constructor returns a state in which `getServerColor(s)` is, for every server `s`, `RED` if a
disk on `s` is `RED`, else `YELLOW` if one is `YELLOW`, else `GREEN` if one is `GREEN`, else
`NONE`; and `paintServers` computes the same colours from the disks enumerated in any other
order. -/
theorem constructed_server_colour (data : TaskData α) (coefficient : α)
    (hdisks : data.numberOfDisks = data.initialDistribution.length)
    (hcolors : ∀ d ∈ data.initialDistribution, d.color ≠ Color.NONE) :
    ∃ s, VectorSolution.construct data coefficient = some s
      ∧ (∀ server, server < data.numberOfServers →
          getServerColor data s server
            = some (aggregateColor data.initialDistribution server))
      ∧ ∀ distribution, distribution.Perm data.initialDistribution →
          paintServers data distribution (fun _ => Color.NONE) = some s.serversColor := by
  obtain ⟨s, hs⟩ := construct_isSome data coefficient hdisks hcolors
  obtain ⟨-, -, -, -, -, -, -, -, hpaint⟩ := construct_eq_some data coefficient s hs
  rw [paintServers_spec data data.initialDistribution hdisks hcolors, Option.some.injEq]
    at hpaint
  refine ⟨s, hs, ?_, ?_⟩
  · intro server hserver
    simp only [getServerColor, if_pos hserver, ← hpaint]
  · intro distribution hperm
    rw [paintServers_spec data distribution (hdisks.trans hperm.length_eq.symm)
      (fun d hd => hcolors d (hperm.mem_iff.mp hd)), ← hpaint]
    congr 1
    funext server
    exact aggregateColor_perm hperm server

/-- Claim C5 (copy has deep value semantics) fails on the code. The copy constructor leaves
`appliedMoves` empty. For the state reached by committing `exampleMove`, whose applied-move
set holds the inverse, the copy has the same `getObjectiveValue()`, but `tryOnMove` of the
inverse move returns 0 on the state and 4 on its copy, and so does the Total Cost after
`applyMove` of the inverse move. -/
theorem copy_forgets_appliedMoves :
    (∀ s : VectorSolution ℤ, (VectorSolution.copy s).appliedMoves = ∅)
    ∧ exampleMoved.appliedMoves = {exampleMove.inverse}
    ∧ getObjectiveValue (VectorSolution.copy exampleMoved) = getObjectiveValue exampleMoved
    ∧ tryOnMove exampleData exampleMoved [exampleMove.inverse] = some 0
    ∧ tryOnMove exampleData (VectorSolution.copy exampleMoved) [exampleMove.inverse] = some 4
    ∧ (applyMove exampleData exampleMoved [exampleMove.inverse]).map getObjectiveValue = some 0
    ∧ (applyMove exampleData (VectorSolution.copy exampleMoved) [exampleMove.inverse]).map
        getObjectiveValue = some 4 :=
  ⟨fun _ => rfl, by decide, by decide, by decide, by decide, by decide, by decide⟩

/-- Claim C6 (assignment has deep value semantics) fails on the code. After `a = b` the
applied-move set of `a` is the one `a` had before. For `a` freshly constructed and `b` the
state reached by committing `exampleMove`, `tryOnMove` of the inverse move returns 0 on `b`
and 4 on `a` after `a = b`. -/
theorem assign_keeps_appliedMoves :
    (∀ s rhs : VectorSolution ℤ, (VectorSolution.assign s rhs).appliedMoves = s.appliedMoves)
    ∧ exampleInitial.appliedMoves = ∅
    ∧ exampleMoved.appliedMoves = {exampleMove.inverse}
    ∧ tryOnMove exampleData exampleMoved [exampleMove.inverse] = some 0
    ∧ tryOnMove exampleData (VectorSolution.assign exampleInitial exampleMoved)
        [exampleMove.inverse] = some 4 :=
  ⟨fun _ _ => rfl, by decide, by decide, by decide, by decide⟩

end Proofs5

/-- A sequence of one `applyMove` call is that call. -/
theorem applyMoves_singleton [LinearOrderedCommRing α] (data : TaskData α)
    (s : VectorSolution α) (atomMoves : List AtomMove) :
    applyMoves data s [atomMoves] = applyMove data s atomMoves := by
  simp only [applyMoves]
  cases applyMove data s atomMoves <;> rfl

/-- The demands of `exampleData` are non-negative. -/
theorem exampleData_capacity_nonneg (disk resource time : Nat) :
    0 ≤ exampleData.capacity disk resource time := by
  show (0 : ℤ) ≤ if disk = 0 then 6 else 4
  split_ifs <;> decide

/-- The costs of `exampleData` are non-negative. -/
theorem exampleData_diskCosts_nonneg (kind : CostKind) (disk server resource : Nat) :
    0 ≤ exampleData.diskCosts kind disk server resource := by
  show (0 : ℤ) ≤ 1
  decide

/-- The constructor returns `exampleInitial`. -/
theorem exampleInitial_eq : VectorSolution.construct exampleData 1 = some exampleInitial :=
  (Option.some_get _).symm

/-- Committing `exampleMove` to `exampleInitial` gives `exampleMoved`. -/
theorem exampleMoved_eq :
    applyMove exampleData exampleInitial [exampleMove] = some exampleMoved :=
  (Option.some_get _).symm

/-- Claim C1 at `exampleData`, for the sequence of the one move `exampleMove`. -/
theorem consistency_invariant_witness :
    (∀ disk resource time, 0 ≤ exampleData.capacity disk resource time)
    ∧ VectorSolution.construct exampleData 1 = some exampleInitial
    ∧ applyMoves exampleData exampleInitial [[exampleMove]] = some exampleMoved
    ∧ exampleMoved.objectiveValue = sumOfPositiveCells exampleData exampleMoved.matrixCapacity :=
  ⟨exampleData_capacity_nonneg, exampleInitial_eq,
    (applyMoves_singleton _ _ _).trans exampleMoved_eq,
    (consistency_invariant exampleData exampleData_capacity_nonneg 1 [[exampleMove]]
      exampleInitial exampleMoved exampleInitial_eq
      ((applyMoves_singleton _ _ _).trans exampleMoved_eq)).2.1⟩

/-- Claim C2 at `exampleInitial`, for the swap of the two disks. -/
theorem trial_commit_equivalence_witness :
    (exampleSwap.map AtomMove.diskId).Nodup
    ∧ (∀ a ∈ exampleSwap, atomMoveAsserts exampleData exampleInitial.distribution a)
    ∧ ∃ s1, applyMove exampleData exampleInitial exampleSwap = some s1
        ∧ tryOnMove exampleData exampleInitial exampleSwap = some (getObjectiveValue s1) :=
  ⟨by decide, by decide,
    trial_commit_equivalence exampleData exampleInitial exampleSwap (by decide) (by decide)⟩

/-- Claim C3 at `exampleInitial`, for `exampleMove`. -/
theorem overhead_cancellation_witness :
    (∀ kind disk server resource, 0 ≤ exampleData.diskCosts kind disk server resource)
    ∧ Reachable exampleData exampleInitial
    ∧ exampleMove.source ≠ exampleMove.destination
    ∧ diskServer exampleInitial.distribution exampleMove.diskId = some exampleMove.source
    ∧ (exampleMove.source < exampleData.numberOfServers
        ∧ exampleMove.destination < exampleData.numberOfServers)
    ∧ ∃ s1 s2, applyMove exampleData exampleInitial [exampleMove] = some s1
        ∧ applyMove exampleData s1 [exampleMove.inverse] = some s2
        ∧ s2.overheads = exampleInitial.overheads
        ∧ (∀ server resource,
            s2.thresholdOverheadsServer server resource
              = exampleInitial.thresholdOverheadsServer server resource)
        ∧ exampleMove.inverse ∉ s2.appliedMoves :=
  ⟨exampleData_diskCosts_nonneg, Reachable.construct 1 exampleInitial exampleInitial_eq,
    by decide, by decide, by decide,
    overhead_cancellation exampleData exampleData_diskCosts_nonneg exampleInitial
      (Reachable.construct 1 exampleInitial exampleInitial_eq) exampleMove
      (by decide) (by decide) (by decide)⟩

/-- Claim C4 at `exampleInitial`, for the swap of the two disks. -/
theorem validation_characterisation_witness :
    (∀ a ∈ exampleSwap, a.source ≠ a.destination
      ∧ diskServer exampleInitial.distribution a.diskId = some a.source)
    ∧ ∃ b, moveIsCorrect exampleInitial exampleSwap = some b
      ∧ (b = true ↔ SameSeveritySwap exampleInitial.distribution exampleSwap
          ∨ NoForbiddenRelocation exampleInitial exampleSwap) :=
  ⟨by decide,
    (validation_characterisation exampleInitial exampleSwap (by decide)).imp
      (fun _ h => ⟨h.1, h.2.1⟩)⟩

/-- Claim C7 at `exampleInitial`: the one move returned is the swap of the two disks. -/
theorem swap_neighbourhood_enumeration_witness :
    getMoves exampleInitial = some [exampleSwap] :=
  (swap_neighbourhood_enumeration exampleInitial).1.trans (by decide)

/-- Claim C8 at `exampleInitial`, for the swap of the two disks. -/
theorem swap_conservation_witness :
    (∀ d ∈ exampleInitial.distribution, d.serverId < exampleData.numberOfServers)
    ∧ getMoves exampleInitial = some [exampleSwap]
    ∧ exampleSwap ∈ [exampleSwap]
    ∧ ∃ i j s1, i < j ∧ j < exampleInitial.distribution.length
      ∧ exampleSwap = swapOf exampleInitial.distribution (i, j)
      ∧ applyMove exampleData exampleInitial exampleSwap = some s1
      ∧ (∀ time resource,
          ∑ server ∈ Finset.range exampleData.numberOfServers,
              s1.matrixCapacity server time resource
            = ∑ server ∈ Finset.range exampleData.numberOfServers,
                exampleInitial.matrixCapacity server time resource)
      ∧ diskServer s1.distribution i = diskServer exampleInitial.distribution j
      ∧ diskServer s1.distribution j = diskServer exampleInitial.distribution i
      ∧ ∀ k, k ≠ i → k ≠ j →
          diskServer s1.distribution k = diskServer exampleInitial.distribution k :=
  ⟨by decide, by decide, by decide,
    swap_conservation exampleData exampleInitial (by decide) [exampleSwap] (by decide)
      exampleSwap (by decide)⟩

/-- Claim C10 at `exampleData`. -/
theorem constructed_server_colour_witness :
    exampleData.numberOfDisks = exampleData.initialDistribution.length
    ∧ (∀ d ∈ exampleData.initialDistribution, d.color ≠ Color.NONE)
    ∧ ∃ s, VectorSolution.construct exampleData 1 = some s
        ∧ ∀ server, server < exampleData.numberOfServers →
            getServerColor exampleData s server
              = some (aggregateColor exampleData.initialDistribution server) :=
  ⟨by decide, by decide,
    (constructed_server_colour exampleData 1 (by decide) (by decide)).imp
      (fun _ h => ⟨h.1, h.2.1⟩)⟩

/-! ## History, frame, scenarios, violations and overheads -/

section MoreProofs1

variable [LinearOrderedCommRing α]

/-- The method `applyMove` appends its atomic moves to the history, in their order. -/
theorem applyMove_moveHistory (data : TaskData α) (atomMoves : List AtomMove)
    (s s1 : VectorSolution α) (h : applyMove data s atomMoves = some s1) :
    s1.moveHistory = s.moveHistory ++ atomMoves := by
  induction atomMoves generalizing s with
  | nil =>
    simp only [applyMove, Option.some.injEq] at h
    rw [← h, List.append_nil]
  | cons a rest ih =>
    unfold applyMove at h
    cases ha : applyAtomMove data s a with
    | none => rw [ha] at h; cases h
    | some s2 =>
      rw [ha] at h
      obtain ⟨-, -, -, -, -, -, -, hhist, -⟩ := applyAtomMove_eq_some data s s2 a ha
      rw [ih s2 h, hhist, List.append_assoc, List.singleton_append]

/-- A sequence of `applyMove` calls appends the atomic moves of its moves, in commit order. -/
theorem applyMoves_moveHistory (data : TaskData α) (moves : List (List AtomMove))
    (s s1 : VectorSolution α) (h : applyMoves data s moves = some s1) :
    s1.moveHistory = s.moveHistory ++ moves.flatten := by
  induction moves generalizing s with
  | nil =>
    simp only [applyMoves, Option.some.injEq] at h
    rw [← h, List.flatten_nil, List.append_nil]
  | cons M rest ih =>
    unfold applyMoves at h
    cases hM : applyMove data s M with
    | none => rw [hM] at h; cases h
    | some s2 =>
      rw [hM] at h
      rw [ih s2 h, applyMove_moveHistory data M s s2 hM, List.flatten_cons, List.append_assoc]

/-- Claim C13 (move history is append-only and ordered). When `applyMove` of a move completes,
`getMoveHistory()` afterwards is `getMoveHistory()` before followed by the atomic moves of
the move in their order. After any further sequence of commits the history is the earlier
history followed by the atomic moves of all committed moves in commit order, the earlier
history is a prefix of it, and every earlier entry is at its place; from a constructed state
the history is the concatenation of all committed moves. -/
theorem move_history_append_only (data : TaskData α) (s s1 : VectorSolution α)
    (atomMoves : List AtomMove) (h : applyMove data s atomMoves = some s1) :
    getMoveHistory s1 = getMoveHistory s ++ atomMoves
    ∧ (∀ moves s2, applyMoves data s1 moves = some s2 →
        getMoveHistory s2 = getMoveHistory s ++ atomMoves ++ moves.flatten
        ∧ getMoveHistory s <+: getMoveHistory s2
        ∧ ∀ i, i < (getMoveHistory s).length →
            (getMoveHistory s2)[i]? = (getMoveHistory s)[i]?)
    ∧ (∀ coefficient s0 moves, VectorSolution.construct data coefficient = some s0 →
        applyMoves data s0 moves = some s → getMoveHistory s = moves.flatten) := by
  have h1 := applyMove_moveHistory data atomMoves s s1 h
  refine ⟨h1, ?_, ?_⟩
  · intro moves s2 h2
    have h3 := applyMoves_moveHistory data moves s1 s2 h2
    have h4 : getMoveHistory s2 = getMoveHistory s ++ (atomMoves ++ moves.flatten) := by
      simp only [getMoveHistory, h3, h1, List.append_assoc]
    refine ⟨by rw [h4, List.append_assoc], ⟨_, h4.symm⟩, ?_⟩
    intro i hi
    rw [h4, List.getElem?_append_left hi]
  · intro coefficient s0 moves hc hm
    obtain ⟨-, -, -, -, -, hhist, -⟩ := construct_eq_some data coefficient s0 hc
    simp only [getMoveHistory, applyMoves_moveHistory data moves s0 s hm, hhist, List.nil_append]

/-- Relocating a disk changes no colour. -/
theorem diskColor_set (distribution : List Disk) (k : Nat) (disk : Disk) (dst : Nat)
    (hk : distribution[k]? = some disk) (j : Nat) :
    diskColor (distribution.set k (Disk.mk dst disk.color)) j = diskColor distribution j := by
  unfold diskColor
  rw [List.getElem?_set]
  by_cases h : k = j
  · subst h
    have hlt : k < distribution.length := (List.getElem?_eq_some_iff.mp hk).1
    simp [hlt, hk]
  · simp [h]

/-- What one committed atomic move leaves alone. -/
theorem applyAtomMove_frame (data : TaskData α) (s s1 : VectorSolution α) (a : AtomMove)
    (h : applyAtomMove data s a = some s1) :
    (∀ k, diskColor s1.distribution k = diskColor s.distribution k)
    ∧ s1.distribution.length = s.distribution.length
    ∧ s1.serversColor = s.serversColor
    ∧ s1.overheadsCoefficient = s.overheadsCoefficient := by
  obtain ⟨-, ⟨disk, hd, -, hdist⟩, -, -, -, -, -, -, hcoef, hcol⟩ :=
    applyAtomMove_eq_some data s s1 a h
  refine ⟨fun k => ?_, ?_, hcol, hcoef⟩
  · rw [hdist, diskColor_set _ _ _ _ hd]
  · rw [hdist, List.length_set]

/-- What `applyMove` leaves alone, and where it leaves the disks. -/
theorem applyMove_frame (data : TaskData α) (atomMoves : List AtomMove)
    (s s1 : VectorSolution α) (h : applyMove data s atomMoves = some s1) :
    (∀ k, diskColor s1.distribution k = diskColor s.distribution k)
    ∧ s1.distribution.length = s.distribution.length
    ∧ s1.serversColor = s.serversColor
    ∧ s1.overheadsCoefficient = s.overheadsCoefficient
    ∧ (∀ k, (∀ a ∈ atomMoves, a.diskId ≠ k) →
        diskServer s1.distribution k = diskServer s.distribution k)
    ∧ (∀ k d, lastDestination atomMoves k = some d →
        diskServer s1.distribution k = some d) := by
  induction atomMoves generalizing s with
  | nil =>
    simp only [applyMove, Option.some.injEq] at h
    subst h
    exact ⟨fun _ => rfl, rfl, rfl, rfl, fun _ _ => rfl, fun k d hd => by simp [lastDestination] at hd⟩
  | cons a rest ih =>
    unfold applyMove at h
    cases ha : applyAtomMove data s a with
    | none => rw [ha] at h; cases h
    | some s2 =>
      rw [ha] at h
      obtain ⟨f1, f2, f3, f4⟩ := applyAtomMove_frame data s s2 a ha
      obtain ⟨g1, g2, g3, g4, g5, g6⟩ := ih s2 h
      have hsrv := diskServer_of_applyAtomMove data s s2 a ha
      refine ⟨fun k => (g1 k).trans (f1 k), g2.trans f2, g3.trans f3, g4.trans f4, ?_, ?_⟩
      · intro k hk
        rw [g5 k (fun b hb => hk b (List.mem_cons_of_mem a hb)), hsrv,
          if_neg (fun hka => hk a (List.mem_cons_self a rest) hka.symm)]
      · intro k d hd
        simp only [lastDestination, List.reverse_cons, List.find?_append, Option.map_eq_some']
          at hd
        obtain ⟨b, hb, rfl⟩ := hd
        cases hrest : rest.reverse.find? (fun a => decide (a.diskId = k)) with
        | some c =>
          rw [hrest] at hb
          simp only [Option.or, Option.some.injEq] at hb
          subst hb
          exact g6 k c.destination (by simp [lastDestination, hrest])
        | none =>
          rw [hrest] at hb
          simp only [Option.or, List.find?_cons, List.find?_nil] at hb
          by_cases hak : a.diskId = k
          · simp only [hak, decide_True, Option.some.injEq] at hb
            subst hb
            have hno : ∀ c ∈ rest, c.diskId ≠ k := by
              intro c hc hck
              have := List.find?_eq_none.mp hrest c (List.mem_reverse.mpr hc)
              simp [hck] at this
            rw [g5 k hno, hsrv, if_pos hak.symm]
          · simp [hak] at hb

/-- The sum of the positive cells of a matrix of two servers, one time and one resource. -/
theorem sumOfPositiveCells_two (data : TaskData α) (m : ThreeDimensionalMatrix α)
    (hS : data.numberOfServers = 2) (hT : data.numberOfTimes = 1)
    (hR : data.numberOfResource = 1) :
    sumOfPositiveCells data m = positivePart (m 0 0 0) + positivePart (m 1 0 0) := by
  simp only [sumOfPositiveCells, hS, hT, hR, Finset.sum_range_succ, Finset.sum_range_zero,
    zero_add]

/-- Claim C11 (concrete overrun scenario). In the overrun scenario, with overhead coefficient
0 and whatever the colours of the two disks (other than `NONE`), the overhead thresholds and
the costs: the constructed objective value is 2, with cells `+2` and `-6`; committing the
atomic move (source 0, destination 1, disk 0) completes and makes the cells `-10` and `+6`
and the objective value 6; the Total Cost goes from 2 to 6, a net increase of 4. -/
theorem overrun_scenario (colorA colorB : Color) (hA : colorA ≠ Color.NONE)
    (hB : colorB ≠ Color.NONE) (thresholdOverheads : Nat → Nat → α)
    (diskCosts : CostKind → Nat → Nat → Nat → α) :
    ∃ s0 s1,
      VectorSolution.construct (overrunScenario colorA colorB thresholdOverheads diskCosts) 0
        = some s0
      ∧ s0.objectiveValue = 2 ∧ s0.matrixCapacity 0 0 0 = 2 ∧ s0.matrixCapacity 1 0 0 = -6
      ∧ getObjectiveValue s0 = 2
      ∧ applyMove (overrunScenario colorA colorB thresholdOverheads diskCosts) s0
          [AtomMove.mk 1 0 0] = some s1
      ∧ s1.matrixCapacity 0 0 0 = -10 ∧ s1.matrixCapacity 1 0 0 = 6
      ∧ s1.objectiveValue = 6
      ∧ getObjectiveValue s1 = 6
      ∧ getObjectiveValue s1 - getObjectiveValue s0 = 4 := by
  set data := overrunScenario colorA colorB thresholdOverheads diskCosts with hdata
  have hcolors : ∀ d ∈ data.initialDistribution, d.color ≠ Color.NONE := by
    intro d hd
    simp only [hdata, overrunScenario, List.mem_cons, List.mem_singleton, List.not_mem_nil,
      or_false] at hd
    rcases hd with rfl | rfl
    · exact hA
    · exact hB
  have hdemand : ∀ disk resource time, 0 ≤ data.capacity disk resource time := by
    intro disk resource time
    show (0 : α) ≤ if disk = 0 then 12 else 4
    split_ifs <;> norm_num
  obtain ⟨s0, hs0⟩ := construct_isSome data 0 rfl hcolors
  obtain ⟨hdist, -, -, -, hov0, -, hcoef0, -⟩ := construct_eq_some data 0 s0 hs0
  have hcons0 := construct_consistent data 0 s0 hs0
  have hc00 : s0.matrixCapacity 0 0 0 = 2 := by
    rw [hcons0.1 0 0 0 (by show 0 < 2; decide) (by show 0 < 1; decide)
      (by show 0 < 1; decide), hdist]
    simp [assignedDemand, hdata, overrunScenario, diskServer, Finset.sum_range_succ]
    norm_num
  have hc10 : s0.matrixCapacity 1 0 0 = -6 := by
    rw [hcons0.1 1 0 0 (by show 1 < 2; decide) (by show 0 < 1; decide)
      (by show 0 < 1; decide), hdist]
    simp [assignedDemand, hdata, overrunScenario, diskServer, Finset.sum_range_succ]
    norm_num
  have hobj0 : s0.objectiveValue = 2 := by
    rw [hcons0.2, sumOfPositiveCells_two data _ rfl rfl rfl, hc00, hc10]
    norm_num [positivePart]
  have hasserts : atomMoveAsserts data s0.distribution (AtomMove.mk 1 0 0) := by
    rw [hdist]
    exact ⟨by decide, by simp [hdata, overrunScenario, diskServer], by show 0 < 2; decide,
      by show 1 < 2; decide⟩
  obtain ⟨s1, hs1⟩ := applyAtomMove_isSome data s0 (AtomMove.mk 1 0 0) hasserts
  obtain ⟨-, -, hm1, -, -, -, hov1, -, hcoef1, -⟩ :=
    applyAtomMove_eq_some data s0 s1 (AtomMove.mk 1 0 0) hs1
  have hcons1 := applyAtomMove_consistent data hdemand s0 s1 _ hs1 hcons0
  have hd00 : s1.matrixCapacity 0 0 0 = -10 := by
    rw [hm1, tryOnAtomMoveLoops_matrix data _ (by decide)]
    simp [hdata, overrunScenario, hc00]
    norm_num
  have hd10 : s1.matrixCapacity 1 0 0 = 6 := by
    rw [hm1, tryOnAtomMoveLoops_matrix data _ (by decide)]
    simp [hdata, overrunScenario, hc10]
    norm_num
  have hobj1 : s1.objectiveValue = 6 := by
    rw [hcons1.2, sumOfPositiveCells_two data _ rfl rfl rfl, hd00, hd10]
    norm_num [positivePart]
  have hg0 : getObjectiveValue s0 = 2 := by
    simp only [getObjectiveValue, hov0, mul_zero, add_zero, hobj0]
  have hg1 : getObjectiveValue s1 = 6 := by
    simp only [getObjectiveValue, hcoef1, hcoef0, zero_mul, add_zero, hobj1]
  refine ⟨s0, s1, hs0, hobj0, hc00, hc10, hg0, (applyMove_singleton data s0 _).trans hs1,
    hd00, hd10, hobj1, hg1, ?_⟩
  rw [hg0, hg1]
  norm_num

/-- The steps of committing a move of two atomic moves. -/
theorem applyMove_pair (data : TaskData α) (s s2 : VectorSolution α) (a1 a2 : AtomMove)
    (h : applyMove data s [a1, a2] = some s2) :
    ∃ s1, applyAtomMove data s a1 = some s1 ∧ applyAtomMove data s1 a2 = some s2 := by
  unfold applyMove at h
  cases h1 : applyAtomMove data s a1 with
  | none => rw [h1] at h; cases h
  | some s1 =>
    rw [h1] at h
    exact ⟨s1, rfl, (applyMove_singleton data s1 a2).symm.trans h⟩

/-- Claim C12 (concrete swap scenario). In the swap scenario, whatever the overhead
coefficient, the overhead thresholds and the costs: the constructed objective value is 0;
`getMoves` returns exactly one move, the swap of the two disks; `moveIsCorrect` accepts it;
`applyMove` commits it, after which the cell of server 0 is `-6`, the cell of server 1 is
`-4` and the objective value is still 0; and `tryOnMove` of the swap on the constructed state
returns `getObjectiveValue()` of the committed state. -/
theorem swap_scenario (coefficient : α) (thresholdOverheads : Nat → Nat → α)
    (diskCosts : CostKind → Nat → Nat → Nat → α) :
    ∃ s0 s1,
      VectorSolution.construct (swapScenario thresholdOverheads diskCosts) coefficient = some s0
      ∧ s0.objectiveValue = 0
      ∧ getMoves s0 = some [[AtomMove.mk 1 0 0, AtomMove.mk 0 1 1]]
      ∧ moveIsCorrect s0 [AtomMove.mk 1 0 0, AtomMove.mk 0 1 1] = some true
      ∧ applyMove (swapScenario thresholdOverheads diskCosts) s0
          [AtomMove.mk 1 0 0, AtomMove.mk 0 1 1] = some s1
      ∧ s1.matrixCapacity 0 0 0 = -6 ∧ s1.matrixCapacity 1 0 0 = -4
      ∧ s1.objectiveValue = 0
      ∧ tryOnMove (swapScenario thresholdOverheads diskCosts) s0
          [AtomMove.mk 1 0 0, AtomMove.mk 0 1 1] = some (getObjectiveValue s1) := by
  set data := swapScenario thresholdOverheads diskCosts with hdata
  have hcolors : ∀ d ∈ data.initialDistribution, d.color ≠ Color.NONE := by
    intro d hd
    simp only [hdata, swapScenario, List.mem_cons, List.mem_singleton, List.not_mem_nil,
      or_false] at hd
    rcases hd with rfl | rfl <;> simp
  have hdemand : ∀ disk resource time, 0 ≤ data.capacity disk resource time := by
    intro disk resource time
    show (0 : α) ≤ if disk = 0 then 6 else 4
    split_ifs <;> norm_num
  obtain ⟨s0, hs0⟩ := construct_isSome data coefficient rfl hcolors
  obtain ⟨hdist, -⟩ := construct_eq_some data coefficient s0 hs0
  have hdist' : s0.distribution = [Disk.mk 0 Color.GREEN, Disk.mk 1 Color.GREEN] := hdist
  have hcons0 := construct_consistent data coefficient s0 hs0
  have hc00 : s0.matrixCapacity 0 0 0 = -4 := by
    rw [hcons0.1 0 0 0 (by show 0 < 2; decide) (by show 0 < 1; decide)
      (by show 0 < 1; decide), hdist]
    simp [assignedDemand, hdata, swapScenario, diskServer, Finset.sum_range_succ]
    norm_num
  have hc10 : s0.matrixCapacity 1 0 0 = -6 := by
    rw [hcons0.1 1 0 0 (by show 1 < 2; decide) (by show 0 < 1; decide)
      (by show 0 < 1; decide), hdist]
    simp [assignedDemand, hdata, swapScenario, diskServer, Finset.sum_range_succ]
    norm_num
  have hobj0 : s0.objectiveValue = 0 := by
    rw [hcons0.2, sumOfPositiveCells_two data _ rfl rfl rfl, hc00, hc10]
    norm_num [positivePart]
  have hcorrect : moveIsCorrect s0 [AtomMove.mk 1 0 0, AtomMove.mk 0 1 1] = some true := by
    simp [moveIsCorrect, moveIsCorrectLoop, hdist', diskServer, diskColor]
  have hmoves : getMoves s0 = some [[AtomMove.mk 1 0 0, AtomMove.mk 0 1 1]] := by
    rw [getMoves_spec]
    have hpairs : orderedPairs s0.distribution.length = [(0, 1)] := by
      rw [hdist']; rfl
    have hswap : swapOf s0.distribution (0, 1) = [AtomMove.mk 1 0 0, AtomMove.mk 0 1 1] := by
      rw [hdist']; rfl
    have hacc : swapAccepted s0 (0, 1) = true := by
      simp only [swapAccepted, hswap, hcorrect, decide_eq_true_eq, and_true]
      rw [hdist']
      decide
    simp only [swapNeighborhood, hpairs, List.filter_cons, hacc, if_true, List.filter_nil,
      List.map_cons, List.map_nil, hswap]
  obtain ⟨s2, hs2, htry⟩ := tryOnMoveLoop_eq_applyMove data s0
    [AtomMove.mk 1 0 0, AtomMove.mk 0 1 1] s0 (by decide)
    (by rw [hdist']; intro a ha
        simp only [List.mem_cons, List.mem_singleton, List.not_mem_nil, or_false] at ha
        rcases ha with rfl | rfl
        · exact ⟨by decide, by decide, by show 0 < 2; decide, by show 1 < 2; decide⟩
        · exact ⟨by decide, by decide, by show 1 < 2; decide, by show 0 < 2; decide⟩)
    (by rw [hdist']; intro a ha
        simp only [List.mem_cons, List.mem_singleton, List.not_mem_nil, or_false] at ha
        rcases ha with rfl | rfl
        · exact ⟨by decide, by decide, by show 0 < 2; decide, by show 1 < 2; decide⟩
        · exact ⟨by decide, by decide, by show 1 < 2; decide, by show 0 < 2; decide⟩)
  obtain ⟨s1, h1, h2⟩ := applyMove_pair data s0 s2 _ _ hs2
  obtain ⟨-, -, hm1, -⟩ := applyAtomMove_eq_some data s0 s1 _ h1
  obtain ⟨-, -, hm2, -⟩ := applyAtomMove_eq_some data s1 s2 _ h2
  have hcons2 := applyMove_consistent data hdemand _ s0 s2 hs2 hcons0
  have hd00 : s1.matrixCapacity 0 0 0 = -10 := by
    rw [hm1, tryOnAtomMoveLoops_matrix data _ (by decide)]
    simp [hdata, swapScenario, hc00]
    norm_num
  have hd10 : s1.matrixCapacity 1 0 0 = 0 := by
    rw [hm1, tryOnAtomMoveLoops_matrix data _ (by decide)]
    simp [hdata, swapScenario, hc10]
  have he00 : s2.matrixCapacity 0 0 0 = -6 := by
    rw [hm2, tryOnAtomMoveLoops_matrix data _ (by decide)]
    simp [hdata, swapScenario, hd00]
    norm_num
  have he10 : s2.matrixCapacity 1 0 0 = -4 := by
    rw [hm2, tryOnAtomMoveLoops_matrix data _ (by decide)]
    simp [hdata, swapScenario, hd10]
  have hobj2 : s2.objectiveValue = 0 := by
    rw [hcons2.2, sumOfPositiveCells_two data _ rfl rfl rfl, he00, he10]
    norm_num [positivePart]
  refine ⟨s0, s2, hs0, hobj0, hmoves, hcorrect, hs2, he00, he10, hobj2, ?_⟩
  unfold tryOnMove
  rw [htry.1]
  simp only [Option.map_some', getObjectiveValue, TrialState.ofSolution, htry.2]

/-- The state at the violation is the state left by committing the atomic moves before the
first one that fails the assertions. -/
theorem applyMoveViolation_spec (data : TaskData α) (atomMoves : List AtomMove)
    (s st : VectorSolution α) (h : applyMoveViolation data s atomMoves = some st) :
    ∃ done a rest, atomMoves = done ++ a :: rest ∧ applyMove data s done = some st
      ∧ ¬ atomMoveAsserts data st.distribution a := by
  induction atomMoves generalizing s with
  | nil => simp [applyMoveViolation] at h
  | cons a rest ih =>
    unfold applyMoveViolation at h
    by_cases ha : atomMoveAsserts data s.distribution a
    · rw [if_pos ha] at h
      cases h1 : applyAtomMove data s a with
      | none => rw [h1] at h; cases h
      | some s1 =>
        rw [h1] at h
        obtain ⟨done, b, rest', hsplit, hdone, hb⟩ := ih s1 h
        refine ⟨a :: done, b, rest', by rw [hsplit, List.cons_append], ?_, hb⟩
        simp only [applyMove, h1, hdone]
    · rw [if_neg ha, Option.some.injEq] at h
      subst h
      exact ⟨[], a, rest, rfl, rfl, ha⟩

/-- The method `applyMove` fails exactly when it trips an assertion. -/
theorem applyMove_eq_none_iff (data : TaskData α) (atomMoves : List AtomMove)
    (s : VectorSolution α) :
    applyMove data s atomMoves = none ↔ ∃ st, applyMoveViolation data s atomMoves = some st := by
  induction atomMoves generalizing s with
  | nil => simp [applyMove, applyMoveViolation]
  | cons a rest ih =>
    unfold applyMove applyMoveViolation
    by_cases ha : atomMoveAsserts data s.distribution a
    · obtain ⟨s1, h1⟩ := applyAtomMove_isSome data s a ha
      rw [if_pos ha, h1]
      exact ih s1
    · have h1 : applyAtomMove data s a = none := by
        unfold applyAtomMove
        rw [if_neg ha]
      rw [if_neg ha, h1]
      simp

/-- Claim C16, as amended (commit checks each atomic move before committing it). When
`applyMove` trips an assertion, the atomic moves before the violating one have been
committed: the state at that point is the state `applyMove` of those earlier atomic moves
returns, the violating atomic move fails an assertion against it, and no field differs from
that state; the state is the one before the call when the first atomic move is the violating
one. The method `applyMove` fails exactly when there is such a point. -/
theorem commit_checks_each_atomic_move (data : TaskData α) (s : VectorSolution α)
    (atomMoves : List AtomMove) :
    (applyMove data s atomMoves = none ↔
      ∃ st, applyMoveViolation data s atomMoves = some st)
    ∧ (∀ st, applyMoveViolation data s atomMoves = some st →
        ∃ done a rest, atomMoves = done ++ a :: rest ∧ applyMove data s done = some st
          ∧ ¬ atomMoveAsserts data st.distribution a)
    ∧ (∀ a rest, atomMoves = a :: rest → ¬ atomMoveAsserts data s.distribution a →
        applyMoveViolation data s atomMoves = some s) := by
  refine ⟨applyMove_eq_none_iff data atomMoves s,
    fun st h => applyMoveViolation_spec data atomMoves s st h, ?_⟩
  intro a rest hsplit ha
  subst hsplit
  simp only [applyMoveViolation, if_neg ha]

end MoreProofs1

/-- Claim C16 fails on the code. On `exampleInitial` the move of twice `exampleMove` violates
a precondition at its second atomic move (the disk is no longer on server 0); at the point
the violation is raised the first atomic move has been committed: the history, the
distribution, the overheads, the ledger, the applied-move set and the matrix differ from
their values before the call. -/
theorem commit_not_atomic :
    ¬ atomMoveAsserts exampleData exampleMoved.distribution exampleMove
    ∧ (applyMove exampleData exampleInitial [exampleMove, exampleMove]).isSome = false
    ∧ (applyMoveViolation exampleData exampleInitial [exampleMove, exampleMove]).map
        getMoveHistory = some [exampleMove]
    ∧ getMoveHistory exampleInitial = []
    ∧ (applyMoveViolation exampleData exampleInitial [exampleMove, exampleMove]).map
        getDistribution = some [Disk.mk 1 Color.GREEN, Disk.mk 1 Color.GREEN]
    ∧ getDistribution exampleInitial = [Disk.mk 0 Color.GREEN, Disk.mk 1 Color.GREEN]
    ∧ (applyMoveViolation exampleData exampleInitial [exampleMove, exampleMove]).map
        (fun st => (st.overheads, st.thresholdOverheadsServer 0 0, st.appliedMoves,
          st.matrixCapacity 0 0 0)) = some (2, -1, {exampleMove.inverse}, -10)
    ∧ (exampleInitial.overheads, exampleInitial.thresholdOverheadsServer 0 0,
        exampleInitial.appliedMoves, exampleInitial.matrixCapacity 0 0 0) = (0, 0, ∅, -4) := by
  refine ⟨by decide, by decide, by decide, by decide, by decide, by decide, by decide, by decide⟩

/-- Claim C17 fails on the code. On `redInitial`, whose `serversColor` is the aggregate colour
of its distribution, `redMove` has two atomic moves that pass the assertions and relocate two
`RED` disks, and `moveIsCorrect` accepts it; it is committed, and afterwards the aggregate
colour of servers 0 and 1 is `NONE` where it was `RED`, and that of server 2 is `RED` where
it was `NONE`. -/
theorem two_atomic_moves_not_a_swap :
    (∀ server, server < redData.numberOfServers →
      redInitial.serversColor server = aggregateColor redInitial.distribution server)
    ∧ (∀ a ∈ redMove, atomMoveAsserts redData redInitial.distribution a)
    ∧ moveIsCorrect redInitial redMove = some true
    ∧ applyMove redData redInitial redMove = some redMoved
    ∧ (redInitial.serversColor 0, redInitial.serversColor 1, redInitial.serversColor 2)
        = (Color.RED, Color.RED, Color.NONE)
    ∧ (aggregateColor redMoved.distribution 0, aggregateColor redMoved.distribution 1,
        aggregateColor redMoved.distribution 2) = (Color.NONE, Color.NONE, Color.RED) := by
  refine ⟨by decide, by decide, by decide, (Option.some_get _).symm, by decide, by decide⟩

/-- Claim C18 fails on the code. On `exampleInitial` the move that relocates disk 0 to server
1 and back is committed by `applyMove`, its second atomic move passing the assertions against
the distribution the first one left, and the Total Cost afterwards is 0; `tryOnMove` of the
same move from the same state trips the assertion on the source of its second atomic move,
which it checks against the unchanged distribution. -/
theorem trial_rejects_sequential_move :
    (applyMove exampleData exampleInitial exampleRoundTrip).map getObjectiveValue = some 0
    ∧ atomMoveAsserts exampleData exampleMoved.distribution exampleMove.inverse
    ∧ ¬ atomMoveAsserts exampleData exampleInitial.distribution exampleMove.inverse
    ∧ tryOnMove exampleData exampleInitial exampleRoundTrip = none := by
  refine ⟨by decide, by decide, by decide, by decide⟩

section MoreProofs2

variable [LinearOrderedCommRing α]

/-- The debt of a cell is `max(0, -cell)`. -/
theorem negativePart_eq_max (x : α) : negativePart x = max 0 (-x) := by
  unfold negativePart
  split_ifs with h
  · rw [max_eq_right (by linarith)]
  · rw [max_eq_left (by linarith)]

/-- The debt of a ledger, written with `max`. -/
theorem ledgerDebt_eq_sum_max (data : TaskData α) (ledger : TwoDimensionalMatrix α) :
    ledgerDebt data ledger
      = ∑ server ∈ Finset.range data.numberOfServers,
          ∑ resource ∈ Finset.range data.numberOfResource, max 0 (-(ledger server resource)) := by
  unfold ledgerDebt
  simp only [negativePart_eq_max]

/-- The debt of a ledger is never negative. -/
theorem ledgerDebt_nonneg (data : TaskData α) (ledger : TwoDimensionalMatrix α) :
    0 ≤ ledgerDebt data ledger := by
  rw [ledgerDebt_eq_sum_max]
  exact Finset.sum_nonneg (fun _ _ => Finset.sum_nonneg (fun _ _ => le_max_left _ _))

/-- A ledger without a negative cell in range has no debt. -/
theorem ledgerDebt_eq_zero (data : TaskData α) (ledger : TwoDimensionalMatrix α)
    (h : ∀ server resource, server < data.numberOfServers →
      resource < data.numberOfResource → 0 ≤ ledger server resource) :
    ledgerDebt data ledger = 0 := by
  unfold ledgerDebt
  refine Finset.sum_eq_zero (fun a ha => Finset.sum_eq_zero (fun c hc => ?_))
  have := h a c (Finset.mem_range.mp ha) (Finset.mem_range.mp hc)
  unfold negativePart
  rw [if_neg (not_lt.mpr this)]

/-- Over a sequence of calls with servers in range, the overheads change by the change of the
debt of the ledger. -/
theorem getOverheadsSteps_potential (data : TaskData α)
    (hcost : ∀ kind disk server resource, 0 ≤ data.diskCosts kind disk server resource)
    (atomMoves : List AtomMove)
    (hrange : ∀ a ∈ atomMoves,
      a.source < data.numberOfServers ∧ a.destination < data.numberOfServers)
    (st : Finset AtomMove × TwoDimensionalMatrix α × α) :
    (getOverheadsSteps data st atomMoves).2.2
        - ledgerDebt data (getOverheadsSteps data st atomMoves).2.1
      = st.2.2 - ledgerDebt data st.2.1 := by
  induction atomMoves generalizing st with
  | nil => rfl
  | cons a rest ih =>
    have ha := hrange a (List.mem_cons_self a rest)
    simp only [getOverheadsSteps]
    rw [ih (fun b hb => hrange b (List.mem_cons_of_mem a hb)),
      getOverheads_potential data hcost a st.1 st.2.1 st.2.2 ha.1 ha.2]

/-- The overheads part of `applyMove` is the sequence of `getOverheads` calls of its atomic
moves, each of which has passed the assertions. -/
theorem applyMove_getOverheadsSteps (data : TaskData α) (atomMoves : List AtomMove)
    (s s1 : VectorSolution α) (h : applyMove data s atomMoves = some s1) :
    (s1.appliedMoves, s1.thresholdOverheadsServer, s1.overheads)
        = getOverheadsSteps data (s.appliedMoves, s.thresholdOverheadsServer, s.overheads)
            atomMoves
    ∧ ∀ a ∈ atomMoves, a.source ≠ a.destination
        ∧ a.source < data.numberOfServers ∧ a.destination < data.numberOfServers := by
  induction atomMoves generalizing s with
  | nil =>
    simp only [applyMove, Option.some.injEq] at h
    subst h
    exact ⟨rfl, fun a ha => absurd ha (List.not_mem_nil a)⟩
  | cons a rest ih =>
    unfold applyMove at h
    cases ha : applyAtomMove data s a with
    | none => rw [ha] at h; cases h
    | some s2 =>
      rw [ha] at h
      obtain ⟨hasserts, -, -, -, hset, hthr, hov, -⟩ := applyAtomMove_eq_some data s s2 a ha
      obtain ⟨h1, h2⟩ := ih s2 h
      refine ⟨?_, ?_⟩
      · rw [h1, hset, hthr, hov]
        rfl
      · intro b hb
        rcases List.mem_cons.mp hb with rfl | hb
        · exact ⟨hasserts.1, hasserts.2.2.1, hasserts.2.2.2⟩
        · exact h2 b hb

/-- The method `applyMove` changes the overheads by the change of the debt of the ledger. -/
theorem applyMove_potential (data : TaskData α)
    (hcost : ∀ kind disk server resource, 0 ≤ data.diskCosts kind disk server resource)
    (atomMoves : List AtomMove) (s s1 : VectorSolution α)
    (h : applyMove data s atomMoves = some s1) :
    s1.overheads - ledgerDebt data s1.thresholdOverheadsServer
      = s.overheads - ledgerDebt data s.thresholdOverheadsServer := by
  obtain ⟨h1, h2⟩ := applyMove_getOverheadsSteps data atomMoves s s1 h
  have h3 := getOverheadsSteps_potential data hcost atomMoves
    (fun a ha => (h2 a ha).2) (s.appliedMoves, s.thresholdOverheadsServer, s.overheads)
  rw [← h1] at h3
  exact h3

/-- A sequence of `applyMove` calls changes the overheads by the change of the debt. -/
theorem applyMoves_potential (data : TaskData α)
    (hcost : ∀ kind disk server resource, 0 ≤ data.diskCosts kind disk server resource)
    (moves : List (List AtomMove)) (s s1 : VectorSolution α)
    (h : applyMoves data s moves = some s1) :
    s1.overheads - ledgerDebt data s1.thresholdOverheadsServer
      = s.overheads - ledgerDebt data s.thresholdOverheadsServer := by
  induction moves generalizing s with
  | nil =>
    simp only [applyMoves, Option.some.injEq] at h
    rw [h]
  | cons M rest ih =>
    unfold applyMoves at h
    cases hM : applyMove data s M with
    | none => rw [hM] at h; cases h
    | some s2 =>
      rw [hM] at h
      rw [ih s2 h, applyMove_potential data hcost M s s2 hM]

/-- Claim C19 (overhead value is a function of the ledger). Costs are non-negative. After
any sequence of `getOverheads` calls with servers in range, started on the ledger of a
constructed state (the overhead thresholds), overheads 0 and any applied-move set, the
overheads are the sum over the ledger cells of `max(0, -cell)` minus the same sum over the
overhead thresholds; when no overhead threshold is negative they are the sum over the
ledger cells of `max(0, -cell)` and are not negative. The same holds of the overheads and
the ledger of every state reached from a constructed state by `applyMove` calls. -/
theorem overheads_function_of_ledger (data : TaskData α)
    (hcost : ∀ kind disk server resource, 0 ≤ data.diskCosts kind disk server resource)
    (appliedMoves : Finset AtomMove) (atomMoves : List AtomMove)
    (hrange : ∀ a ∈ atomMoves,
      a.source < data.numberOfServers ∧ a.destination < data.numberOfServers) :
    (getOverheadsSteps data (appliedMoves, data.thresholdOverheads, 0) atomMoves).2.2
        = ∑ server ∈ Finset.range data.numberOfServers,
            ∑ resource ∈ Finset.range data.numberOfResource,
              max 0 (-((getOverheadsSteps data (appliedMoves, data.thresholdOverheads, 0)
                atomMoves).2.1 server resource))
          - ∑ server ∈ Finset.range data.numberOfServers,
              ∑ resource ∈ Finset.range data.numberOfResource,
                max 0 (-(data.thresholdOverheads server resource))
    ∧ ((∀ server resource, server < data.numberOfServers →
          resource < data.numberOfResource → 0 ≤ data.thresholdOverheads server resource) →
        (getOverheadsSteps data (appliedMoves, data.thresholdOverheads, 0) atomMoves).2.2
            = ∑ server ∈ Finset.range data.numberOfServers,
                ∑ resource ∈ Finset.range data.numberOfResource,
                  max 0 (-((getOverheadsSteps data (appliedMoves, data.thresholdOverheads, 0)
                    atomMoves).2.1 server resource))
          ∧ 0 ≤ (getOverheadsSteps data (appliedMoves, data.thresholdOverheads, 0)
              atomMoves).2.2)
    ∧ (∀ coefficient s0 moves s, VectorSolution.construct data coefficient = some s0 →
        applyMoves data s0 moves = some s →
        s.overheads
          = ∑ server ∈ Finset.range data.numberOfServers,
              ∑ resource ∈ Finset.range data.numberOfResource,
                max 0 (-(s.thresholdOverheadsServer server resource))
            - ∑ server ∈ Finset.range data.numberOfServers,
                ∑ resource ∈ Finset.range data.numberOfResource,
                  max 0 (-(data.thresholdOverheads server resource))) := by
  have hpot := getOverheadsSteps_potential data hcost atomMoves hrange
    (appliedMoves, data.thresholdOverheads, 0)
  simp only [zero_sub] at hpot
  refine ⟨?_, ?_, ?_⟩
  · rw [← ledgerDebt_eq_sum_max, ← ledgerDebt_eq_sum_max]
    linarith
  · intro hthr
    rw [← ledgerDebt_eq_sum_max]
    have hzero := ledgerDebt_eq_zero data data.thresholdOverheads hthr
    rw [hzero, neg_zero] at hpot
    have hnonneg := ledgerDebt_nonneg data
      (getOverheadsSteps data (appliedMoves, data.thresholdOverheads, 0) atomMoves).2.1
    constructor
    · linarith
    · linarith
  · intro coefficient s0 moves s hc hm
    obtain ⟨-, -, -, hthr0, hov0, -⟩ := construct_eq_some data coefficient s0 hc
    have hp := applyMoves_potential data hcost moves s0 s hm
    rw [hthr0, hov0, zero_sub] at hp
    rw [← ledgerDebt_eq_sum_max, ← ledgerDebt_eq_sum_max]
    linarith

/-- After a move, its inverse is in the applied-move set exactly when the move was not. -/
theorem getOverheads_inverse_mem (data : TaskData α) (atomMove : AtomMove)
    (appliedMoves : Finset AtomMove) (l : TwoDimensionalMatrix α) (ov : α)
    (hpair : NoInversePair appliedMoves) :
    atomMove.inverse ∈ (getOverheads data atomMove appliedMoves l ov).1
      ↔ atomMove ∉ appliedMoves := by
  rw [getOverheads_appliedMoves]
  by_cases hm : atomMove ∈ appliedMoves
  · rw [if_pos hm]
    exact ⟨fun h => absurd (Finset.mem_of_mem_erase h) (hpair atomMove hm),
      fun h => absurd hm h⟩
  · rw [if_neg hm]
    exact ⟨fun _ => hm, fun _ => Finset.mem_insert_self _ _⟩

/-- A move followed by a sequence that restores the ledger and the overheads and keeps the
membership of the move and of its inverse, followed by the inverse of the move, restores
the ledger and the overheads. -/
theorem getOverheads_then_inverse (data : TaskData α)
    (hcost : ∀ kind disk server resource, 0 ≤ data.diskCosts kind disk server resource)
    (m : AtomMove) (hne : m.source ≠ m.destination)
    (hrange : m.source < data.numberOfServers ∧ m.destination < data.numberOfServers)
    (set0 set2 : Finset AtomMove) (l : TwoDimensionalMatrix α) (ov : α)
    (hpair : NoInversePair set0)
    (hmem : m.inverse ∈ set2
      ↔ m.inverse ∈ (getOverheads data m set0 l ov).1) :
    (getOverheads data m.inverse set2 (getOverheads data m set0 l ov).2.1
        (getOverheads data m set0 l ov).2.2).2.1 = l
    ∧ (getOverheads data m.inverse set2 (getOverheads data m set0 l ov).2.1
        (getOverheads data m set0 l ov).2.2).2.2 = ov := by
  have hne1 : m.inverse.source ≠ m.inverse.destination := fun h => hne h.symm
  have hmet : decide (m.inverse ∈ set2) = !decide (m ∈ set0) := by
    have := hmem.trans (getOverheads_inverse_mem data m set0 l ov hpair)
    by_cases hm : m ∈ set0
    · simp [hm, this.not.mpr (not_not.mpr hm)]
    · simp [hm, this.mpr hm]
  have hledger : (getOverheads data m.inverse set2 (getOverheads data m set0 l ov).2.1
      (getOverheads data m set0 l ov).2.2).2.1 = l := by
    funext a c
    rw [getOverheads_ledger data _ hne1, getOverheads_ledger data _ hne, hmet]
    by_cases hc : c < data.numberOfResource
    · rw [if_pos hc, if_pos hc, add_assoc, ledgerShift_inverse data m hne, add_zero]
    · rw [if_neg hc, if_neg hc]
  refine ⟨hledger, ?_⟩
  have p1 := getOverheads_potential data hcost m set0 l ov hrange.1 hrange.2
  have p2 := getOverheads_potential data hcost m.inverse set2
    (getOverheads data m set0 l ov).2.1 (getOverheads data m set0 l ov).2.2 hrange.2 hrange.1
  rw [hledger] at p2
  linarith

end MoreProofs2

/-- Equally many occurrences of every atomic move and of its inverse do not suffice. The
sequence `triangleTwice` is committed on `triangleInitial`, every atomic move occurs in it as
often as its inverse and the disk ends on the server it was on, but the relocation from
server 0 to server 1 is made twice before it is undone: the applied-move set holds it once,
so one of the two charges stays, and the last atomic move finds nothing to cancel. The
overheads are 4 where they were 0. -/
theorem repeated_relocation_stays_charged :
    (∀ x ∈ triangleTwice, triangleTwice.count x = triangleTwice.count x.inverse)
    ∧ ¬ UndoneInTurn triangleTwice
    ∧ (applyMove triangleData triangleInitial triangleTwice).map getDistribution
        = some (getDistribution triangleInitial)
    ∧ (applyMove triangleData triangleInitial triangleTwice).map
        (fun s => (s.overheads, s.thresholdOverheadsServer 0 0, s.thresholdOverheadsServer 1 0,
          s.thresholdOverheadsServer 2 0)) = some (4, -2, -2, 0)
    ∧ triangleInitial.overheads = 0 := by
  refine ⟨by decide, by decide, by decide, by decide, by decide⟩

section MoreProofs3

variable [LinearOrderedCommRing α]

/-- A sequence of `applyMove` calls leaves the server colours and the overhead coefficient
alone. -/
theorem applyMoves_frame (data : TaskData α) (moves : List (List AtomMove))
    (s s1 : VectorSolution α) (h : applyMoves data s moves = some s1) :
    s1.serversColor = s.serversColor ∧ s1.overheadsCoefficient = s.overheadsCoefficient := by
  induction moves generalizing s with
  | nil =>
    simp only [applyMoves, Option.some.injEq] at h
    subst h
    exact ⟨rfl, rfl⟩
  | cons M rest ih =>
    unfold applyMoves at h
    cases hM : applyMove data s M with
    | none => rw [hM] at h; cases h
    | some s2 =>
      rw [hM] at h
      obtain ⟨-, -, f3, f4, -⟩ := applyMove_frame data M s s2 hM
      obtain ⟨g1, g2⟩ := ih s2 h
      exact ⟨g1.trans f3, g2.trans f4⟩

/-- Claim C14 (frame of commit). When `applyMove` of a move completes, it has changed no
disk's colour, not the number of disks, not `serversColor`, not the overhead coefficient, and
not the server of any disk that no atomic move of the move names; every disk that an atomic
move names is on the destination of the last atomic move that names it. From a constructed
state on, `serversColor` is what `paintServers` computed from the initial distribution. -/
theorem commit_frame (data : TaskData α) (s s1 : VectorSolution α)
    (atomMoves : List AtomMove) (h : applyMove data s atomMoves = some s1) :
    (∀ k, diskColor s1.distribution k = diskColor s.distribution k)
    ∧ s1.distribution.length = s.distribution.length
    ∧ s1.serversColor = s.serversColor
    ∧ s1.overheadsCoefficient = s.overheadsCoefficient
    ∧ (∀ k, (∀ a ∈ atomMoves, a.diskId ≠ k) →
        diskServer s1.distribution k = diskServer s.distribution k)
    ∧ (∀ k d, lastDestination atomMoves k = some d →
        diskServer s1.distribution k = some d)
    ∧ (∀ coefficient s0 moves, VectorSolution.construct data coefficient = some s0 →
        applyMoves data s0 moves = some s →
        paintServers data data.initialDistribution (fun _ => Color.NONE)
          = some s1.serversColor) := by
  obtain ⟨f1, f2, f3, f4, f5, f6⟩ := applyMove_frame data atomMoves s s1 h
  refine ⟨f1, f2, f3, f4, f5, f6, ?_⟩
  intro coefficient s0 moves hc hm
  obtain ⟨-, -, -, -, -, -, -, -, hpaint⟩ := construct_eq_some data coefficient s0 hc
  rw [hpaint, f3, (applyMoves_frame data moves s0 s hm).1]

/-- Claim C20 (generated moves never trip a contract violation). In a state whose disks are
on servers in range, `getMoves` completes, so that no call of `moveIsCorrect` during the
generation trips an assertion, and every move it returns has exactly two atomic moves, on two
different disks, each of which passes the three assertions against the distribution of the
state (source other than destination, source the server of the disk, both servers in range);
`moveIsCorrect` returns true for it; `tryOnMove` completes; `applyMove` commits the first
atomic move, the second one passes the assertions against the distribution the first one
left, and `applyMove` completes, with the Total Cost `tryOnMove` returned. -/
theorem generated_moves_pass_assertions (data : TaskData α) (s : VectorSolution α)
    (hrange : ∀ d ∈ s.distribution, d.serverId < data.numberOfServers) :
    ∃ moves, getMoves s = some moves
      ∧ ∀ atomMoves ∈ moves, ∃ a1 a2, atomMoves = [a1, a2] ∧ a1.diskId ≠ a2.diskId
          ∧ atomMoveAsserts data s.distribution a1 ∧ atomMoveAsserts data s.distribution a2
          ∧ moveIsCorrect s atomMoves = some true
          ∧ ∃ s1 s2, applyAtomMove data s a1 = some s1
              ∧ atomMoveAsserts data s1.distribution a2
              ∧ applyAtomMove data s1 a2 = some s2
              ∧ applyMove data s atomMoves = some s2
              ∧ tryOnMove data s atomMoves = some (getObjectiveValue s2) := by
  refine ⟨swapNeighborhood s, getMoves_spec s, ?_⟩
  intro atomMoves hmem
  obtain ⟨i, j, hij, hj, hne, hcorrect, rfl⟩ := (mem_swapNeighborhood s atomMoves).mp hmem
  have hi : i < s.distribution.length := Nat.lt_trans hij hj
  have hsi := diskServer_eq_serverOf s.distribution i hi
  have hsj := diskServer_eq_serverOf s.distribution j hj
  have hli := serverOf_lt data s.distribution hrange i hi
  have hlj := serverOf_lt data s.distribution hrange j hj
  have ha1 : atomMoveAsserts data s.distribution
      (AtomMove.mk (serverOf s.distribution j) (serverOf s.distribution i) i) :=
    ⟨hne, hsi, hli, hlj⟩
  have ha2 : atomMoveAsserts data s.distribution
      (AtomMove.mk (serverOf s.distribution i) (serverOf s.distribution j) j) :=
    ⟨fun h => hne h.symm, hsj, hlj, hli⟩
  have hpre : ∀ a ∈ swapOf s.distribution (i, j), atomMoveAsserts data s.distribution a := by
    intro a ha
    simp only [swapOf, List.mem_cons, List.mem_singleton, List.not_mem_nil, or_false] at ha
    rcases ha with rfl | rfl
    · exact ha1
    · exact ha2
  obtain ⟨s2, hs2, htry, hcoef⟩ := tryOnMoveLoop_eq_applyMove data s
    (swapOf s.distribution (i, j)) s
    (by simp only [swapOf, List.map_cons, List.map_nil, List.nodup_cons, List.mem_singleton,
          List.not_mem_nil, not_false_eq_true, List.nodup_nil, and_true]
        exact Nat.ne_of_lt hij) hpre hpre
  obtain ⟨s1, h1, h2⟩ := applyMove_pair data s s2 _ _ hs2
  obtain ⟨hasserts2, -⟩ := applyAtomMove_eq_some data s1 s2 _ h2
  refine ⟨_, _, rfl, Nat.ne_of_lt hij, ha1, ha2, hcorrect, s1, s2, h1, hasserts2, h2, hs2, ?_⟩
  unfold tryOnMove
  rw [htry]
  simp only [Option.map_some', getObjectiveValue, TrialState.ofSolution, hcoef]

end MoreProofs3

/-- Claim C11 at `ℤ`, for two `GREEN` disks, overhead thresholds 0 and every cost 1. -/
theorem overrun_scenario_witness :
    Color.GREEN ≠ Color.NONE
    ∧ ∃ s0 s1 : VectorSolution ℤ,
        VectorSolution.construct
          (overrunScenario Color.GREEN Color.GREEN (fun _ _ => 0) (fun _ _ _ _ => 1)) 0
            = some s0
        ∧ s0.objectiveValue = 2 ∧ s1.objectiveValue = 6 := by
  obtain ⟨s0, s1, h1, h2, -, -, -, -, -, -, h3, -⟩ :=
    overrun_scenario Color.GREEN Color.GREEN (by decide) (by decide)
      (fun _ _ => (0 : ℤ)) (fun _ _ _ _ => (1 : ℤ))
  exact ⟨by decide, s0, s1, h1, h2, h3⟩

/-- Claim C13 at `exampleInitial`, for the move `exampleMove`. -/
theorem move_history_append_only_witness :
    applyMove exampleData exampleInitial [exampleMove] = some exampleMoved
    ∧ getMoveHistory exampleMoved = getMoveHistory exampleInitial ++ [exampleMove] :=
  ⟨exampleMoved_eq,
    (move_history_append_only exampleData exampleInitial exampleMoved [exampleMove]
      exampleMoved_eq).1⟩

/-- Claim C14 at `exampleInitial`, for the move `exampleMove`. -/
theorem commit_frame_witness :
    applyMove exampleData exampleInitial [exampleMove] = some exampleMoved
    ∧ exampleMoved.serversColor = exampleInitial.serversColor
    ∧ diskServer exampleMoved.distribution 0 = some 1 :=
  ⟨exampleMoved_eq,
    (commit_frame exampleData exampleInitial exampleMoved [exampleMove] exampleMoved_eq).2.2.1,
    (commit_frame exampleData exampleInitial exampleMoved [exampleMove]
      exampleMoved_eq).2.2.2.2.2.1 0 1 (by decide)⟩

/-- Claim C16, as amended, at `exampleInitial`, for the move of twice `exampleMove`. -/
theorem commit_checks_each_atomic_move_witness :
    (applyMove exampleData exampleInitial [exampleMove, exampleMove]).isSome = false
    ∧ ∃ st, applyMoveViolation exampleData exampleInitial [exampleMove, exampleMove]
        = some st :=
  ⟨by decide,
    (commit_checks_each_atomic_move exampleData exampleInitial
      [exampleMove, exampleMove]).1.mp (Option.not_isSome_iff_eq_none.mp (by decide))⟩

/-- Claim C19 at `exampleData`, for `exampleMove` and its inverse, from the empty set. -/
theorem overheads_function_of_ledger_witness :
    (∀ kind disk server resource, 0 ≤ exampleData.diskCosts kind disk server resource)
    ∧ (∀ a ∈ exampleRoundTrip, a.source < exampleData.numberOfServers
        ∧ a.destination < exampleData.numberOfServers)
    ∧ (getOverheadsSteps exampleData (∅, exampleData.thresholdOverheads, 0)
          exampleRoundTrip).2.2
        = ∑ server ∈ Finset.range exampleData.numberOfServers,
            ∑ resource ∈ Finset.range exampleData.numberOfResource,
              max 0 (-((getOverheadsSteps exampleData (∅, exampleData.thresholdOverheads, 0)
                exampleRoundTrip).2.1 server resource))
          - ∑ server ∈ Finset.range exampleData.numberOfServers,
              ∑ resource ∈ Finset.range exampleData.numberOfResource,
                max 0 (-(exampleData.thresholdOverheads server resource)) :=
  ⟨exampleData_diskCosts_nonneg, by decide,
    (overheads_function_of_ledger exampleData exampleData_diskCosts_nonneg ∅ exampleRoundTrip
      (by decide)).1⟩

/-- Claim C20 at `exampleInitial`. -/
theorem generated_moves_pass_assertions_witness :
    (∀ d ∈ exampleInitial.distribution, d.serverId < exampleData.numberOfServers)
    ∧ ∃ moves, getMoves exampleInitial = some moves
        ∧ ∀ atomMoves ∈ moves, ∃ a1 a2, atomMoves = [a1, a2] ∧ a1.diskId ≠ a2.diskId :=
  ⟨by decide,
    (generated_moves_pass_assertions exampleData exampleInitial (by decide)).imp
      (fun _ h => ⟨h.1, fun M hM => (h.2 M hM).imp
        (fun _ h1 => h1.imp (fun _ h2 => ⟨h2.1, h2.2.1⟩))⟩)⟩

/-- The aggregate colour reads which disks are in the distribution only. -/
theorem aggregateColor_congr (l1 l2 : List Disk) (h : ∀ x, x ∈ l1 ↔ x ∈ l2) (server : Nat) :
    aggregateColor l1 server = aggregateColor l2 server := by
  simp only [aggregateColor, h]

/-- Exchanging the servers of two disks of the same colour leaves the same disks in the
distribution. -/
theorem mem_exchange (distribution : List Disk) (i j : Nat) (di dj : Disk) (hij : i ≠ j)
    (hi : distribution[i]? = some di) (hj : distribution[j]? = some dj)
    (hcolor : di.color = dj.color) (x : Disk) :
    x ∈ (distribution.set i (Disk.mk dj.serverId di.color)).set j (Disk.mk di.serverId dj.color)
      ↔ x ∈ distribution := by
  have hli : i < distribution.length := (List.getElem?_eq_some_iff.mp hi).1
  have hlj : j < distribution.length := (List.getElem?_eq_some_iff.mp hj).1
  have hget : ∀ n, ((distribution.set i (Disk.mk dj.serverId di.color)).set j
      (Disk.mk di.serverId dj.color))[n]?
      = if n = j then some di else if n = i then some dj else distribution[n]? := by
    intro n
    rw [List.getElem?_set, List.getElem?_set]
    by_cases hnj : n = j
    · subst hnj
      simp only [if_true, List.length_set, hlj]
      congr 1
      cases di; cases dj; simp_all
    · by_cases hni : n = i
      · subst hni
        simp only [if_neg (Ne.symm hnj), if_neg hnj, if_true, hli]
        congr 1
        cases di; cases dj; simp_all
      · simp only [if_neg (Ne.symm hnj), if_neg hnj, if_neg (Ne.symm hni), if_neg hni]
  simp only [List.mem_iff_getElem?, hget]
  constructor
  · rintro ⟨n, hn⟩
    by_cases hnj : n = j
    · rw [if_pos hnj] at hn
      exact ⟨i, hi.trans hn⟩
    · rw [if_neg hnj] at hn
      by_cases hni : n = i
      · rw [if_pos hni] at hn
        exact ⟨j, hj.trans hn⟩
      · rw [if_neg hni] at hn
        exact ⟨n, hn⟩
  · rintro ⟨n, hn⟩
    by_cases hni : n = i
    · subst hni
      refine ⟨j, ?_⟩
      rw [if_pos rfl, ← hi, hn]
    · by_cases hnj : n = j
      · subst hnj
        refine ⟨i, ?_⟩
        rw [if_neg hij, if_pos rfl, ← hj, hn]
      · exact ⟨n, by rw [if_neg hnj, if_neg hni, hn]⟩

section MoreProofs4

variable [LinearOrderedCommRing α]

/-- The loop of `tryOnMove` follows the loop of `applyMove` when every atomic move passes
the assertions against the distribution of the state. -/
theorem tryOnMoveLoop_of_applyMove (data : TaskData α) (s : VectorSolution α)
    (atomMoves : List AtomMove) (s' s1 : VectorSolution α)
    (hcommit : applyMove data s' atomMoves = some s1)
    (hpre : ∀ a ∈ atomMoves, atomMoveAsserts data s.distribution a) :
    tryOnMoveLoop data s (TrialState.ofSolution s') atomMoves
        = some (TrialState.ofSolution s1)
      ∧ s1.overheadsCoefficient = s'.overheadsCoefficient := by
  induction atomMoves generalizing s' with
  | nil =>
    simp only [applyMove, Option.some.injEq] at hcommit
    subst hcommit
    exact ⟨rfl, rfl⟩
  | cons a rest ih =>
    have ha := hpre a (List.mem_cons_self a rest)
    unfold applyMove at hcommit
    cases hs2 : applyAtomMove data s' a with
    | none => rw [hs2] at hcommit; cases hcommit
    | some s2 =>
      rw [hs2] at hcommit
      obtain ⟨-, -, hm, ho, hset, hthr, hov, -, hcoef, -⟩ :=
        applyAtomMove_eq_some data s' s2 a hs2
      obtain ⟨h2, h3⟩ := ih s2 hcommit (fun b hb => hpre b (List.mem_cons_of_mem a hb))
      refine ⟨?_, h3.trans hcoef⟩
      have hne : ¬ a.source = a.destination := ha.1
      have hstep : TrialState.mk
          (tryOnAtomMoveLoops data a (s'.matrixCapacity, s'.objectiveValue)).1
          (tryOnAtomMoveLoops data a (s'.matrixCapacity, s'.objectiveValue)).2
          (getOverheads data a s'.appliedMoves s'.thresholdOverheadsServer s'.overheads).2.2
          (getOverheads data a s'.appliedMoves s'.thresholdOverheadsServer s'.overheads).2.1
          (getOverheads data a s'.appliedMoves s'.thresholdOverheadsServer s'.overheads).1
          = TrialState.ofSolution s2 := by
        simp only [TrialState.ofSolution, hm, ho, hset, hthr, hov]
      simp only [tryOnMoveLoop, if_pos ha, tryOnAtomMove, if_neg hne, TrialState.ofSolution]
      simp only [TrialState.ofSolution] at hstep h2
      rw [hstep, h2]

/-- The loop of `tryOnMove` completes exactly when every atomic move passes the assertions
against the distribution of the state. -/
theorem tryOnMoveLoop_isSome_iff (data : TaskData α) (s : VectorSolution α)
    (atomMoves : List AtomMove) (c : TrialState α) :
    (∃ c1, tryOnMoveLoop data s c atomMoves = some c1)
      ↔ ∀ a ∈ atomMoves, atomMoveAsserts data s.distribution a := by
  induction atomMoves generalizing c with
  | nil => simp [tryOnMoveLoop]
  | cons a rest ih =>
    by_cases ha : atomMoveAsserts data s.distribution a
    · have hne : ¬ a.source = a.destination := ha.1
      simp only [tryOnMoveLoop, if_pos ha, tryOnAtomMove, if_neg hne, List.mem_cons,
        forall_eq_or_imp, ha, true_and]
      exact ih _
    · simp only [tryOnMoveLoop, if_neg ha, List.mem_cons, forall_eq_or_imp, ha, false_and,
        iff_false, not_exists]
      intro c1 h
      cases h

/-- The method `tryOnMove` completes exactly when every atomic move passes the assertions
against the distribution of the state. -/
theorem tryOnMove_isSome_iff (data : TaskData α) (s : VectorSolution α)
    (atomMoves : List AtomMove) :
    (∃ v, tryOnMove data s atomMoves = some v)
      ↔ ∀ a ∈ atomMoves, atomMoveAsserts data s.distribution a := by
  rw [← tryOnMoveLoop_isSome_iff data s atomMoves (TrialState.ofSolution s)]
  unfold tryOnMove
  constructor
  · rintro ⟨v, hv⟩
    rw [Option.map_eq_some'] at hv
    obtain ⟨c1, hc1, -⟩ := hv
    exact ⟨c1, hc1⟩
  · rintro ⟨c1, hc1⟩
    rw [hc1]
    exact ⟨_, rfl⟩

/-- Claim C17, as amended (same-severity swaps keep server colours valid). The state has
`serversColor` equal to the aggregate colour of its distribution on every server in range.
The move has two atomic moves that exchange the servers of two different disks, which are
both `RED` or both `YELLOW`, and `applyMove` commits it. Then `moveIsCorrect` accepts the
move, and the aggregate colour of every server in range, derived from the new distribution,
is its colour before the move. -/
theorem same_severity_swap_keeps_colours (data : TaskData α) (s s2 : VectorSolution α)
    (a1 a2 : AtomMove)
    (hagree : ∀ server, server < data.numberOfServers →
      s.serversColor server = aggregateColor s.distribution server)
    (hswap : a1.source = a2.destination ∧ a1.destination = a2.source
      ∧ a1.diskId ≠ a2.diskId)
    (hsame : (diskColor s.distribution a1.diskId = some Color.RED
          ∧ diskColor s.distribution a2.diskId = some Color.RED)
        ∨ (diskColor s.distribution a1.diskId = some Color.YELLOW
          ∧ diskColor s.distribution a2.diskId = some Color.YELLOW))
    (hcommit : applyMove data s [a1, a2] = some s2) :
    moveIsCorrect s [a1, a2] = some true
    ∧ ∀ server, server < data.numberOfServers →
        aggregateColor s2.distribution server = s.serversColor server := by
  obtain ⟨s1, h1, h2⟩ := applyMove_pair data s s2 a1 a2 hcommit
  obtain ⟨-, ⟨d1, hd1, hsrc1, hdist1⟩, -⟩ := applyAtomMove_eq_some data s s1 a1 h1
  obtain ⟨-, ⟨d2, hd2, hsrc2, hdist2⟩, -⟩ := applyAtomMove_eq_some data s1 s2 a2 h2
  have hd2' : s.distribution[a2.diskId]? = some d2 := by
    rw [hdist1, List.getElem?_set, if_neg hswap.2.2] at hd2
    exact hd2
  have hcolor : d1.color = d2.color := by
    simp only [diskColor, hd1, hd2', Option.map_some', Option.some.injEq] at hsame
    rcases hsame with ⟨h, h'⟩ | ⟨h, h'⟩ <;> rw [h, h']
  constructor
  · have hsame' : (d1.color = Color.RED ∧ d2.color = Color.RED)
        ∨ (d1.color = Color.YELLOW ∧ d2.color = Color.YELLOW) := by
      simpa only [diskColor, hd1, hd2', Option.map_some', Option.some.injEq] using hsame
    simp only [moveIsCorrect, hd1, hd2']
    rw [if_pos hsame']
  · intro server hserver
    rw [hagree server hserver, hdist2, hdist1]
    have e1 : a1.destination = d2.serverId := by rw [hswap.2.1, hsrc2]
    have e2 : a2.destination = d1.serverId := by rw [← hswap.1, hsrc1]
    rw [e1, e2]
    exact aggregateColor_congr _ _
      (mem_exchange s.distribution a1.diskId a2.diskId d1 d2 hswap.2.2 hd1 hd2' hcolor) server

end MoreProofs4

/-- Claim C17, as amended, at `redInitial`, for the swap of the two `RED` disks. -/
theorem same_severity_swap_keeps_colours_witness :
    (∀ server, server < redData.numberOfServers →
      redInitial.serversColor server = aggregateColor redInitial.distribution server)
    ∧ applyMove redData redInitial redSwap = some redSwapped
    ∧ moveIsCorrect redInitial redSwap = some true
    ∧ ∀ server, server < redData.numberOfServers →
        aggregateColor redSwapped.distribution server = redInitial.serversColor server :=
  ⟨by decide, (Option.some_get _).symm,
    same_severity_swap_keeps_colours redData redInitial redSwapped (AtomMove.mk 1 0 0)
      (AtomMove.mk 0 1 1) (by decide) (by decide) (by decide) (Option.some_get _).symm⟩

end TabuSearch
